import Mathlib

/-!
Verification of the compressed sparse column (CSC) matrix core
(`src/sparse/cs_matrix.rs`): storage model, `cumsum`, `transpose`,
`scatter`, sparse addition and multiplication, dense interop and
`axpy_cs`, shallowly embedded as executable Lean functions.

Modelling conventions:
* Rust `usize` indices and counts are modelled as `Nat` (the quantities
  involved are array lengths and indices; no wrap-around arithmetic is
  performed on them in the source).
* `Vec<T>` / owned storage buffers are modelled as `List`s; in-place
  writes `v[k] = x` become `List.set k x`, reads become `List.getD k d`.
* Buffers the source allocates uninitialized (`new_uninitialized_generic`,
  the dense workspace of add/mul) are modelled as zero-filled lists; the
  source's contract is that every slot is written before it is read, so
  the fill value is never observable on the verified paths.
* A fatal `assert!` is modelled by returning `Option` (`none` = abort).
-/

set_option maxHeartbeats 1600000

namespace CsCheck

/-- CSC matrix: shape, column start pointers `p` (one per column), row
indices `i` and values `vals` (one per stored entry).  Mirrors
`CsVecStorage { shape, p, i, vals }` wrapped in `CsMatrix`. -/
structure CsMatrix (N : Type) where
  nrows : Nat
  ncols : Nat
  p : List Nat
  i : List Nat
  vals : List N
deriving DecidableEq, Repr

namespace CsMatrix

variable {N : Type}

/-- `CsStorage::nvalues`: `self.vals.len()`. -/
def nvalues (m : CsMatrix N) : Nat := m.vals.length

/-- Start of column `j`'s range: `self.p[j]`. -/
def colStart (m : CsMatrix N) (j : Nat) : Nat := m.p.getD j 0

/-- End of column `j`'s range, as in `CsStorage::column_range`:
`if j + 1 == self.p.len() { self.nvalues() } else { self.p[j + 1] }`. -/
def colEnd (m : CsMatrix N) (j : Nat) : Nat :=
  if j + 1 = m.p.length then m.nvalues else m.p.getD (j + 1) 0

/-- `CsStorage::row_index`. -/
def rowIndex (m : CsMatrix N) (k : Nat) : Nat := m.i.getD k 0

/-- `CsStorage::get_value` (values default to `0` out of range; the
source panics there and no verified path reaches that case). -/
def getValue [Zero N] (m : CsMatrix N) (k : Nat) : N := m.vals.getD k 0

/-- The indices of column `j`'s range `p[j] .. colEnd j`. -/
def colIdx (m : CsMatrix N) (j : Nat) : List Nat :=
  List.range' (m.colStart j) (m.colEnd j - m.colStart j)

/-- The `(row, value)` pairs stored in column `j`, in storage order. -/
def columnEntries [Zero N] (m : CsMatrix N) (j : Nat) : List (Nat × N) :=
  (m.colIdx j).map fun k => (m.rowIndex k, m.getValue k)

/-- The row indices stored in column `j`, in storage order. -/
def colRows [Zero N] (m : CsMatrix N) (j : Nat) : List Nat :=
  (m.columnEntries j).map Prod.fst

/-- All stored `(row, column, value)` triples, in column-major storage
order. -/
def triples [Zero N] (m : CsMatrix N) : List (Nat × Nat × N) :=
  (List.range m.ncols).flatMap fun j =>
    (m.columnEntries j).map fun e => (e.1, j, e.2)

/-- The structural invariants of the CSC data model (spec §3):
`p` has one slot per column, `i` and `vals` have equal length,
`p` starts at `0`, each column range is well ordered and within the
value buffer, every stored row index is below the row count, and a
matrix with no columns stores no values. -/
def Inv [Zero N] (m : CsMatrix N) : Prop :=
  m.p.length = m.ncols ∧
  m.i.length = m.vals.length ∧
  (0 < m.ncols → m.colStart 0 = 0) ∧
  (m.ncols = 0 → m.nvalues = 0) ∧
  (∀ j, j < m.ncols → m.colStart j ≤ m.colEnd j ∧ m.colEnd j ≤ m.nvalues) ∧
  (∀ j, j < m.ncols → ∀ r ∈ m.colRows j, r < m.nrows)

/-- No column stores the same row index twice. -/
def ColsNodup [Zero N] (m : CsMatrix N) : Prop :=
  ∀ j, j < m.ncols → (m.colRows j).Nodup

/-- Well-formedness: the structural invariants plus duplicate-free
columns. -/
def WF [Zero N] (m : CsMatrix N) : Prop := m.Inv ∧ m.ColsNodup

/-- Row indices ascend strictly within every column. -/
def SortedCols [Zero N] (m : CsMatrix N) : Prop :=
  ∀ j, j < m.ncols → (m.colRows j).Chain' (· < ·)

/-- Sum of the values stored in column `j` at row `r` (for a
duplicate-free column this is the stored value at `(r, j)`, or `0`). -/
def colSum [Zero N] [Add N] (m : CsMatrix N) (j r : Nat) : N :=
  (((m.columnEntries j).filter fun e => e.1 = r).map Prod.snd).sum

instance [Zero N] (m : CsMatrix N) : Decidable m.Inv := by
  unfold Inv; infer_instance

instance [Zero N] (m : CsMatrix N) : Decidable m.ColsNodup := by
  unfold ColsNodup; infer_instance

instance [Zero N] (m : CsMatrix N) : Decidable m.WF := by
  unfold WF; infer_instance

instance [Zero N] (m : CsMatrix N) : Decidable m.SortedCols :=
  inferInstanceAs (Decidable (∀ j, j < m.ncols → (m.colRows j).Chain' (· < ·)))

end CsMatrix

/-- A dense matrix, modelling the external dense `Matrix` collaborator as
a shape plus an entry function (spec §1 treats dense storage as an
external abstraction the core reads from and writes into). -/
structure DMatrix (N : Type) where
  nrows : Nat
  ncols : Nat
  entry : Nat → Nat → N

/-- One dense write `res[(r, c)] = v`. -/
def dwrite {N : Type} (f : Nat → Nat → N) (r c : Nat) (v : N) : Nat → Nat → N :=
  fun r' c' => if r' = r ∧ c' = c then v else f r' c'

/-- `From<CsMatrix> for MatrixMN`: zero-fill a dense matrix, then for
each column and each stored entry write `res[(i, j)] = value`. -/
def toDense {N : Type} [Zero N] (m : CsMatrix N) : DMatrix N :=
  ⟨m.nrows, m.ncols,
    (List.range m.ncols).foldl
      (fun f j => (m.columnEntries j).foldl (fun f e => dwrite f e.1 j e.2) f)
      (fun _ _ => 0)⟩

/-- The nonzero count of the dense source, `m.iter().filter(|e| !e.is_zero()).count()`
(column-major iteration). -/
def denseCount {N : Type} [Zero N] [DecidableEq N] (M : DMatrix N) : Nat :=
  ((List.range M.ncols).flatMap fun j =>
    (List.range M.nrows).filter fun i => decide (M.entry i j ≠ 0)).length

/-- The builder state of `From<Matrix> for CsMatrix`: the cursor `nz`
and the output buffers `p`, `i`, `vals`. -/
structure BuildState (N : Type) where
  nz : Nat
  p : List Nat
  ib : List Nat
  vb : List N
deriving Repr

/-- One cell `(i, j)` of the dense source: append the entry if it is
not exactly zero. -/
def fromDenseCell {N : Type} [Zero N] [DecidableEq N] (M : DMatrix N) (j : Nat)
    (st : BuildState N) (i : Nat) : BuildState N :=
  if M.entry i j = 0 then st
  else
    { st with
      nz := st.nz + 1
      ib := st.ib.set st.nz i
      vb := st.vb.set st.nz (M.entry i j) }

/-- One column of `From<Matrix> for CsMatrix`: record `p[j] = nz`, then
scan the column's rows in ascending order. -/
def fromDenseCol {N : Type} [Zero N] [DecidableEq N] (M : DMatrix N)
    (st : BuildState N) (j : Nat) : BuildState N :=
  (List.range M.nrows).foldl (fromDenseCell M j) { st with p := st.p.set j st.nz }

/-- `From<Matrix> for CsMatrix`: count nonzero entries, then per column
record `p[j] = nz` and append each exactly-nonzero entry in ascending
row order. -/
def fromDense {N : Type} [Zero N] [DecidableEq N] (M : DMatrix N) : CsMatrix N :=
  let nvalues := denseCount M
  let st :=
    (List.range M.ncols).foldl (fromDenseCol M)
      ⟨0, List.replicate M.ncols 0, List.replicate nvalues 0,
        List.replicate nvalues (0 : N)⟩
  ⟨M.nrows, M.ncols, st.p, st.ib, st.vb⟩

/-- Modelled from the spec: dense matrix addition, the entrywise-sum
ground truth of §8 ("dense addition as ground truth"); the dense `Add`
implementation itself lives outside this core. -/
def denseAdd {N : Type} [Add N] (A B : DMatrix N) : DMatrix N :=
  ⟨A.nrows, A.ncols, fun i j => A.entry i j + B.entry i j⟩

/-- Modelled from the spec: dense matrix multiplication, the ground
truth of §8 ("dense multiplication as ground truth"); entry `(i, j)` is
the inner product of row `i` of `A` with column `j` of `B`.  The dense
`Mul` implementation itself lives outside this core. -/
def denseMul {N : Type} [Zero N] [Add N] [Mul N] (A B : DMatrix N) : DMatrix N :=
  ⟨A.nrows, B.ncols, fun i j =>
    ((List.range A.ncols).map fun k => A.entry i k * B.entry k j).sum⟩

/-- One iteration of `cumsum`'s loop at index `i`:
`b[i] = sum; sum += a[i]; a[i] = b[i]`. -/
def cumsumStep (s : List Nat × List Nat × Nat) (i : Nat) : List Nat × List Nat × Nat :=
  let b := s.2.1.set i s.2.2
  let sum := s.2.2 + s.1.getD i 0
  let a := s.1.set i (b.getD i 0)
  (a, b, sum)

/-- The loop of `cumsum` over all indices, returning the final
`(a, b, sum)`. -/
def cumsumLoop (a b : List Nat) : List Nat × List Nat × Nat :=
  (List.range a.length).foldl cumsumStep (a, b, 0)

/-- `cumsum`: asserts `a.len() == b.len()` (fatal on violation, modelled
as `none`), then runs the accumulation loop. -/
def cumsum (a b : List Nat) : Option (List Nat × List Nat × Nat) :=
  if a.length = b.length then some (cumsumLoop a b) else none

/-- The state of `transpose`'s fill pass: the live per-row cursor and
the output `i` / `vals` buffers. -/
structure TState (N : Type) where
  cursor : List Nat
  ib : List Nat
  vb : List N
deriving Repr

/-- One entry `(row, value)` of input column `j` during `transpose`'s
fill pass: place `(j, value)` at the row's cursor, then advance it. -/
def transposeFillStep {N : Type} (j : Nat) (st : TState N) (e : Nat × N) : TState N :=
  let shift := st.cursor.getD e.1 0
  ⟨st.cursor.set e.1 (shift + 1), st.ib.set shift j, st.vb.set shift e.2⟩

/-- The fill pass of `transpose` for input column `j`. -/
def transposeFillCol {N : Type} [Zero N] (m : CsMatrix N) (st : TState N)
    (j : Nat) : TState N :=
  (m.columnEntries j).foldl (transposeFillStep j) st

/-- The count pass of `transpose`: one increment per stored entry, in
the bucket of its row. -/
def transposeCountStep {N : Type} [Zero N] (m : CsMatrix N) (w : List Nat)
    (k : Nat) : List Nat :=
  w.set (m.rowIndex k) (w.getD (m.rowIndex k) 0 + 1)

/-- `CsMatrix::transpose`: count entries per input row, `cumsum` the
counts into the output column pointers and a live cursor, then stream
the input entries column by column, placing each at its row's cursor. -/
def CsMatrix.transpose {N : Type} [Zero N] (m : CsMatrix N) : CsMatrix N :=
  let nvals := m.nvalues
  let w1 := (List.range nvals).foldl (transposeCountStep m) (List.replicate m.nrows 0)
  let cs := cumsumLoop w1 (List.replicate m.nrows 0)
  let fin :=
    (List.range m.ncols).foldl (transposeFillCol m)
      ⟨cs.1, List.replicate nvals 0, List.replicate nvals (0 : N)⟩
  ⟨m.ncols, m.nrows, cs.2.1, fin.ib, fin.vb⟩

/-- The mutable state threaded through add/mul: the epoch array
`timestamps`, the dense `workspace`, the output cursor `nz`, and the
output buffers `res.data.i`, `res.data.vals`, `res.data.p`. -/
structure KState (N : Type) where
  ts : List Nat
  ws : List N
  nz : Nat
  resI : List Nat
  resV : List N
  p : List Nat
deriving Repr

/-- One iteration of `CsMatrix::scatter`'s loop on a scaled entry
`(i, val)`: first touch this epoch stamps the row, appends it to the
output row indices and sets the workspace; a repeated touch accumulates
into the workspace. -/
def scatterStep {N : Type} [Zero N] [Add N] (timestamp : Nat) (s : KState N)
    (e : Nat × N) : KState N :=
  if s.ts.getD e.1 0 < timestamp then
    { s with
      ts := s.ts.set e.1 timestamp
      resI := s.resI.set s.nz e.1
      nz := s.nz + 1
      ws := s.ws.set e.1 e.2 }
  else
    { s with ws := s.ws.set e.1 (s.ws.getD e.1 0 + e.2) }

/-- `scatter`'s loop over an explicit stream of already scaled
`(row, value)` pairs. -/
def scatterFlat {N : Type} [Zero N] [Add N] (flat : List (Nat × N))
    (timestamp : Nat) (s : KState N) : KState N :=
  flat.foldl (scatterStep timestamp) s

/-- `CsMatrix::scatter`: for every entry `(i, v)` of column `j` compute
`val = beta * v` and scatter it at epoch `timestamp`. -/
def CsMatrix.scatter {N : Type} [Zero N] [Add N] [Mul N] (m : CsMatrix N)
    (j : Nat) (beta : N) (timestamp : Nat) (s : KState N) : KState N :=
  scatterFlat ((m.columnEntries j).map fun e => (e.1, beta * e.2)) timestamp s

/-- The gather loop of add/mul: for `p` in `res.p[j] .. nz`, copy
`workspace[res.i[p]]` into `res.vals[p]`. -/
def gatherCol {N : Type} [Zero N] (start : Nat) (s : KState N) : KState N :=
  { s with
    resV :=
      (List.range' start (s.nz - start)).foldl
        (fun v pp => v.set pp (s.ws.getD (s.resI.getD pp 0) 0)) s.resV }

/-- One column of `Add::add`: record `p[j] = nz`, scatter column `j` of
both operands with scale one at epoch `j + 1`, then gather. -/
def addCol {N : Type} [Zero N] [One N] [Add N] [Mul N] (a b : CsMatrix N)
    (s : KState N) (j : Nat) : KState N :=
  let s := { s with p := s.p.set j s.nz }
  let s := a.scatter j 1 (j + 1) s
  let s := b.scatter j 1 (j + 1) s
  gatherCol (s.p.getD j 0) s

/-- The body of `Add::add` after the shape assertion. -/
def csAddImpl {N : Type} [Zero N] [One N] [Add N] [Mul N]
    (a b : CsMatrix N) : CsMatrix N :=
  let cap := a.nvalues + b.nvalues
  let s0 : KState N :=
    ⟨List.replicate a.nrows 0, List.replicate a.nrows 0, 0,
      List.replicate cap 0, List.replicate cap 0, List.replicate b.ncols 0⟩
  let s := (List.range b.ncols).foldl (addCol a b) s0
  ⟨a.nrows, b.ncols, s.p, s.resI.take s.nz, s.resV.take s.nz⟩

/-- `Add::add`: the `assert_eq!` on the operand shapes is fatal,
modelled as `none`; otherwise the addition runs to completion. -/
def CsMatrix.add {N : Type} [Zero N] [One N] [Add N] [Mul N]
    (a b : CsMatrix N) : Option (CsMatrix N) :=
  if (a.nrows, a.ncols) = (b.nrows, b.ncols) then some (csAddImpl a b) else none

/-- `Vec::resize(n, d)`: truncate to `n` or pad with `d` up to `n`. -/
def resizeList {α : Type} (l : List α) (n : Nat) (d : α) : List α :=
  if n ≤ l.length then l.take n else l ++ List.replicate (n - l.length) d

/-- One column of `Mul::mul`: record `p[j] = nz`, resize the output
buffers to `nz + nrows1`, scatter column `i` of `lhs` scaled by each
entry `(i, v)` of `rhs`'s column `j` at epoch `j + 1`, then gather. -/
def mulCol {N : Type} [Zero N] [Add N] [Mul N] (a b : CsMatrix N)
    (s : KState N) (j : Nat) : KState N :=
  let s := { s with p := s.p.set j s.nz }
  let bound := s.nz + a.nrows
  let s := { s with
    resI := resizeList s.resI bound 0
    resV := resizeList s.resV bound 0 }
  let s := (b.columnEntries j).foldl (fun s e => a.scatter e.1 e.2 (j + 1) s) s
  gatherCol (s.p.getD j 0) s

/-- The body of `Mul::mul` after the dimension assertion. -/
def csMulImpl {N : Type} [Zero N] [Add N] [Mul N] (a b : CsMatrix N) : CsMatrix N :=
  let cap := a.nvalues + b.nvalues
  let s0 : KState N :=
    ⟨List.replicate a.nrows 0, List.replicate a.nrows 0, 0,
      List.replicate cap 0, List.replicate cap 0, List.replicate b.ncols 0⟩
  let s := (List.range b.ncols).foldl (mulCol a b) s0
  ⟨a.nrows, b.ncols, s.p, s.resI.take s.nz, s.resV.take s.nz⟩

/-- `Mul::mul`: the `assert_eq!(ncols1, nrows2)` is fatal, modelled as
`none`; otherwise the multiplication runs to completion. -/
def CsMatrix.mul {N : Type} [Zero N] [Add N] [Mul N]
    (a b : CsMatrix N) : Option (CsMatrix N) :=
  if a.ncols = b.nrows then some (csMulImpl a b) else none

/-- `Vector::axpy_cs` on `y` (dense, as a list of components):
`y = alpha * x + beta * y` with sparse `x`.  With `beta == 0` only the
rows present in `x` are written; otherwise the whole vector is scaled
by `beta` first (the componentwise `*self *= beta` of the dense
collaborator), then `alpha * x[row]` is added at each present row. -/
def axpy_cs {N : Type} [Zero N] [Add N] [Mul N] [DecidableEq N]
    (y : List N) (alpha : N) (x : CsMatrix N) (beta : N) : List N :=
  if beta = 0 then
    (List.range x.nvalues).foldl
      (fun y k => y.set (x.rowIndex k) (alpha * x.getValue k)) y
  else
    let y := y.map fun v => v * beta
    (List.range x.nvalues).foldl
      (fun y k => y.set (x.rowIndex k) (y.getD (x.rowIndex k) 0 + alpha * x.getValue k)) y

/-! ## Specification-side definitions (used to state the theorems) -/

/-- Sequential writes `l[k] = xs[0]`, `l[k+1] = xs[1]`, ... -/
def writeSeq {α : Type} (l : List α) (k : Nat) : List α → List α
  | [] => l
  | x :: xs => writeSeq (l.set k x) (k + 1) xs

/-- The first `k` iterations of `cumsum`'s loop. -/
def cumsumPart (a b : List Nat) (k : Nat) : List Nat × List Nat × Nat :=
  (List.range k).foldl cumsumStep (a, b, 0)

/-- First occurrences of the elements of a list, skipping those already
in `seen`: the order in which `scatter` first touches rows. -/
def newRows (seen : List Nat) : List Nat → List Nat
  | [] => []
  | r :: rs => if r ∈ seen then newRows seen rs else r :: newRows (r :: seen) rs

/-- The sum of the values a scaled entry stream carries at row `r`. -/
def rowSum {N : Type} [Zero N] [Add N] (flat : List (Nat × N)) (r : Nat) : N :=
  ((flat.filter fun e => e.1 = r).map Prod.snd).sum

/-- The scaled entry stream scattered into output column `j` by
`Add::add`: both operand columns with scale one. -/
def addFlat {N : Type} [Zero N] [One N] [Mul N] (a b : CsMatrix N) (j : Nat) :
    List (Nat × N) :=
  ((a.columnEntries j).map fun e => (e.1, (1 : N) * e.2)) ++
    ((b.columnEntries j).map fun e => (e.1, (1 : N) * e.2))

/-- The scaled entry stream scattered into output column `j` by
`Mul::mul`: for each entry `(k, v)` of `rhs`'s column `j`, `lhs`'s
column `k` scaled by `v`. -/
def mulFlat {N : Type} [Zero N] [Mul N] (a b : CsMatrix N) (j : Nat) :
    List (Nat × N) :=
  (b.columnEntries j).flatMap fun e =>
    (a.columnEntries e.1).map fun e2 => (e2.1, e.2 * e2.2)

/-- The rows of output column `j` of `Add::add`, in append order. -/
def addColNews {N : Type} [Zero N] [One N] [Mul N] (a b : CsMatrix N) (j : Nat) :
    List Nat :=
  newRows [] ((addFlat a b j).map Prod.fst)

/-- The rows of output column `j` of `Mul::mul`, in append order. -/
def mulColNews {N : Type} [Zero N] [Mul N] (a b : CsMatrix N) (j : Nat) :
    List Nat :=
  newRows [] ((mulFlat a b j).map Prod.fst)

/-- Start offset of output column `j` in the output buffers of
`Add::add`: the number of entries appended for earlier columns. -/
def addOffsets {N : Type} [Zero N] [One N] [Mul N] (a b : CsMatrix N) (j : Nat) :
    Nat :=
  ((List.range j).map fun j2 => (addColNews a b j2).length).sum

/-- Start offset of output column `j` in the output buffers of
`Mul::mul`. -/
def mulOffsets {N : Type} [Zero N] [Mul N] (a b : CsMatrix N) (j : Nat) : Nat :=
  ((List.range j).map fun j2 => (mulColNews a b j2).length).sum

/-- The kernel state of `Add::add` after processing the first `k`
output columns. -/
def addLoopState {N : Type} [Zero N] [One N] [Add N] [Mul N]
    (a b : CsMatrix N) (k : Nat) : KState N :=
  (List.range k).foldl (addCol a b)
    ⟨List.replicate a.nrows 0, List.replicate a.nrows 0, 0,
      List.replicate (a.nvalues + b.nvalues) 0,
      List.replicate (a.nvalues + b.nvalues) 0, List.replicate b.ncols 0⟩

/-- The kernel state of `Mul::mul` after processing the first `k`
output columns. -/
def mulLoopState {N : Type} [Zero N] [Add N] [Mul N]
    (a b : CsMatrix N) (k : Nat) : KState N :=
  (List.range k).foldl (mulCol a b)
    ⟨List.replicate a.nrows 0, List.replicate a.nrows 0, 0,
      List.replicate (a.nvalues + b.nvalues) 0,
      List.replicate (a.nvalues + b.nvalues) 0, List.replicate b.ncols 0⟩

/-- The rows of column `j` of a dense matrix holding entries that are
not exactly zero, in ascending order. -/
def colNonzeroRows {N : Type} [Zero N] [DecidableEq N] (M : DMatrix N)
    (j : Nat) : List Nat :=
  (List.range M.nrows).filter fun i => decide (M.entry i j ≠ 0)

/-- Start offset of column `j` in the buffers built by
`From<Matrix> for CsMatrix`. -/
def dOffsets {N : Type} [Zero N] [DecidableEq N] (M : DMatrix N) (j : Nat) :
    Nat :=
  ((List.range j).map fun j2 => (colNonzeroRows M j2).length).sum

/-- The builder state of `From<Matrix> for CsMatrix` after the first
`k` columns. -/
def fromDenseLoopState {N : Type} [Zero N] [DecidableEq N] (M : DMatrix N)
    (k : Nat) : BuildState N :=
  (List.range k).foldl (fromDenseCol M)
    ⟨0, List.replicate M.ncols 0, List.replicate (denseCount M) 0,
      List.replicate (denseCount M) (0 : N)⟩

/-- The number of stored entries carrying row `r` (over the whole
matrix, in column-major triple order). -/
def rowCount {N : Type} [Zero N] (m : CsMatrix N) (r : Nat) : Nat :=
  (m.triples.map fun t => t.1).count r

/-- Start offset of output column `r` of `transpose` (entries of
earlier rows come first). -/
def tOffsets {N : Type} [Zero N] (m : CsMatrix N) (r : Nat) : Nat :=
  ((List.range r).map (rowCount m)).sum

/-- The `(column, value)` occurrences of row `r`, in column-major
order: the entries of output column `r` of `transpose`. -/
def occs {N : Type} [Zero N] (m : CsMatrix N) (r : Nat) : List (Nat × N) :=
  (m.triples.filter fun t => t.1 = r).map fun t => (t.2.1, t.2.2)

/-- One triple `(row, column, value)` of `transpose`'s fill pass, as a
single step on the fill state. -/
def tStep {N : Type} (st : TState N) (t : Nat × Nat × N) : TState N :=
  let shift := st.cursor.getD t.1 0
  ⟨st.cursor.set t.1 (shift + 1), st.ib.set shift t.2.1, st.vb.set shift t.2.2⟩

/-- The count pass of `transpose`, as a standalone value: one bucket
increment per stored entry. -/
def tCounts {N : Type} [Zero N] (m : CsMatrix N) : List Nat :=
  (List.range m.nvalues).foldl (transposeCountStep m) (List.replicate m.nrows 0)

/-- The `cumsum` of `transpose`'s count pass: live cursor (first) and
output column pointers (second). -/
def tCs {N : Type} [Zero N] (m : CsMatrix N) : List Nat × List Nat × Nat :=
  cumsumLoop (tCounts m) (List.replicate m.nrows 0)

/-- The final fill state of `transpose`. -/
def tFin {N : Type} [Zero N] (m : CsMatrix N) : TState N :=
  (List.range m.ncols).foldl (transposeFillCol m)
    ⟨(tCs m).1, List.replicate m.nvalues 0, List.replicate m.nvalues (0 : N)⟩

/-- The entry map of `transpose`: `(i, j, v)` becomes `(j, i, v)`. -/
def tSwap {N : Type} (t : Nat × Nat × N) : Nat × Nat × N :=
  (t.2.1, t.1, t.2.2)

/-- Number of entries of a dense matrix that are not exactly zero. -/
def denseNnz {N : Type} [Zero N] [DecidableEq N] (M : DMatrix N) : Nat :=
  ((List.range M.nrows).flatMap fun i =>
    (List.range M.ncols).filter fun j => decide (M.entry i j ≠ 0)).length

/-! ## Generic list lemmas used throughout -/

theorem getD_set_self {α : Type} {l : List α} {k : Nat} (h : k < l.length)
    (v d : α) : (l.set k v).getD k d = v := by
  simp [List.getD_eq_getElem?_getD, List.getElem?_set_self', h,
    List.getElem?_eq_getElem]

theorem getD_set_ne {α : Type} {l : List α} {k k' : Nat} (h : k ≠ k')
    (v d : α) : (l.set k v).getD k' d = l.getD k' d := by
  simp [List.getD_eq_getElem?_getD, List.getElem?_set_ne h]

theorem writeSeq_length {α : Type} (xs : List α) (l : List α) (k : Nat) :
    (writeSeq l k xs).length = l.length := by
  induction xs generalizing l k with
  | nil => rfl
  | cons x xs ih => simp [writeSeq, ih]

theorem writeSeq_getD_lt {α : Type} (xs : List α) (l : List α) (k j : Nat)
    (h : j < k) (d : α) : (writeSeq l k xs).getD j d = l.getD j d := by
  induction xs generalizing l k with
  | nil => rfl
  | cons x xs ih =>
    rw [writeSeq, ih _ _ (Nat.lt_succ_of_lt h), getD_set_ne (Nat.ne_of_gt h)]

theorem take_set_of_le {α : Type} (l : List α) (k n : Nat) (v : α) (h : n ≤ k) :
    (l.set k v).take n = l.take n := by
  apply List.ext_getElem
  · simp
  · intro j h1 h2
    have hj : j < n := by
      have := h1; simp only [List.length_take] at this; omega
    simp only [List.getElem_take]
    exact List.getElem_set_ne (by omega) _

theorem writeSeq_take {α : Type} (xs : List α) (l : List α) (k n : Nat)
    (h : n ≤ k) : (writeSeq l k xs).take n = l.take n := by
  induction xs generalizing l k with
  | nil => rfl
  | cons x xs ih =>
    rw [writeSeq, ih _ _ (Nat.le_succ_of_le h), take_set_of_le _ _ _ _ h]

theorem set_take_succ {α : Type} (l : List α) (k : Nat) (v : α)
    (h : k < l.length) : (l.set k v).take (k + 1) = l.take k ++ [v] := by
  apply List.ext_getElem
  · simp; omega
  · intro j h1 h2
    have hjk : j < k + 1 := by
      have := h1; simp only [List.length_take] at this; omega
    simp only [List.getElem_take]
    rcases Nat.lt_or_ge j k with hj | hj
    · rw [List.getElem_set_ne (by omega)]
      rw [List.getElem_append_left (by simp [List.length_take]; omega)]
      simp [List.getElem_take]
    · have hjeq : j = k := by omega
      subst hjeq
      rw [List.getElem_set_self]
      rw [List.getElem_append_right (by simp only [List.length_take]; omega)]
      simp [List.length_take]

theorem writeSeq_take_all {α : Type} (xs : List α) (l : List α) (k : Nat)
    (h : k + xs.length ≤ l.length) :
    (writeSeq l k xs).take (k + xs.length) = l.take k ++ xs := by
  induction xs generalizing l k with
  | nil => simp [writeSeq]
  | cons x xs ih =>
    rw [writeSeq]
    have h1 : (k + 1) + xs.length ≤ (l.set k x).length := by
      simp at h ⊢; omega
    have := ih (l.set k x) (k + 1) h1
    have harr : k + (x :: xs).length = (k + 1) + xs.length := by
      simp; omega
    rw [harr, this, set_take_succ _ _ _ (by simp at h ⊢; omega)]
    simp

theorem writeSeq_append {α : Type} (xs ys : List α) (l : List α) (k : Nat) :
    writeSeq l k (xs ++ ys) = writeSeq (writeSeq l k xs) (k + xs.length) ys := by
  induction xs generalizing l k with
  | nil => simp [writeSeq]
  | cons x xs ih =>
    rw [List.cons_append, writeSeq, ih, writeSeq]
    congr 1
    simp
    omega

theorem sum_take_succ {M : Type} [AddMonoid M] (l : List M) (k : Nat)
    (h : k < l.length) : (l.take (k + 1)).sum = (l.take k).sum + l.getD k 0 := by
  rw [List.take_succ, List.sum_append, List.getElem?_eq_getElem h]
  simp [List.getD_eq_getElem?_getD, List.getElem?_eq_getElem h]

/-! ## `cumsum` (C7) -/

theorem cumsumPart_succ (a b : List Nat) (k : Nat) :
    cumsumPart a b (k + 1) = cumsumStep (cumsumPart a b k) k := by
  unfold cumsumPart
  rw [List.range_succ, List.foldl_append]
  rfl

theorem cumsumPart_spec (a b : List Nat) (h : a.length = b.length) :
    ∀ k, k ≤ a.length →
      (cumsumPart a b k).1.length = a.length ∧
      (cumsumPart a b k).2.1.length = b.length ∧
      (cumsumPart a b k).2.2 = (a.take k).sum ∧
      (∀ idx, (idx < k → (cumsumPart a b k).2.1.getD idx 0 = (a.take idx).sum) ∧
              (k ≤ idx → (cumsumPart a b k).2.1.getD idx 0 = b.getD idx 0)) ∧
      (∀ idx, (idx < k → (cumsumPart a b k).1.getD idx 0 = (a.take idx).sum) ∧
              (k ≤ idx → (cumsumPart a b k).1.getD idx 0 = a.getD idx 0)) := by
  intro k
  induction k with
  | zero =>
    intro _
    refine ⟨rfl, rfl, by simp [cumsumPart], ?_, ?_⟩ <;>
      exact fun idx => ⟨fun hidx => absurd hidx (Nat.not_lt_zero idx), fun _ => rfl⟩
  | succ k ih =>
    intro hk
    have hk' : k ≤ a.length := Nat.le_of_succ_le hk
    have hklt : k < a.length := hk
    obtain ⟨hal, hbl, hsum, hb, ha⟩ := ih hk'
    rw [cumsumPart_succ]
    set s := cumsumPart a b k with hs
    have hstep : cumsumStep s k =
        (s.1.set k ((s.2.1.set k s.2.2).getD k 0),
         s.2.1.set k s.2.2, s.2.2 + s.1.getD k 0) := rfl
    rw [hstep]
    have hreadA : s.1.getD k 0 = a.getD k 0 := (ha k).2 (Nat.le_refl k)
    have hbset : (s.2.1.set k s.2.2).getD k 0 = s.2.2 :=
      getD_set_self (by rw [hbl, ← h]; exact hklt) _ _
    refine ⟨by simp [hal], by simp [hbl], ?_, ?_, ?_⟩
    · simp only [hsum, hreadA]
      exact (sum_take_succ a k hklt).symm
    · intro idx
      constructor
      · intro hidx
        rcases Nat.lt_or_ge idx k with hlt | hge
        · rw [getD_set_ne (by omega)]
          exact (hb idx).1 hlt
        · have : idx = k := by omega
          subst this
          rw [hbset]
          exact hsum
      · intro hidx
        rw [getD_set_ne (by omega)]
        exact (hb idx).2 (by omega)
    · intro idx
      constructor
      · intro hidx
        rcases Nat.lt_or_ge idx k with hlt | hge
        · rw [getD_set_ne (by omega)]
          exact (ha idx).1 hlt
        · have : idx = k := by omega
          subst this
          rw [getD_set_self (by rw [hal]; exact hklt), hbset]
          exact hsum
      · intro hidx
        rw [getD_set_ne (by omega)]
        exact (ha idx).2 (by omega)

theorem cumsumLoop_eq_part (a b : List Nat) :
    cumsumLoop a b = cumsumPart a b a.length := rfl

/-- C7: for equal-length `counts` and `starts`, `cumsum` succeeds,
writes into `starts` at each index `i` the exclusive running sum of
`counts[0..i]`, overwrites `counts` with the same offsets (the two
output sequences are equal), and returns the grand total of the
original counts. -/
theorem claim_C7_cumsum (a b : List Nat) (h : a.length = b.length) :
    cumsum a b = some (cumsumLoop a b) ∧
    (cumsumLoop a b).2.1.length = b.length ∧
    (∀ idx, idx < b.length → (cumsumLoop a b).2.1.getD idx 0 = (a.take idx).sum) ∧
    (cumsumLoop a b).1 = (cumsumLoop a b).2.1 ∧
    (cumsumLoop a b).2.2 = a.sum := by
  obtain ⟨hal, hbl, hsum, hb, ha⟩ :=
    cumsumPart_spec a b h a.length (Nat.le_refl _)
  rw [cumsumLoop_eq_part]
  refine ⟨by rw [show cumsum a b =
      if a.length = b.length then some (cumsumLoop a b) else none from rfl,
      if_pos h]; rfl, hbl, ?_, ?_, by rw [hsum, List.take_length]⟩
  · intro idx hidx
    exact (hb idx).1 (h ▸ hidx)
  · apply List.ext_getElem (by rw [hal, hbl, h])
    intro n h1 h2
    have hn : n < a.length := by rw [← hal]; exact h1
    have e1 : (cumsumPart a b a.length).1[n] =
        (cumsumPart a b a.length).1.getD n 0 := by
      simp [List.getD_eq_getElem?_getD, List.getElem?_eq_getElem h1]
    have e2 : (cumsumPart a b a.length).2.1[n] =
        (cumsumPart a b a.length).2.1.getD n 0 := by
      simp [List.getD_eq_getElem?_getD, List.getElem?_eq_getElem h2]
    rw [e1, e2, (ha n).1 hn, (hb n).1 hn]

/-- C7 witness: the theorem instantiated at `counts = [3, 0, 2]`,
`starts = [0, 0, 0]`. -/
theorem claim_C7_cumsum_witness :
    cumsum [3, 0, 2] [0, 0, 0] = some (cumsumLoop [3, 0, 2] [0, 0, 0]) ∧
    (cumsumLoop [3, 0, 2] [0, 0, 0]).2.1.length = ([0, 0, 0] : List Nat).length ∧
    (∀ idx, idx < ([0, 0, 0] : List Nat).length →
      (cumsumLoop [3, 0, 2] [0, 0, 0]).2.1.getD idx 0 =
        (([3, 0, 2] : List Nat).take idx).sum) ∧
    (cumsumLoop [3, 0, 2] [0, 0, 0]).1 = (cumsumLoop [3, 0, 2] [0, 0, 0]).2.1 ∧
    (cumsumLoop [3, 0, 2] [0, 0, 0]).2.2 = ([3, 0, 2] : List Nat).sum :=
  claim_C7_cumsum [3, 0, 2] [0, 0, 0] (by decide)

/-! ## `scatter` characterization -/

theorem mem_newRows (rs : List Nat) : ∀ (seen : List Nat) (r : Nat),
    r ∈ newRows seen rs ↔ r ∈ rs ∧ r ∉ seen := by
  induction rs with
  | nil => intro seen r; simp [newRows]
  | cons r0 rs ih =>
    intro seen r
    rw [newRows]
    by_cases h0 : r0 ∈ seen
    · rw [if_pos h0, ih]
      constructor
      · exact fun ⟨h1, h2⟩ => ⟨List.mem_cons_of_mem _ h1, h2⟩
      · rintro ⟨h1, h2⟩
        rcases List.mem_cons.mp h1 with h1 | h1
        · exact absurd (h1 ▸ h0) h2
        · exact ⟨h1, h2⟩
    · rw [if_neg h0]
      constructor
      · intro hr
        rcases List.mem_cons.mp hr with hr | hr
        · exact ⟨hr ▸ List.mem_cons_self _ _, hr ▸ h0⟩
        · obtain ⟨h1, h2⟩ := (ih _ r).mp hr
          exact ⟨List.mem_cons_of_mem _ h1,
            fun hc => h2 (List.mem_cons_of_mem _ hc)⟩
      · rintro ⟨h1, h2⟩
        by_cases hrr : r = r0
        · exact hrr ▸ List.mem_cons_self _ _
        · rcases List.mem_cons.mp h1 with h1 | h1
          · exact absurd h1 hrr
          · exact List.mem_cons_of_mem _ ((ih _ r).mpr
              ⟨h1, fun hc => by
                rcases List.mem_cons.mp hc with hc | hc
                exacts [hrr hc, h2 hc]⟩)

theorem newRows_nodup (rs : List Nat) : ∀ seen, (newRows seen rs).Nodup := by
  induction rs with
  | nil => intro seen; simp [newRows]
  | cons r0 rs ih =>
    intro seen
    rw [newRows]
    by_cases h0 : r0 ∈ seen
    · rw [if_pos h0]; exact ih seen
    · rw [if_neg h0]
      refine List.nodup_cons.mpr ⟨?_, ih _⟩
      intro hc
      exact ((mem_newRows rs _ r0).mp hc).2 (List.mem_cons_self _ _)

theorem newRows_length_le (rs : List Nat) : ∀ seen,
    (newRows seen rs).length ≤ rs.length := by
  induction rs with
  | nil => intro seen; simp [newRows]
  | cons r0 rs ih =>
    intro seen
    rw [newRows]
    by_cases h0 : r0 ∈ seen
    · rw [if_pos h0]
      exact Nat.le_succ_of_le (ih seen)
    · rw [if_neg h0]
      simpa using ih (r0 :: seen)

theorem rowSum_nil {N : Type} [Zero N] [Add N] (r : Nat) :
    rowSum ([] : List (Nat × N)) r = 0 := rfl

theorem rowSum_cons_self {N : Type} [AddCommMonoid N] (v : N)
    (rest : List (Nat × N)) (r : Nat) :
    rowSum ((r, v) :: rest) r = v + rowSum rest r := by
  simp [rowSum, List.filter_cons]

theorem rowSum_cons_ne {N : Type} [Zero N] [Add N] (r0 : Nat) (v : N)
    (rest : List (Nat × N)) (r : Nat) (h : r0 ≠ r) :
    rowSum ((r0, v) :: rest) r = rowSum rest r := by
  simp [rowSum, List.filter_cons, h]

theorem rowSum_of_not_mem {N : Type} [Zero N] [Add N]
    (flat : List (Nat × N)) (r : Nat) (h : r ∉ flat.map Prod.fst) :
    rowSum flat r = 0 := by
  have : flat.filter (fun e => e.1 = r) = [] := by
    apply List.filter_eq_nil_iff.mpr
    intro e he hc
    exact h (List.mem_map.mpr ⟨e, he, by simpa using hc⟩)
  simp [rowSum, this]

/-- The central characterization of `scatter`'s loop on a scaled entry
stream, relative to a set `seen` of rows whose timestamp has already
reached `stamp`: the loop appends exactly the first occurrences of the
not-yet-seen rows at `nz`, stamps them, and accumulates per-row sums in
the workspace; everything else is untouched. -/
theorem scatterFlat_spec {N : Type} [AddCommMonoid N]
    (flat : List (Nat × N)) (stamp : Nat) :
    ∀ (s : KState N) (seen : List Nat),
      s.ws.length = s.ts.length →
      (∀ e ∈ flat, e.1 < s.ts.length) →
      (∀ r, r < s.ts.length → (r ∈ seen ↔ ¬ s.ts.getD r 0 < stamp)) →
      (scatterFlat flat stamp s).ts.length = s.ts.length ∧
      (scatterFlat flat stamp s).ws.length = s.ws.length ∧
      (scatterFlat flat stamp s).resI =
        writeSeq s.resI s.nz (newRows seen (flat.map Prod.fst)) ∧
      (scatterFlat flat stamp s).resV = s.resV ∧
      (scatterFlat flat stamp s).p = s.p ∧
      (scatterFlat flat stamp s).nz =
        s.nz + (newRows seen (flat.map Prod.fst)).length ∧
      (∀ r, r < s.ts.length → (scatterFlat flat stamp s).ts.getD r 0 =
        if r ∈ flat.map Prod.fst ∧ r ∉ seen then stamp else s.ts.getD r 0) ∧
      (∀ r, r < s.ts.length → (scatterFlat flat stamp s).ws.getD r 0 =
        if r ∈ flat.map Prod.fst then
          (if r ∈ seen then s.ws.getD r 0 + rowSum flat r else rowSum flat r)
        else s.ws.getD r 0) := by
  induction flat with
  | nil =>
    intro s seen hlen hrows hseen
    refine ⟨rfl, rfl, rfl, rfl, rfl, by simp [scatterFlat, newRows], ?_, ?_⟩ <;>
      intro r hr <;> simp [scatterFlat]
  | cons e rest ih =>
    obtain ⟨r0, v0⟩ := e
    intro s seen hlen hrows hseen
    have hr0 : r0 < s.ts.length := hrows (r0, v0) (List.mem_cons_self _ _)
    have hunfold : scatterFlat ((r0, v0) :: rest) stamp s =
        scatterFlat rest stamp (scatterStep stamp s (r0, v0)) := rfl
    have hmapc : ((r0, v0) :: rest).map Prod.fst = r0 :: rest.map Prod.fst := by
      simp
    by_cases hb : s.ts.getD r0 0 < stamp
    · -- first touch of `r0` this epoch: stamp, append, set workspace
      have hns : r0 ∉ seen := fun hc => (hseen r0 hr0).mp hc hb
      have hstep : scatterStep stamp s (r0, v0) =
          { s with
            ts := s.ts.set r0 stamp
            resI := s.resI.set s.nz r0
            nz := s.nz + 1
            ws := s.ws.set r0 v0 } := by
        simp only [scatterStep]
        rw [if_pos hb]
      set s1 : KState N :=
        { s with
          ts := s.ts.set r0 stamp
          resI := s.resI.set s.nz r0
          nz := s.nz + 1
          ws := s.ws.set r0 v0 } with hs1
      have hts1 : s1.ts = s.ts.set r0 stamp := rfl
      have hws1 : s1.ws = s.ws.set r0 v0 := rfl
      have htslen1 : s1.ts.length = s.ts.length := by
        rw [hts1, List.length_set]
      have hlen1 : s1.ws.length = s1.ts.length := by
        rw [hts1, hws1, List.length_set, List.length_set]
        exact hlen
      have hrows1 : ∀ e ∈ rest, e.1 < s1.ts.length := by
        intro e he
        rw [htslen1]
        exact hrows e (List.mem_cons_of_mem _ he)
      have hseen1 : ∀ r, r < s1.ts.length →
          (r ∈ r0 :: seen ↔ ¬ s1.ts.getD r 0 < stamp) := by
        intro r hr
        rw [htslen1] at hr
        by_cases hrr : r = r0
        · subst hrr
          have hst : s1.ts.getD r 0 = stamp := by
            rw [hts1, getD_set_self hr]
          rw [hst]
          constructor
          · intro _; omega
          · intro _; exact List.mem_cons_self _ _
        · have hst : s1.ts.getD r 0 = s.ts.getD r 0 := by
            rw [hts1, getD_set_ne (fun hc => hrr hc.symm)]
          rw [hst]
          rw [List.mem_cons]
          constructor
          · rintro (hc | hc)
            · exact absurd hc hrr
            · exact (hseen r hr).mp hc
          · intro hc
            exact Or.inr ((hseen r hr).mpr hc)
      obtain ⟨c1, c2, c3, c4, c5, c6, c7, c8⟩ :=
        ih s1 (r0 :: seen) hlen1 hrows1 hseen1
      have hnews : newRows seen (((r0, v0) :: rest).map Prod.fst) =
          r0 :: newRows (r0 :: seen) (rest.map Prod.fst) := by
        rw [hmapc, newRows, if_neg hns]
      rw [hunfold, hstep]
      refine ⟨by rw [c1, htslen1],
        by rw [c2, hws1, List.length_set],
        ?_, by rw [c4], by rw [c5], ?_, ?_, ?_⟩
      · rw [c3, hnews]
        rw [show s1.resI = s.resI.set s.nz r0 from rfl,
          show s1.nz = s.nz + 1 from rfl]
        rw [writeSeq]
      · rw [c6, hnews, show s1.nz = s.nz + 1 from rfl]
        simp only [List.length_cons]
        omega
      · intro r hr
        have hgoal := c7 r (htslen1 ▸ hr)
        rw [hgoal, hmapc]
        by_cases hrr : r = r0
        · subst hrr
          have h1 : ¬ (r ∈ rest.map Prod.fst ∧ r ∉ r :: seen) := by
            intro hc
            exact hc.2 (List.mem_cons_self _ _)
          have h2 : r ∈ r :: rest.map Prod.fst ∧ r ∉ seen :=
            ⟨List.mem_cons_self _ _, hns⟩
          rw [if_neg h1, if_pos h2, hts1, getD_set_self hr]
        · have hst : s1.ts.getD r 0 = s.ts.getD r 0 := by
            rw [hts1, getD_set_ne (fun hc => hrr hc.symm)]
          by_cases hmem : r ∈ rest.map Prod.fst ∧ r ∉ seen
          · have h1 : r ∈ rest.map Prod.fst ∧ r ∉ r0 :: seen := by
              refine ⟨hmem.1, fun hc => ?_⟩
              rcases List.mem_cons.mp hc with hc | hc
              · exact hrr hc
              · exact hmem.2 hc
            have h2 : r ∈ r0 :: rest.map Prod.fst ∧ r ∉ seen :=
              ⟨List.mem_cons_of_mem _ hmem.1, hmem.2⟩
            rw [if_pos h1, if_pos h2]
          · have h1 : ¬ (r ∈ rest.map Prod.fst ∧ r ∉ r0 :: seen) := by
              intro hc
              refine hmem ⟨hc.1, fun hd => ?_⟩
              exact hc.2 (List.mem_cons_of_mem _ hd)
            have h2 : ¬ (r ∈ r0 :: rest.map Prod.fst ∧ r ∉ seen) := by
              intro hc
              rcases List.mem_cons.mp hc.1 with hd | hd
              · exact hrr hd
              · exact hmem ⟨hd, hc.2⟩
            rw [if_neg h1, if_neg h2, hst]
      · intro r hr
        have hgoal := c8 r (htslen1 ▸ hr)
        rw [hgoal, hmapc]
        by_cases hrr : r = r0
        · subst hrr
          have hwsr : s1.ws.getD r 0 = v0 := by
            rw [hws1, getD_set_self (by rw [hlen]; exact hr)]
          have hseenr : r ∈ r :: seen := List.mem_cons_self _ _
          have hcons : r ∈ (r :: rest.map Prod.fst) := List.mem_cons_self _ _
          by_cases hmem : r ∈ rest.map Prod.fst
          · rw [if_pos hmem, if_pos hseenr, if_pos hcons, if_neg hns,
              hwsr, rowSum_cons_self]
          · rw [if_neg hmem, if_pos hcons, if_neg hns, hwsr,
              rowSum_cons_self, rowSum_of_not_mem _ _ hmem, add_zero]
        · have hwsr : s1.ws.getD r 0 = s.ws.getD r 0 := by
            rw [hws1, getD_set_ne (fun hc => hrr hc.symm)]
          have hrs : rowSum ((r0, v0) :: rest) r = rowSum rest r :=
            rowSum_cons_ne r0 v0 rest r (fun hc => hrr hc.symm)
          by_cases hmem : r ∈ rest.map Prod.fst
          · have hcons : r ∈ r0 :: rest.map Prod.fst :=
              List.mem_cons_of_mem _ hmem
            rw [if_pos hmem, if_pos hcons, hrs]
            by_cases hsn : r ∈ seen
            · rw [if_pos (List.mem_cons_of_mem _ hsn), if_pos hsn, hwsr]
            · have h1 : r ∉ r0 :: seen := by
                intro hc
                rcases List.mem_cons.mp hc with hc | hc
                · exact hrr hc
                · exact hsn hc
              rw [if_neg h1, if_neg hsn]
          · have hcons : r ∉ r0 :: rest.map Prod.fst := by
              intro hc
              rcases List.mem_cons.mp hc with hc | hc
              · exact hrr hc
              · exact hmem hc
            rw [if_neg hmem, if_neg hcons, hwsr]
    · -- `r0` already stamped this epoch: accumulate into the workspace
      have hsn : r0 ∈ seen := (hseen r0 hr0).mpr hb
      have hstep : scatterStep stamp s (r0, v0) =
          { s with ws := s.ws.set r0 (s.ws.getD r0 0 + v0) } := by
        simp only [scatterStep]
        rw [if_neg hb]
      set s1 : KState N := { s with ws := s.ws.set r0 (s.ws.getD r0 0 + v0) }
        with hs1
      have hws1 : s1.ws = s.ws.set r0 (s.ws.getD r0 0 + v0) := rfl
      have hts1 : s1.ts = s.ts := rfl
      have hlen1 : s1.ws.length = s1.ts.length := by
        rw [hws1, hts1, List.length_set]
        exact hlen
      have hrows1 : ∀ e ∈ rest, e.1 < s1.ts.length := fun e he =>
        hrows e (List.mem_cons_of_mem _ he)
      have hseen1 : ∀ r, r < s1.ts.length →
          (r ∈ seen ↔ ¬ s1.ts.getD r 0 < stamp) := hseen
      obtain ⟨c1, c2, c3, c4, c5, c6, c7, c8⟩ :=
        ih s1 seen hlen1 hrows1 hseen1
      have hnews : newRows seen (((r0, v0) :: rest).map Prod.fst) =
          newRows seen (rest.map Prod.fst) := by
        rw [hmapc, newRows, if_pos hsn]
      rw [hunfold, hstep]
      refine ⟨c1, by rw [c2, hws1, List.length_set], by rw [c3, hnews],
        by rw [c4], by rw [c5], by rw [c6, hnews], ?_, ?_⟩
      · intro r hr
        have hgoal := c7 r hr
        rw [hgoal, hmapc]
        by_cases hrr : r = r0
        · subst hrr
          have h1 : ¬ (r ∈ rest.map Prod.fst ∧ r ∉ seen) := fun hc => hc.2 hsn
          have h2 : ¬ (r ∈ r :: rest.map Prod.fst ∧ r ∉ seen) :=
            fun hc => hc.2 hsn
          rw [if_neg h1, if_neg h2]
        · by_cases hmem : r ∈ rest.map Prod.fst ∧ r ∉ seen
          · have h2 : r ∈ r0 :: rest.map Prod.fst ∧ r ∉ seen :=
              ⟨List.mem_cons_of_mem _ hmem.1, hmem.2⟩
            rw [if_pos hmem, if_pos h2]
          · have h2 : ¬ (r ∈ r0 :: rest.map Prod.fst ∧ r ∉ seen) := by
              intro hc
              rcases List.mem_cons.mp hc.1 with hd | hd
              · exact hrr hd
              · exact hmem ⟨hd, hc.2⟩
            rw [if_neg hmem, if_neg h2]
      · intro r hr
        have hgoal := c8 r hr
        rw [hgoal, hmapc]
        by_cases hrr : r = r0
        · subst hrr
          have hwsr : s1.ws.getD r 0 = s.ws.getD r 0 + v0 := by
            rw [hws1, getD_set_self (by rw [hlen]; exact hr)]
          have hcons : r ∈ r :: rest.map Prod.fst := List.mem_cons_self _ _
          by_cases hmem : r ∈ rest.map Prod.fst
          · rw [if_pos hmem, if_pos hsn, if_pos hcons, if_pos hsn, hwsr,
              rowSum_cons_self, add_assoc]
          · rw [if_neg hmem, if_pos hcons, if_pos hsn, hwsr,
              rowSum_cons_self, rowSum_of_not_mem _ _ hmem, add_zero]
        · have hwsr : s1.ws.getD r 0 = s.ws.getD r 0 := by
            rw [hws1, getD_set_ne (fun hc => hrr hc.symm)]
          have hrs : rowSum ((r0, v0) :: rest) r = rowSum rest r :=
            rowSum_cons_ne r0 v0 rest r (fun hc => hrr hc.symm)
          by_cases hmem : r ∈ rest.map Prod.fst
          · have hcons : r ∈ r0 :: rest.map Prod.fst :=
              List.mem_cons_of_mem _ hmem
            rw [if_pos hmem, if_pos hcons, hrs]
            by_cases hsn2 : r ∈ seen
            · rw [if_pos hsn2, if_pos hsn2, hwsr]
            · rw [if_neg hsn2, if_neg hsn2]
          · have hcons : r ∉ r0 :: rest.map Prod.fst := by
              intro hc
              rcases List.mem_cons.mp hc with hc | hc
              · exact hrr hc
              · exact hmem hc
            rw [if_neg hmem, if_neg hcons, hwsr]


/-- C9: the shape assertion of `Add::add` aborts exactly on a shape
mismatch and the dimension assertion of `Mul::mul` aborts exactly when
the left operand's column count differs from the right operand's row
count; under the respective preconditions both operations run to
completion and produce an output. -/
theorem claim_C9_assertions {N : Type} [Zero N] [One N] [Add N] [Mul N]
    (a b : CsMatrix N) :
    ((CsMatrix.add a b).isSome ↔ (a.nrows, a.ncols) = (b.nrows, b.ncols)) ∧
    ((CsMatrix.mul a b).isSome ↔ a.ncols = b.nrows) ∧
    (¬(a.nrows, a.ncols) = (b.nrows, b.ncols) → CsMatrix.add a b = none) ∧
    (¬a.ncols = b.nrows → CsMatrix.mul a b = none) := by
  refine ⟨?_, ?_, ?_, ?_⟩ <;>
    simp only [CsMatrix.add, CsMatrix.mul] <;> split <;> simp_all

/-! ## Column structure and `toDense` characterization -/

theorem sum_range_map_le (f : Nat → Nat) (k n : Nat) (h : k ≤ n) :
    ((List.range k).map f).sum ≤ ((List.range n).map f).sum := by
  induction n with
  | zero => simp_all
  | succ n ih =>
    rcases Nat.lt_or_ge k (n + 1) with h2 | h2
    · rw [List.range_succ]
      simp only [List.map_append, List.sum_append]
      have := ih (by omega)
      omega
    · have : k = n + 1 := by omega
      subst this
      exact Nat.le_refl _

theorem length_columnEntries {N : Type} [Zero N] (m : CsMatrix N) (j : Nat) :
    (m.columnEntries j).length = m.colEnd j - m.colStart j := by
  simp [CsMatrix.columnEntries, CsMatrix.colIdx]

theorem colSum_eq_rowSum {N : Type} [Zero N] [Add N] (m : CsMatrix N)
    (j r : Nat) : m.colSum j r = rowSum (m.columnEntries j) r := rfl

theorem colEnd_eq_colStart_succ {N : Type} [Zero N] (m : CsMatrix N)
    (hp : m.p.length = m.ncols) (j : Nat) (hj : j + 1 < m.ncols) :
    m.colEnd j = m.colStart (j + 1) := by
  rw [CsMatrix.colEnd, if_neg (by omega), CsMatrix.colStart]

theorem colEnd_last {N : Type} [Zero N] (m : CsMatrix N)
    (hp : m.p.length = m.ncols) (j : Nat) (hj : j + 1 = m.ncols) :
    m.colEnd j = m.nvalues := by
  rw [CsMatrix.colEnd, if_pos (by omega)]

/-- Under the structural invariants, the column ranges tile
`0 .. nvalues`: the sum of the first `k` column lengths is column `k`'s
start (or the total nonzero count at `k = ncols`). -/
theorem sum_colLen_partial {N : Type} [Zero N] (m : CsMatrix N) (hm : m.Inv) :
    ∀ k, k ≤ m.ncols →
      ((List.range k).map fun j => (m.columnEntries j).length).sum =
        (if k < m.ncols then m.colStart k else m.nvalues) := by
  obtain ⟨hp, _, h0, hz, hord, _⟩ := hm
  intro k
  induction k with
  | zero =>
    intro _
    rcases Nat.lt_or_ge 0 m.ncols with hc | hc
    · rw [if_pos hc]
      simp [h0 hc]
    · rw [if_neg (by omega)]
      simp [hz (by omega)]
  | succ k ih =>
    intro hk
    have hklt : k < m.ncols := hk
    have hsum := ih (Nat.le_of_succ_le hk)
    rw [if_pos hklt] at hsum
    rw [List.range_succ, List.map_append, List.sum_append, hsum]
    have hle := (hord k hklt).1
    simp only [List.map_cons, List.map_nil, List.sum_cons, List.sum_nil,
      length_columnEntries]
    rcases Nat.lt_or_ge (k + 1) m.ncols with hc | hc
    · rw [if_pos hc, ← colEnd_eq_colStart_succ m hp k hc]
      omega
    · have hceq : k + 1 = m.ncols := by omega
      rw [if_neg (by omega), ← colEnd_last m hp k hceq]
      omega

/-- Under the structural invariants, the column lengths sum to the
stored entry count. -/
theorem sum_colLen {N : Type} [Zero N] (m : CsMatrix N) (hm : m.Inv) :
    ((List.range m.ncols).map fun j => (m.columnEntries j).length).sum =
      m.nvalues := by
  have := sum_colLen_partial m hm m.ncols (Nat.le_refl _)
  rwa [if_neg (by omega)] at this

theorem dfold_col_ne {N : Type} (es : List (Nat × N)) (c : Nat)
    (f : Nat → Nat → N) (i j : Nat) (hc : c ≠ j) :
    (es.foldl (fun f e => dwrite f e.1 c e.2) f) i j = f i j := by
  induction es generalizing f with
  | nil => rfl
  | cons e rest ih =>
    rw [List.foldl_cons, ih]
    simp only [dwrite]
    rw [if_neg (fun hcc => hc hcc.2.symm)]

theorem dfold_row_not_mem {N : Type} (es : List (Nat × N)) (c : Nat)
    (f : Nat → Nat → N) (i : Nat) (h : i ∉ es.map Prod.fst) :
    (es.foldl (fun f e => dwrite f e.1 c e.2) f) i c = f i c := by
  induction es generalizing f with
  | nil => rfl
  | cons e rest ih =>
    have hmc : (e :: rest).map Prod.fst = e.1 :: rest.map Prod.fst := rfl
    have hnm : i ∉ rest.map Prod.fst := fun hc =>
      h (by rw [hmc]; exact List.mem_cons_of_mem _ hc)
    have hne : i ≠ e.1 := fun hc =>
      h (by rw [hmc]; exact hc ▸ List.mem_cons_self _ _)
    rw [List.foldl_cons, ih _ hnm]
    simp only [dwrite]
    rw [if_neg (fun hcc => hne hcc.1)]

theorem dfold_col_self {N : Type} [AddCommMonoid N] (es : List (Nat × N))
    (c : Nat) (f : Nat → Nat → N) (i : Nat) (hnd : (es.map Prod.fst).Nodup) :
    (es.foldl (fun f e => dwrite f e.1 c e.2) f) i c =
      if i ∈ es.map Prod.fst then rowSum es i else f i c := by
  induction es generalizing f with
  | nil => simp [rowSum]
  | cons e rest ih =>
    obtain ⟨r0, v0⟩ := e
    have hmc : ((r0, v0) :: rest).map Prod.fst = r0 :: rest.map Prod.fst := rfl
    rw [hmc] at hnd ⊢
    have hnd' := List.nodup_cons.mp hnd
    rw [List.foldl_cons, ih _ hnd'.2]
    by_cases hir : i = r0
    · subst hir
      rw [if_neg hnd'.1]
      have hdw : dwrite f i c v0 i c = v0 := by
        simp [dwrite]
      rw [hdw, if_pos (List.mem_cons_self _ _), rowSum_cons_self,
        rowSum_of_not_mem _ _ hnd'.1, add_zero]
    · have hrs := rowSum_cons_ne r0 v0 rest i (fun hc => hir hc.symm)
      have hdw : dwrite f r0 c v0 i c = f i c := by
        simp only [dwrite]
        rw [if_neg (fun hcc => hir hcc.1)]
      by_cases hmem : i ∈ rest.map Prod.fst
      · rw [if_pos hmem, if_pos (List.mem_cons_of_mem _ hmem), hrs]
      · rw [if_neg hmem, hdw, if_neg (fun hcc => by
          rcases List.mem_cons.mp hcc with h1 | h1
          exacts [hir h1, hmem h1])]

theorem toDense_fold_not_mem {N : Type} [Zero N] (m : CsMatrix N)
    (cols : List Nat) (f : Nat → Nat → N) (i j : Nat) (hj : j ∉ cols) :
    (cols.foldl
      (fun f c => (m.columnEntries c).foldl (fun f e => dwrite f e.1 c e.2) f)
      f) i j = f i j := by
  induction cols generalizing f with
  | nil => rfl
  | cons c rest ih =>
    rw [List.foldl_cons, ih _ (fun hc => hj (List.mem_cons_of_mem _ hc))]
    exact dfold_col_ne _ _ _ _ _ (fun hc => hj (hc ▸ List.mem_cons_self _ _))

theorem toDense_fold {N : Type} [AddCommMonoid N] (m : CsMatrix N)
    (cols : List Nat) (f : Nat → Nat → N) (i j : Nat) (hcols : cols.Nodup)
    (hj : j ∈ cols) (hnd : (m.colRows j).Nodup) :
    (cols.foldl
      (fun f c => (m.columnEntries c).foldl (fun f e => dwrite f e.1 c e.2) f)
      f) i j =
      if i ∈ m.colRows j then rowSum (m.columnEntries j) i else f i j := by
  induction cols generalizing f with
  | nil => exact absurd hj (List.not_mem_nil _)
  | cons c rest ih =>
    rw [List.foldl_cons]
    by_cases hcj : c = j
    · subst hcj
      have hnm : c ∉ rest := (List.nodup_cons.mp hcols).1
      rw [toDense_fold_not_mem m rest _ i c hnm]
      exact dfold_col_self _ _ _ _ hnd
    · rcases List.mem_cons.mp hj with hc | hc
      · exact absurd hc.symm hcj
      · rw [ih _ (List.nodup_cons.mp hcols).2 hc]
        by_cases hmem : i ∈ m.colRows j
        · rw [if_pos hmem, if_pos hmem]
        · rw [if_neg hmem, if_neg hmem,
            dfold_col_ne _ _ _ _ _ (fun h => hcj h)]

/-- Entries of `toDense` inside the column range: for duplicate-free
columns, the dense entry `(i, j)` is the per-column value sum at row
`i` (the stored value, or zero). -/
theorem toDense_entry {N : Type} [AddCommMonoid N] (m : CsMatrix N)
    (hnd : m.ColsNodup) (i j : Nat) (hj : j < m.ncols) :
    (toDense m).entry i j = m.colSum j i := by
  have h := toDense_fold m (List.range m.ncols) (fun _ _ => 0) i j
    (List.nodup_range _) (List.mem_range.mpr hj) (hnd j hj)
  rw [show (toDense m).entry = (List.range m.ncols).foldl
    (fun f j => (m.columnEntries j).foldl (fun f e => dwrite f e.1 j e.2) f)
    (fun _ _ => 0) from rfl, h, colSum_eq_rowSum]
  by_cases hmem : i ∈ m.colRows j
  · rw [if_pos hmem]
  · rw [if_neg hmem, rowSum_of_not_mem _ _ hmem]

/-- Entries of `toDense` outside the column range are zero. -/
theorem toDense_entry_ge {N : Type} [Zero N] (m : CsMatrix N) (i j : Nat)
    (hj : m.ncols ≤ j) : (toDense m).entry i j = 0 := by
  have h := toDense_fold_not_mem m (List.range m.ncols) (fun _ _ => 0) i j
    (by intro hc; have := List.mem_range.mp hc; omega)
  rw [show (toDense m).entry = (List.range m.ncols).foldl
    (fun f j => (m.columnEntries j).foldl (fun f e => dwrite f e.1 j e.2) f)
    (fun _ _ => 0) from rfl, h]

/-- Rows above the stored row bound carry no `toDense` entry. -/
theorem toDense_entry_row_ge {N : Type} [AddCommMonoid N] (m : CsMatrix N)
    (hm : m.Inv) (hnd : m.ColsNodup) (i j : Nat) (hi : m.nrows ≤ i) :
    (toDense m).entry i j = 0 := by
  rcases Nat.lt_or_ge j m.ncols with hj | hj
  · rw [toDense_entry m hnd i j hj, colSum_eq_rowSum]
    apply rowSum_of_not_mem
    intro hc
    have := hm.2.2.2.2.2 j hj i hc
    omega
  · exact toDense_entry_ge m i j hj

/-! ## Gather and scatter composition -/

theorem foldl_set_range {α : Type} (g : Nat → α) :
    ∀ (n start : Nat) (v0 : List α),
      (List.range' start n).foldl (fun v pp => v.set pp (g pp)) v0 =
        writeSeq v0 start ((List.range' start n).map g) := by
  intro n
  induction n with
  | zero => intro start v0; rfl
  | succ n ih =>
    intro start v0
    rw [List.range'_succ, List.map_cons, List.foldl_cons, writeSeq, ih]

theorem gatherCol_resV {N : Type} [Zero N] (start : Nat) (s : KState N)
    (news : List Nat) (hstart : start + news.length = s.nz)
    (hresI : ∀ t, t < news.length → s.resI.getD (start + t) 0 = news.getD t 0) :
    gatherCol start s =
      { s with resV :=
          writeSeq s.resV start (news.map fun r => s.ws.getD r 0) } := by
  unfold gatherCol
  have hn : s.nz - start = news.length := by omega
  rw [hn, foldl_set_range (fun pp => s.ws.getD (s.resI.getD pp 0) 0)
    news.length start s.resV]
  have hmap : (List.range' start news.length).map
      (fun pp => s.ws.getD (s.resI.getD pp 0) 0) =
      news.map (fun r => s.ws.getD r 0) := by
    apply List.ext_getElem (by simp)
    intro t h1 h2
    have ht : t < news.length := by simpa using h2
    have hb1 : t < (List.range' start news.length).length := by
      simpa using h1
    have hr2 : (List.range' start news.length)[t] =
        start + t := by
      rw [List.getElem_range']
      omega
    have key : news.getD t 0 = news[t] := by
      simp [List.getD_eq_getElem?_getD, List.getElem?_eq_getElem ht]
    simp only [List.getElem_map, hr2]
    rw [hresI t ht, key]
  rw [hmap]

theorem scatterFlat_append {N : Type} [Zero N] [Add N]
    (xs ys : List (Nat × N)) (stamp : Nat) (s : KState N) :
    scatterFlat (xs ++ ys) stamp s =
      scatterFlat ys stamp (scatterFlat xs stamp s) := by
  rw [scatterFlat, scatterFlat, scatterFlat, List.foldl_append]

theorem scatterFlat_flatMap {N : Type} [Zero N] [Add N] {β : Type}
    (L : List β) (g : β → List (Nat × N)) (stamp : Nat) :
    ∀ s : KState N,
      L.foldl (fun s e => scatterFlat (g e) stamp s) s =
        scatterFlat (L.flatMap g) stamp s := by
  induction L with
  | nil => intro s; rfl
  | cons e rest ih =>
    intro s
    rw [List.foldl_cons, List.flatMap_cons, scatterFlat_append, ih]

/-! ## Assembly of `Add::add` -/

theorem writeSeq_getD_mid {α : Type} (xs : List α) : ∀ (l : List α) (k j : Nat),
    k + xs.length ≤ l.length → k ≤ j → j < k + xs.length → ∀ d,
      (writeSeq l k xs).getD j d = xs.getD (j - k) d := by
  induction xs with
  | nil => intro l k j _ h1 h2; simp at h2; omega
  | cons x xs ih =>
    intro l k j hcap h1 h2 d
    rcases Nat.eq_or_lt_of_le h1 with he | hl
    · subst he
      rw [writeSeq, writeSeq_getD_lt xs _ _ _ (Nat.lt_succ_self _),
        getD_set_self (show k < l.length by simp at hcap; omega)]
      simp
    · rw [writeSeq, ih (l.set k x) (k + 1) j (by simp at hcap ⊢; omega) hl
        (by simp at h2 ⊢; omega)]
      have hjk : j - k = (j - (k + 1)) + 1 := by omega
      rw [hjk]
      rfl

theorem writeSeq_getD_at {α : Type} (xs : List α) (l : List α) (k t : Nat)
    (hcap : k + xs.length ≤ l.length) (ht : t < xs.length) (d : α) :
    (writeSeq l k xs).getD (k + t) d = xs.getD t d := by
  have h := writeSeq_getD_mid xs l k (k + t) hcap (by omega) (by omega) d
  rwa [Nat.add_sub_cancel_left] at h

theorem flatMap_range_getD {α : Type} (f : Nat → List α) (d : α) :
    ∀ (n j t : Nat), j < n → t < (f j).length →
      ((List.range n).flatMap f).getD
        (((List.range j).map fun x => (f x).length).sum + t) d =
        (f j).getD t d := by
  intro n
  induction n with
  | zero => intro j t hj; omega
  | succ n ih =>
    intro j t hj ht
    rw [List.range_succ, List.flatMap_append]
    rcases Nat.lt_or_ge j n with hjn | hjn
    · rw [List.getD_append]
      · exact ih j t hjn ht
      · rw [List.length_flatMap]
        have h1 : ((List.range j).map fun x => (f x).length).sum + t <
            ((List.range (j + 1)).map fun x => (f x).length).sum := by
          rw [List.range_succ, List.map_append, List.sum_append]
          simp
          omega
        have h2 := sum_range_map_le (fun x => (f x).length) (j + 1) n
          (by omega)
        have h3 : (List.map (List.length ∘ f) (List.range n)).sum =
            ((List.range n).map fun x => (f x).length).sum := rfl
        omega
    · have hje : j = n := by omega
      subst hje
      rw [List.getD_append_right]
      · have hlen : ((List.range j).flatMap f).length =
            ((List.range j).map fun x => (f x).length).sum := by
          rw [List.length_flatMap]; rfl
        rw [hlen, Nat.add_sub_cancel_left]
        simp
      · rw [List.length_flatMap]
        have h3 : (List.map (List.length ∘ f) (List.range j)).sum =
            ((List.range j).map fun x => (f x).length).sum := rfl
        omega

theorem addFlat_rows {N : Type} [Zero N] [One N] [Mul N] (a b : CsMatrix N)
    (j : Nat) :
    (addFlat a b j).map Prod.fst = a.colRows j ++ b.colRows j := by
  rw [addFlat, List.map_append, List.map_map, List.map_map]
  rfl

theorem addColNews_length_le {N : Type} [Zero N] [One N] [Mul N]
    (a b : CsMatrix N) (j : Nat) :
    (addColNews a b j).length ≤
      (a.columnEntries j).length + (b.columnEntries j).length := by
  have h := newRows_length_le ((addFlat a b j).map Prod.fst) []
  rw [addColNews]
  calc (newRows [] ((addFlat a b j).map Prod.fst)).length
      ≤ ((addFlat a b j).map Prod.fst).length := h
    _ = (a.columnEntries j).length + (b.columnEntries j).length := by
        rw [addFlat_rows]
        simp [CsMatrix.colRows]

theorem addOffsets_succ {N : Type} [Zero N] [One N] [Mul N] (a b : CsMatrix N)
    (k : Nat) :
    addOffsets a b (k + 1) = addOffsets a b k + (addColNews a b k).length := by
  rw [addOffsets, addOffsets, List.range_succ, List.map_append,
    List.sum_append]
  simp

theorem addOffsets_le_cap {N : Type} [Zero N] [One N] [Mul N]
    (a b : CsMatrix N) (ha : a.Inv) (hb : b.Inv) (hcc : a.ncols = b.ncols) :
    ∀ k, k ≤ b.ncols → addOffsets a b k ≤ a.nvalues + b.nvalues := by
  intro k hk
  have h1 : addOffsets a b k ≤ addOffsets a b b.ncols := by
    rw [addOffsets, addOffsets]
    exact sum_range_map_le _ k b.ncols hk
  have h2 : addOffsets a b b.ncols ≤
      ((List.range b.ncols).map fun j =>
        (a.columnEntries j).length + (b.columnEntries j).length).sum := by
    rw [addOffsets]
    exact List.sum_le_sum fun j _ => addColNews_length_le a b j
  have h3 : ((List.range b.ncols).map fun j =>
      (a.columnEntries j).length + (b.columnEntries j).length).sum =
      ((List.range b.ncols).map fun j => (a.columnEntries j).length).sum +
      ((List.range b.ncols).map fun j => (b.columnEntries j).length).sum := by
    induction b.ncols with
    | zero => rfl
    | succ n ih =>
      rw [List.range_succ]
      simp only [List.map_append, List.sum_append, List.map_cons,
        List.map_nil, List.sum_cons, List.sum_nil]
      omega
  have h4 := sum_colLen a ha
  have h5 := sum_colLen b hb
  rw [hcc] at h4
  omega

theorem getD_replicate {α : Type} (n : Nat) (x d : α) (i : Nat) (h : i < n) :
    (List.replicate n x).getD i d = x := by
  rw [List.getD_eq_getElem?_getD, List.getElem?_replicate, if_pos h]
  rfl

theorem addLoopState_succ {N : Type} [Zero N] [One N] [Add N] [Mul N]
    (a b : CsMatrix N) (k : Nat) :
    addLoopState a b (k + 1) = addCol a b (addLoopState a b k) k := by
  rw [addLoopState, addLoopState, List.range_succ, List.foldl_append]
  rfl

theorem addFlat_rows_lt {N : Type} [Zero N] [One N] [Mul N] (a b : CsMatrix N)
    (ha : a.Inv) (hb : b.Inv) (hrr : a.nrows = b.nrows)
    (hcc : a.ncols = b.ncols) (k : Nat) (hk : k < b.ncols) :
    ∀ r ∈ (addFlat a b k).map Prod.fst, r < a.nrows := by
  intro r hr
  rw [addFlat_rows] at hr
  rcases List.mem_append.mp hr with hr | hr
  · exact ha.2.2.2.2.2 k (by omega) r hr
  · have := hb.2.2.2.2.2 k hk r hr
    omega

/-- The invariant of `Add::add`'s column loop: after `k` columns the
timestamps are at most `k`, the cursor and column pointers record the
accumulated column offsets, and the filled prefixes of the output
buffers are the concatenated per-column row lists and gathered values. -/
theorem addLoop_inv {N : Type} [CommRing N] (a b : CsMatrix N)
    (ha : a.Inv) (hb : b.Inv) (hrr : a.nrows = b.nrows)
    (hcc : a.ncols = b.ncols) :
    ∀ k, k ≤ b.ncols →
      (addLoopState a b k).ts.length = a.nrows ∧
      (addLoopState a b k).ws.length = a.nrows ∧
      (∀ r, r < a.nrows → (addLoopState a b k).ts.getD r 0 ≤ k) ∧
      (addLoopState a b k).nz = addOffsets a b k ∧
      (addLoopState a b k).resI.length = a.nvalues + b.nvalues ∧
      (addLoopState a b k).resV.length = a.nvalues + b.nvalues ∧
      (addLoopState a b k).p.length = b.ncols ∧
      (∀ j, j < k → (addLoopState a b k).p.getD j 0 = addOffsets a b j) ∧
      (addLoopState a b k).resI.take (addLoopState a b k).nz =
        (List.range k).flatMap (addColNews a b) ∧
      (addLoopState a b k).resV.take (addLoopState a b k).nz =
        (List.range k).flatMap fun j =>
          (addColNews a b j).map fun r => rowSum (addFlat a b j) r := by
  intro k
  induction k with
  | zero =>
    intro _
    refine ⟨by simp [addLoopState], by simp [addLoopState], ?_,
      by simp [addLoopState, addOffsets], by simp [addLoopState],
      by simp [addLoopState], by simp [addLoopState],
      fun j hj => absurd hj (Nat.not_lt_zero j),
      by simp [addLoopState], by simp [addLoopState]⟩
    intro r hr
    have : (addLoopState a b 0).ts = List.replicate a.nrows 0 := rfl
    rw [this, getD_replicate _ _ _ _ hr]
  | succ k ih =>
    intro hk
    have hklt : k < b.ncols := hk
    obtain ⟨i1, i2, i3, i4, i5, i6, i7, i8, i9, i10⟩ :=
      ih (Nat.le_of_succ_le hk)
    set s := addLoopState a b k with hs
    set s1 : KState N := { s with p := s.p.set k s.nz } with hs1
    have e2 : addLoopState a b (k + 1) =
        gatherCol ((scatterFlat (addFlat a b k) (k + 1) s1).p.getD k 0)
          (scatterFlat (addFlat a b k) (k + 1) s1) := by
      rw [addLoopState_succ, addCol, CsMatrix.scatter, CsMatrix.scatter,
        ← scatterFlat_append]
      rfl
    have hrowsR := addFlat_rows_lt a b ha hb hrr hcc k hklt
    have hts1 : s1.ts = s.ts := rfl
    have hws1 : s1.ws = s.ws := rfl
    have hnz1 : s1.nz = s.nz := rfl
    have hresI1 : s1.resI = s.resI := rfl
    have hresV1 : s1.resV = s.resV := rfl
    have hrows1 : ∀ e ∈ addFlat a b k, e.1 < s1.ts.length := by
      intro e he
      rw [hts1, i1]
      exact hrowsR e.1 (List.mem_map_of_mem _ he)
    have hseen1 : ∀ r, r < s1.ts.length →
        ((r ∈ ([] : List Nat)) ↔ ¬ s1.ts.getD r 0 < k + 1) := by
      intro r hr
      rw [hts1] at hr ⊢
      rw [i1] at hr
      constructor
      · intro h
        exact absurd h (List.not_mem_nil r)
      · intro hneg
        exact absurd (Nat.lt_succ_of_le (i3 r hr)) hneg
    obtain ⟨c1, c2, c3, c4, c5, c6, c7, c8⟩ :=
      scatterFlat_spec (addFlat a b k) (k + 1) s1 []
        (by rw [hts1, hws1, i1, i2]) hrows1 hseen1
    set s3 := scatterFlat (addFlat a b k) (k + 1) s1 with hs3
    have hnews : newRows [] ((addFlat a b k).map Prod.fst) =
        addColNews a b k := rfl
    rw [hnews] at c3 c6
    set news := addColNews a b k with hnw
    -- the gather start is the recorded column pointer `p[k] = nz`
    have hpk : s3.p.getD k 0 = addOffsets a b k := by
      rw [c5]
      have : s1.p = s.p.set k s.nz := rfl
      rw [this, getD_set_self (by rw [i7]; exact hklt), i4]
    have hcap : addOffsets a b k + news.length ≤ a.nvalues + b.nvalues := by
      have := addOffsets_le_cap a b ha hb hcc (k + 1) hk
      rw [addOffsets_succ] at this
      exact this
    have hresI3 : s3.resI = writeSeq s.resI (addOffsets a b k) news := by
      rw [c3, hresI1, hnz1, i4]
    have hnz3 : s3.nz = addOffsets a b k + news.length := by
      rw [c6, hnz1, i4]
    have hgresI : ∀ t, t < news.length →
        s3.resI.getD (addOffsets a b k + t) 0 = news.getD t 0 := by
      intro t ht
      rw [hresI3]
      exact writeSeq_getD_at news s.resI (addOffsets a b k) t
        (by rw [i5]; exact hcap) ht 0
    have hgather := gatherCol_resV (addOffsets a b k) s3 news
      (by omega) hgresI
    -- the gathered values are the per-row sums of this column's stream
    have hveq : news.map (fun r => s3.ws.getD r 0) =
        news.map fun r => rowSum (addFlat a b k) r := by
      apply List.map_congr_left
      intro r hrn
      obtain ⟨hrmem, -⟩ := (mem_newRows _ _ r).mp hrn
      have hrlt : r < a.nrows := hrowsR r hrmem
      have := c8 r (by rw [hts1, i1]; exact hrlt)
      rw [this, if_pos hrmem]
      simp
    rw [hveq] at hgather
    rw [e2, hpk, hgather]
    have hts3len : s3.ts.length = a.nrows := by rw [c1, hts1, i1]
    refine ⟨hts3len, by rw [c2, hws1, i2], ?_, ?_, ?_, ?_, ?_, ?_, ?_, ?_⟩
    · -- timestamps stay at most the epoch
      intro r hr
      have := c7 r (by rw [hts1, i1]; exact hr)
      rw [hts1] at this
      rw [this]
      by_cases hmem : r ∈ (addFlat a b k).map Prod.fst ∧ r ∉ ([] : List Nat)
      · rw [if_pos hmem]
      · rw [if_neg hmem]
        exact Nat.le_succ_of_le (i3 r hr)
    · rw [hnz3, addOffsets_succ]
    · rw [hresI3, writeSeq_length, i5]
    · rw [writeSeq_length, c4, hresV1, i6]
    · have : s3.p = s.p.set k s.nz := c5
      rw [this, List.length_set, i7]
    · intro j hj
      have hp3 : s3.p = s.p.set k s.nz := c5
      rcases Nat.lt_or_ge j k with hjk | hjk
      · rw [hp3, getD_set_ne (by omega), i8 j hjk]
      · have hje : j = k := by omega
        subst hje
        rw [hp3, getD_set_self (by rw [i7]; exact hklt), i4]
    · -- filled row-index prefix
      rw [hnz3, hresI3]
      rw [writeSeq_take_all news s.resI (addOffsets a b k)
        (by rw [i5]; exact hcap)]
      rw [← i4, i9, List.range_succ, List.flatMap_append]
      simp [hnw]
    · -- filled value prefix
      rw [hnz3, c4, hresV1]
      have hlen2 : (news.map fun r => rowSum (addFlat a b k) r).length =
          news.length := by rw [List.length_map]
      rw [show addOffsets a b k + news.length =
        addOffsets a b k + (news.map fun r => rowSum (addFlat a b k) r).length
        from by rw [hlen2]]
      rw [writeSeq_take_all _ s.resV (addOffsets a b k)
        (by rw [i6, hlen2]; exact hcap)]
      rw [← i4, i10, List.range_succ, List.flatMap_append]
      simp [hnw]

theorem rowSum_append {N : Type} [AddCommMonoid N] (xs ys : List (Nat × N))
    (r : Nat) : rowSum (xs ++ ys) r = rowSum xs r + rowSum ys r := by
  rw [rowSum, rowSum, rowSum, List.filter_append, List.map_append,
    List.sum_append]

theorem rowSum_map_scale {N : Type} [NonUnitalNonAssocSemiring N]
    (es : List (Nat × N)) (c : N) (r : Nat) :
    rowSum (es.map fun e => (e.1, c * e.2)) r = c * rowSum es r := by
  rw [rowSum, rowSum, List.filter_map]
  have hp : ((fun e : Nat × N => decide (e.1 = r)) ∘
      fun e : Nat × N => (e.1, c * e.2)) = fun e : Nat × N => decide (e.1 = r) := by
    funext e
    rfl
  rw [hp, List.map_map]
  have hm : (Prod.snd ∘ fun e : Nat × N => (e.1, c * e.2)) =
      fun e : Nat × N => c * e.2 := by
    funext e
    rfl
  rw [hm]
  have := List.sum_map_mul_left (es.filter fun e => decide (e.1 = r))
    (fun e => e.2) c
  rw [← this]

theorem rowSum_map_pair {N : Type} [AddCommMonoid N] (rs : List Nat)
    (g : Nat → N) (i : Nat) (h : rs.Nodup) :
    rowSum (rs.map fun r => (r, g r)) i = if i ∈ rs then g i else 0 := by
  induction rs with
  | nil => simp [rowSum]
  | cons r0 rest ih =>
    have h' := List.nodup_cons.mp h
    rw [List.map_cons]
    by_cases hir : i = r0
    · subst hir
      rw [rowSum_cons_self, if_pos (List.mem_cons_self _ _), ih h'.2,
        if_neg h'.1, add_zero]
    · rw [rowSum_cons_ne _ _ _ _ (fun hc => hir hc.symm), ih h'.2]
      by_cases hmem : i ∈ rest
      · rw [if_pos hmem, if_pos (List.mem_cons_of_mem _ hmem)]
      · rw [if_neg hmem, if_neg (fun hc => by
          rcases List.mem_cons.mp hc with hc | hc
          exacts [hir hc, hmem hc])]

theorem rowSum_addFlat {N : Type} [CommRing N] (a b : CsMatrix N) (j i : Nat) :
    rowSum (addFlat a b j) i = a.colSum j i + b.colSum j i := by
  rw [addFlat, rowSum_append, rowSum_map_scale, rowSum_map_scale,
    one_mul, one_mul, colSum_eq_rowSum, colSum_eq_rowSum]

/-- The output of `Add::add`'s body: shape `(nrows1, ncols2)`, exactly
the per-column first-touch rows with their gathered per-row sums. -/
theorem csAddImpl_spec {N : Type} [CommRing N] (a b : CsMatrix N)
    (ha : a.Inv) (hb : b.Inv) (hrr : a.nrows = b.nrows)
    (hcc : a.ncols = b.ncols) :
    (csAddImpl a b).nrows = a.nrows ∧
    (csAddImpl a b).ncols = b.ncols ∧
    (csAddImpl a b).p.length = b.ncols ∧
    (csAddImpl a b).nvalues = addOffsets a b b.ncols ∧
    (csAddImpl a b).i.length = addOffsets a b b.ncols ∧
    (∀ j, j < b.ncols →
      (csAddImpl a b).colStart j = addOffsets a b j ∧
      (csAddImpl a b).colEnd j = addOffsets a b (j + 1)) ∧
    (∀ j, j < b.ncols → (csAddImpl a b).columnEntries j =
      (addColNews a b j).map fun r => (r, rowSum (addFlat a b j) r)) := by
  obtain ⟨i1, i2, i3, i4, i5, i6, i7, i8, i9, i10⟩ :=
    addLoop_inv a b ha hb hrr hcc b.ncols (Nat.le_refl _)
  set S := addLoopState a b b.ncols with hS
  have hm : csAddImpl a b =
      ⟨a.nrows, b.ncols, S.p, S.resI.take S.nz, S.resV.take S.nz⟩ := rfl
  have hcap := addOffsets_le_cap a b ha hb hcc b.ncols (Nat.le_refl _)
  have hileq : (S.resI.take S.nz).length = addOffsets a b b.ncols := by
    rw [List.length_take, i4, i5]
    omega
  have hvleq : (S.resV.take S.nz).length = addOffsets a b b.ncols := by
    rw [List.length_take, i4, i6]
    omega
  have hnval : (csAddImpl a b).nvalues = addOffsets a b b.ncols := by
    rw [hm, CsMatrix.nvalues]
    exact hvleq
  have hcolb : ∀ j, j < b.ncols →
      (csAddImpl a b).colStart j = addOffsets a b j ∧
      (csAddImpl a b).colEnd j = addOffsets a b (j + 1) := by
    intro j hj
    constructor
    · rw [hm, CsMatrix.colStart]
      exact i8 j hj
    · rw [CsMatrix.colEnd]
      by_cases hje : j + 1 = (csAddImpl a b).p.length
      · rw [if_pos hje, hnval]
        rw [hm] at hje
        have : j + 1 = b.ncols := by rw [hje]; exact i7
        rw [this]
      · rw [if_neg hje, hm]
        have hjlt : j + 1 < b.ncols := by
          rcases Nat.lt_or_ge (j + 1) b.ncols with h | h
          · exact h
          · exfalso
            apply hje
            rw [hm]
            show j + 1 = S.p.length
            rw [i7]
            omega
        exact i8 (j + 1) hjlt
  refine ⟨rfl, rfl, by rw [hm]; exact i7, hnval, by rw [hm]; exact hileq,
    hcolb, ?_⟩
  intro j hj
  obtain ⟨hstart, hend⟩ := hcolb j hj
  have hlen : (addOffsets a b (j + 1)) - addOffsets a b j =
      (addColNews a b j).length := by
    rw [addOffsets_succ]
    omega
  have higet : ∀ t, t < (addColNews a b j).length →
      (csAddImpl a b).rowIndex (addOffsets a b j + t) =
        (addColNews a b j).getD t 0 := by
    intro t ht
    rw [hm, CsMatrix.rowIndex]
    show (S.resI.take S.nz).getD (addOffsets a b j + t) 0 = _
    rw [i9]
    exact flatMap_range_getD (addColNews a b) 0 b.ncols j t hj ht
  have hvget : ∀ t, t < (addColNews a b j).length →
      (csAddImpl a b).getValue (addOffsets a b j + t) =
        rowSum (addFlat a b j) ((addColNews a b j).getD t 0) := by
    intro t ht
    rw [hm, CsMatrix.getValue]
    show (S.resV.take S.nz).getD (addOffsets a b j + t) 0 = _
    rw [i10]
    have hoff : ((List.range j).map fun x =>
        ((addColNews a b x).map fun r => rowSum (addFlat a b x) r).length).sum =
        addOffsets a b j := by
      rw [addOffsets]
      congr 1
      apply List.map_congr_left
      intro x _
      rw [List.length_map]
    have := flatMap_range_getD
      (fun x => (addColNews a b x).map fun r => rowSum (addFlat a b x) r) 0
      b.ncols j t hj (by rw [List.length_map]; exact ht)
    rw [hoff] at this
    rw [this]
    have key : ((addColNews a b j).map fun r =>
        rowSum (addFlat a b j) r).getD t 0 =
        rowSum (addFlat a b j) ((addColNews a b j)[t]) := by
      rw [List.getD_eq_getElem?_getD,
        List.getElem?_eq_getElem (by rw [List.length_map]; exact ht)]
      simp
    rw [key]
    congr 1
    rw [List.getD_eq_getElem?_getD, List.getElem?_eq_getElem ht]
    rfl
  apply List.ext_getElem
  · rw [List.length_map, length_columnEntries, hstart, hend, hlen]
  · intro t h1 h2
    have ht : t < (addColNews a b j).length := by simpa using h2
    have hidx : (csAddImpl a b).colIdx j =
        List.range' (addOffsets a b j)
          ((addColNews a b j).length) := by
      rw [CsMatrix.colIdx, hstart, hend, hlen]
    have h1' : t < ((csAddImpl a b).colIdx j).length := by
      have := h1
      rw [CsMatrix.columnEntries, List.length_map] at this
      exact this
    have hkt : ((csAddImpl a b).colIdx j)[t] = addOffsets a b j + t := by
      rw [List.getElem_of_eq hidx h1', List.getElem_range']
      omega
    have hrt : (addColNews a b j)[t] = (addColNews a b j).getD t 0 := by
      rw [List.getD_eq_getElem?_getD, List.getElem?_eq_getElem ht]
      rfl
    have higet2 : (csAddImpl a b).rowIndex (addOffsets a b j + t) =
        (addColNews a b j)[t] := by
      rw [higet t ht, ← hrt]
    have hvget2 : (csAddImpl a b).getValue (addOffsets a b j + t) =
        rowSum (addFlat a b j) ((addColNews a b j)[t]) := by
      rw [hvget t ht, ← hrt]
    have hce : (csAddImpl a b).columnEntries j =
        ((csAddImpl a b).colIdx j).map
          (fun k => ((csAddImpl a b).rowIndex k, (csAddImpl a b).getValue k)) :=
      rfl
    have hlhs : (((csAddImpl a b)).columnEntries j)[t] =
        ((csAddImpl a b).rowIndex (addOffsets a b j + t),
         (csAddImpl a b).getValue (addOffsets a b j + t)) := by
      rw [List.getElem_of_eq hce h1, List.getElem_map, hkt]
    rw [hlhs, List.getElem_map, higet2, hvget2]

theorem addOffsets_zero {N : Type} [Zero N] [One N] [Mul N] (a b : CsMatrix N) :
    addOffsets a b 0 = 0 := rfl

theorem csAddImpl_colRows {N : Type} [CommRing N] (a b : CsMatrix N)
    (ha : a.Inv) (hb : b.Inv) (hrr : a.nrows = b.nrows)
    (hcc : a.ncols = b.ncols) (j : Nat) (hj : j < b.ncols) :
    (csAddImpl a b).colRows j = addColNews a b j := by
  rw [CsMatrix.colRows,
    (csAddImpl_spec a b ha hb hrr hcc).2.2.2.2.2.2 j hj, List.map_map]
  have h : (Prod.fst ∘ fun r => (r, rowSum (addFlat a b j) r)) =
      fun r : Nat => r := funext fun r => rfl
  rw [h]
  simp

/-- The output of `Add::add` satisfies the CSC structural invariants,
with duplicate-free (first-touch) columns. -/
theorem csAddImpl_WF {N : Type} [CommRing N] (a b : CsMatrix N)
    (ha : a.Inv) (hb : b.Inv) (hrr : a.nrows = b.nrows)
    (hcc : a.ncols = b.ncols) :
    (csAddImpl a b).Inv ∧ (csAddImpl a b).ColsNodup := by
  obtain ⟨s1, s2, s3, s4, s5, s6, s7⟩ := csAddImpl_spec a b ha hb hrr hcc
  constructor
  · refine ⟨by rw [s3, s2], by rw [s5]; exact s4.symm, ?_, ?_, ?_, ?_⟩
    · intro h0
      rw [s2] at h0
      rw [(s6 0 h0).1, addOffsets_zero]
    · intro h0
      rw [s2] at h0
      rw [s4, h0, addOffsets_zero]
    · intro j hj
      rw [s2] at hj
      obtain ⟨hst, hen⟩ := s6 j hj
      rw [hst, hen, s4]
      constructor
      · rw [addOffsets_succ]
        omega
      · rw [addOffsets, addOffsets]
        exact sum_range_map_le _ (j + 1) b.ncols hj
    · intro j hj r hr
      rw [s2] at hj
      rw [csAddImpl_colRows a b ha hb hrr hcc j hj] at hr
      obtain ⟨hmem, -⟩ := (mem_newRows _ _ r).mp hr
      have := addFlat_rows_lt a b ha hb hrr hcc j hj r hmem
      rw [s1]
      exact this
  · intro j hj
    rw [s2] at hj
    rw [csAddImpl_colRows a b ha hb hrr hcc j hj]
    exact newRows_nodup _ _

/-- C2 (amended): for well-formed same-shaped sparse operands whose
columns carry no duplicate row index, converting the sparse sum to
dense agrees with the entrywise sum of the dense conversions, shape
included. -/
theorem claim_C2_add_dense {N : Type} [CommRing N] (a b : CsMatrix N)
    (ha : a.WF) (hb : b.WF) (hrr : a.nrows = b.nrows)
    (hcc : a.ncols = b.ncols) :
    CsMatrix.add a b = some (csAddImpl a b) ∧
    (toDense (csAddImpl a b)).nrows = (denseAdd (toDense a) (toDense b)).nrows ∧
    (toDense (csAddImpl a b)).ncols = (denseAdd (toDense a) (toDense b)).ncols ∧
    ∀ i j, (toDense (csAddImpl a b)).entry i j =
      (denseAdd (toDense a) (toDense b)).entry i j := by
  obtain ⟨hai, hand⟩ := ha
  obtain ⟨hbi, hbnd⟩ := hb
  obtain ⟨hmInv, hmnd⟩ := csAddImpl_WF a b hai hbi hrr hcc
  have hadd : CsMatrix.add a b = some (csAddImpl a b) := by
    rw [show CsMatrix.add a b = if (a.nrows, a.ncols) = (b.nrows, b.ncols)
      then some (csAddImpl a b) else none from rfl,
      if_pos (by rw [hrr, hcc])]
  have hdenseEq : ∀ i j, (toDense (csAddImpl a b)).entry i j =
      (denseAdd (toDense a) (toDense b)).entry i j := by
    intro i j
    have hda : (denseAdd (toDense a) (toDense b)).entry i j =
        (toDense a).entry i j + (toDense b).entry i j := rfl
    rcases Nat.lt_or_ge j b.ncols with hj | hj
    · have hmc : j < (csAddImpl a b).ncols := hj
      rw [toDense_entry _ hmnd i j hmc, hda,
        toDense_entry a hand i j (by omega),
        toDense_entry b hbnd i j hj]
      rw [colSum_eq_rowSum,
        (csAddImpl_spec a b hai hbi hrr hcc).2.2.2.2.2.2 j hj,
        rowSum_map_pair _ _ _
          (show (addColNews a b j).Nodup from newRows_nodup _ _)]
      by_cases hmem : i ∈ addColNews a b j
      · rw [if_pos hmem, rowSum_addFlat]
      · rw [if_neg hmem]
        have hnm : i ∉ (addFlat a b j).map Prod.fst := by
          intro hc
          exact hmem ((mem_newRows _ _ i).mpr ⟨hc, List.not_mem_nil i⟩)
        rw [addFlat_rows] at hnm
        have hna : i ∉ a.colRows j := fun hc =>
          hnm (List.mem_append.mpr (Or.inl hc))
        have hnb : i ∉ b.colRows j := fun hc =>
          hnm (List.mem_append.mpr (Or.inr hc))
        rw [colSum_eq_rowSum, colSum_eq_rowSum,
          rowSum_of_not_mem _ _ hna, rowSum_of_not_mem _ _ hnb, add_zero]
    · rw [toDense_entry_ge (csAddImpl a b) i j hj, hda,
        toDense_entry_ge a i j (by omega), toDense_entry_ge b i j hj,
        add_zero]
  exact ⟨hadd, rfl, hcc.symm, hdenseEq⟩

/-- C2 witness: the spec §8 scenario, `A = diag(1, 2)`,
`B` the anti-diagonal `(0,1) = 3, (1,0) = 4`, over `ℤ`. -/
theorem claim_C2_add_dense_witness :
    CsMatrix.add (⟨2, 2, [0, 1], [0, 1], [(1 : ℤ), 2]⟩ : CsMatrix ℤ)
        ⟨2, 2, [0, 1], [1, 0], [4, 3]⟩ =
      some (csAddImpl ⟨2, 2, [0, 1], [0, 1], [(1 : ℤ), 2]⟩
        ⟨2, 2, [0, 1], [1, 0], [4, 3]⟩) ∧
    (toDense (csAddImpl (⟨2, 2, [0, 1], [0, 1], [(1 : ℤ), 2]⟩ : CsMatrix ℤ)
        ⟨2, 2, [0, 1], [1, 0], [4, 3]⟩)).nrows =
      (denseAdd (toDense (⟨2, 2, [0, 1], [0, 1], [(1 : ℤ), 2]⟩ : CsMatrix ℤ))
        (toDense (⟨2, 2, [0, 1], [1, 0], [4, 3]⟩ : CsMatrix ℤ))).nrows ∧
    (toDense (csAddImpl (⟨2, 2, [0, 1], [0, 1], [(1 : ℤ), 2]⟩ : CsMatrix ℤ)
        ⟨2, 2, [0, 1], [1, 0], [4, 3]⟩)).ncols =
      (denseAdd (toDense (⟨2, 2, [0, 1], [0, 1], [(1 : ℤ), 2]⟩ : CsMatrix ℤ))
        (toDense (⟨2, 2, [0, 1], [1, 0], [4, 3]⟩ : CsMatrix ℤ))).ncols ∧
    ∀ i j, (toDense (csAddImpl (⟨2, 2, [0, 1], [0, 1], [(1 : ℤ), 2]⟩ :
        CsMatrix ℤ) ⟨2, 2, [0, 1], [1, 0], [4, 3]⟩)).entry i j =
      (denseAdd (toDense (⟨2, 2, [0, 1], [0, 1], [(1 : ℤ), 2]⟩ : CsMatrix ℤ))
        (toDense (⟨2, 2, [0, 1], [1, 0], [4, 3]⟩ : CsMatrix ℤ))).entry i j :=
  claim_C2_add_dense _ _ (by decide) (by decide) rfl rfl

/-- C2 counterexample: the claim as stated fails on a structurally
valid operand whose single column stores row `0` twice — the sparse
kernel accumulates the duplicates (dense value `2`) while the dense
conversion of the operand keeps only the last write (entry `1`). -/
theorem claim_C2_add_dense_cex :
    (⟨1, 1, [0], [0, 0], [(1 : ℤ), 1]⟩ : CsMatrix ℤ).Inv ∧
    (⟨1, 1, [0], [], []⟩ : CsMatrix ℤ).Inv ∧
    CsMatrix.add (⟨1, 1, [0], [0, 0], [(1 : ℤ), 1]⟩ : CsMatrix ℤ)
        ⟨1, 1, [0], [], []⟩ =
      some (csAddImpl (⟨1, 1, [0], [0, 0], [(1 : ℤ), 1]⟩ : CsMatrix ℤ)
        ⟨1, 1, [0], [], []⟩) ∧
    (toDense (csAddImpl (⟨1, 1, [0], [0, 0], [(1 : ℤ), 1]⟩ : CsMatrix ℤ)
        ⟨1, 1, [0], [], []⟩)).entry 0 0 = 2 ∧
    (denseAdd (toDense (⟨1, 1, [0], [0, 0], [(1 : ℤ), 1]⟩ : CsMatrix ℤ))
        (toDense (⟨1, 1, [0], [], []⟩ : CsMatrix ℤ))).entry 0 0 = 1 := by
  refine ⟨by decide, by decide, rfl, by decide, by decide⟩

/-! ## Assembly of `Mul::mul` -/

theorem resizeList_length {α : Type} (l : List α) (n : Nat) (d : α) :
    (resizeList l n d).length = n := by
  rw [resizeList]
  by_cases h : n ≤ l.length
  · rw [if_pos h, List.length_take]
    omega
  · rw [if_neg h, List.length_append, List.length_replicate]
    omega

theorem resizeList_take {α : Type} (l : List α) (n k : Nat) (d : α)
    (hk : k ≤ n) (hk2 : k ≤ l.length) :
    (resizeList l n d).take k = l.take k := by
  rw [resizeList]
  by_cases h : n ≤ l.length
  · rw [if_pos h, List.take_take]
    congr 1
    omega
  · rw [if_neg h, List.take_append_of_le_length hk2]

theorem mulLoopState_succ {N : Type} [Zero N] [Add N] [Mul N]
    (a b : CsMatrix N) (k : Nat) :
    mulLoopState a b (k + 1) = mulCol a b (mulLoopState a b k) k := by
  rw [mulLoopState, mulLoopState, List.range_succ, List.foldl_append]
  rfl

theorem scatter_fold_eq_flat {N : Type} [Zero N] [Add N] [Mul N]
    (a : CsMatrix N) (L : List (Nat × N)) (stamp : Nat) :
    ∀ s : KState N,
      L.foldl (fun s e => a.scatter e.1 e.2 stamp s) s =
        scatterFlat (L.flatMap fun e =>
          (a.columnEntries e.1).map fun e2 => (e2.1, e.2 * e2.2)) stamp s := by
  induction L with
  | nil => intro s; rfl
  | cons e rest ih =>
    intro s
    rw [List.foldl_cons, List.flatMap_cons, scatterFlat_append, ih]
    rfl

theorem mulFlat_rows_lt {N : Type} [Zero N] [Mul N] (a b : CsMatrix N)
    (ha : a.Inv) (hb : b.Inv) (hcn : a.ncols = b.nrows) (k : Nat)
    (hk : k < b.ncols) :
    ∀ r ∈ (mulFlat a b k).map Prod.fst, r < a.nrows := by
  intro r hr
  obtain ⟨e, he, hre⟩ := List.mem_map.mp hr
  rw [mulFlat] at he
  obtain ⟨eb, heb, hee⟩ := List.mem_flatMap.mp he
  obtain ⟨ea, hea, heaeq⟩ := List.mem_map.mp hee
  have hrow : r = ea.1 := by rw [← hre, ← heaeq]
  have hklt : eb.1 < b.nrows := hb.2.2.2.2.2 k hk eb.1
    (List.mem_map_of_mem _ heb)
  have := ha.2.2.2.2.2 eb.1 (by omega) ea.1 (List.mem_map_of_mem _ hea)
  omega

theorem nodup_bounded_length_le (L : List Nat) (n : Nat) (hnd : L.Nodup)
    (hlt : ∀ r ∈ L, r < n) : L.length ≤ n := by
  have h1 : L.toFinset ⊆ Finset.range n := by
    intro x hx
    rw [List.mem_toFinset] at hx
    exact Finset.mem_range.mpr (hlt x hx)
  have h2 := Finset.card_le_card h1
  rw [Finset.card_range, List.toFinset_card_of_nodup hnd] at h2
  exact h2

theorem mulColNews_length_le {N : Type} [Zero N] [Mul N] (a b : CsMatrix N)
    (ha : a.Inv) (hb : b.Inv) (hcn : a.ncols = b.nrows) (k : Nat)
    (hk : k < b.ncols) : (mulColNews a b k).length ≤ a.nrows := by
  apply nodup_bounded_length_le _ _ (newRows_nodup _ _)
  intro r hr
  obtain ⟨hmem, -⟩ := (mem_newRows _ _ r).mp hr
  exact mulFlat_rows_lt a b ha hb hcn k hk r hmem

theorem mulOffsets_succ {N : Type} [Zero N] [Mul N] (a b : CsMatrix N)
    (k : Nat) :
    mulOffsets a b (k + 1) = mulOffsets a b k + (mulColNews a b k).length := by
  rw [mulOffsets, mulOffsets, List.range_succ, List.map_append,
    List.sum_append]
  simp

/-- The invariant of `Mul::mul`'s column loop: the per-column resize to
`nz + nrows` always leaves room for the at most `nrows` first-touch
rows of the column (and for the gather), so every buffer write stays in
bounds while the prefixes accumulate the per-column row lists and
gathered values. -/
theorem mulLoop_inv {N : Type} [CommRing N] (a b : CsMatrix N)
    (ha : a.Inv) (hb : b.Inv) (hcn : a.ncols = b.nrows) :
    ∀ k, k ≤ b.ncols →
      (mulLoopState a b k).ts.length = a.nrows ∧
      (mulLoopState a b k).ws.length = a.nrows ∧
      (∀ r, r < a.nrows → (mulLoopState a b k).ts.getD r 0 ≤ k) ∧
      (mulLoopState a b k).nz = mulOffsets a b k ∧
      (mulLoopState a b k).resI.length = (mulLoopState a b k).resV.length ∧
      (mulLoopState a b k).nz ≤ (mulLoopState a b k).resI.length ∧
      (mulLoopState a b k).p.length = b.ncols ∧
      (∀ j, j < k → (mulLoopState a b k).p.getD j 0 = mulOffsets a b j) ∧
      (mulLoopState a b k).resI.take (mulLoopState a b k).nz =
        (List.range k).flatMap (mulColNews a b) ∧
      (mulLoopState a b k).resV.take (mulLoopState a b k).nz =
        (List.range k).flatMap fun j =>
          (mulColNews a b j).map fun r => rowSum (mulFlat a b j) r := by
  intro k
  induction k with
  | zero =>
    intro _
    refine ⟨by simp [mulLoopState], by simp [mulLoopState], ?_,
      by simp [mulLoopState, mulOffsets], by simp [mulLoopState],
      by simp [mulLoopState], by simp [mulLoopState],
      fun j hj => absurd hj (Nat.not_lt_zero j),
      by simp [mulLoopState], by simp [mulLoopState]⟩
    intro r hr
    have h0 : (mulLoopState a b 0).ts = List.replicate a.nrows 0 := rfl
    rw [h0, getD_replicate _ _ _ _ hr]
  | succ k ih =>
    intro hk
    have hklt : k < b.ncols := hk
    obtain ⟨i1, i2, i3, i4, i5, i6, i7, i8, i9, i10⟩ :=
      ih (Nat.le_of_succ_le hk)
    set s := mulLoopState a b k with hs
    set s2 : KState N :=
      { s with
        p := s.p.set k s.nz
        resI := resizeList s.resI (s.nz + a.nrows) 0
        resV := resizeList s.resV (s.nz + a.nrows) 0 } with hs2
    have e3 : mulLoopState a b (k + 1) =
        gatherCol ((scatterFlat (mulFlat a b k) (k + 1) s2).p.getD k 0)
          (scatterFlat (mulFlat a b k) (k + 1) s2) := by
      rw [mulLoopState_succ, mulCol, scatter_fold_eq_flat]
      rfl
    have hrowsR := mulFlat_rows_lt a b ha hb hcn k hklt
    have hnewsb := mulColNews_length_le a b ha hb hcn k hklt
    have hts2 : s2.ts = s.ts := rfl
    have hws2 : s2.ws = s.ws := rfl
    have hnz2 : s2.nz = s.nz := rfl
    have hrows2 : ∀ e ∈ mulFlat a b k, e.1 < s2.ts.length := by
      intro e he
      rw [hts2, i1]
      exact hrowsR e.1 (List.mem_map_of_mem _ he)
    have hseen2 : ∀ r, r < s2.ts.length →
        ((r ∈ ([] : List Nat)) ↔ ¬ s2.ts.getD r 0 < k + 1) := by
      intro r hr
      rw [hts2] at hr ⊢
      rw [i1] at hr
      constructor
      · intro h
        exact absurd h (List.not_mem_nil r)
      · intro hneg
        exact absurd (Nat.lt_succ_of_le (i3 r hr)) hneg
    obtain ⟨c1, c2, c3, c4, c5, c6, c7, c8⟩ :=
      scatterFlat_spec (mulFlat a b k) (k + 1) s2 []
        (by rw [hts2, hws2, i1, i2]) hrows2 hseen2
    set s3 := scatterFlat (mulFlat a b k) (k + 1) s2 with hs3
    have hnews : newRows [] ((mulFlat a b k).map Prod.fst) =
        mulColNews a b k := rfl
    rw [hnews] at c3 c6
    set news := mulColNews a b k with hnw
    have hresI2len : s2.resI.length = s.nz + a.nrows := by
      show (resizeList s.resI (s.nz + a.nrows) 0).length = _
      rw [resizeList_length]
    have hresV2len : s2.resV.length = s.nz + a.nrows := by
      show (resizeList s.resV (s.nz + a.nrows) 0).length = _
      rw [resizeList_length]
    have hpk : s3.p.getD k 0 = mulOffsets a b k := by
      rw [c5]
      show (s.p.set k s.nz).getD k 0 = _
      rw [getD_set_self (by rw [i7]; exact hklt), i4]
    have hcap2 : s2.nz + news.length ≤ s2.resI.length := by
      rw [hnz2, hresI2len]
      omega
    have hresI3 : s3.resI = writeSeq s2.resI (mulOffsets a b k) news := by
      rw [c3, hnz2, i4]
    have hnz3 : s3.nz = mulOffsets a b k + news.length := by
      rw [c6, hnz2, i4]
    have hgresI : ∀ t, t < news.length →
        s3.resI.getD (mulOffsets a b k + t) 0 = news.getD t 0 := by
      intro t ht
      rw [hresI3]
      exact writeSeq_getD_at news s2.resI (mulOffsets a b k) t
        (by rw [hresI2len, ← i4]; omega) ht 0
    have hgather := gatherCol_resV (mulOffsets a b k) s3 news
      (by omega) hgresI
    have hveq : news.map (fun r => s3.ws.getD r 0) =
        news.map fun r => rowSum (mulFlat a b k) r := by
      apply List.map_congr_left
      intro r hrn
      obtain ⟨hrmem, -⟩ := (mem_newRows _ _ r).mp hrn
      have hrlt : r < a.nrows := hrowsR r hrmem
      have := c8 r (by rw [hts2, i1]; exact hrlt)
      rw [this, if_pos hrmem]
      simp
    rw [hveq] at hgather
    rw [e3, hpk, hgather]
    have hts3len : s3.ts.length = a.nrows := by rw [c1, hts2, i1]
    have htake2I : s2.resI.take s.nz = s.resI.take s.nz := by
      show (resizeList s.resI (s.nz + a.nrows) 0).take s.nz = _
      exact resizeList_take s.resI (s.nz + a.nrows) s.nz 0 (by omega) i6
    have htake2V : s2.resV.take s.nz = s.resV.take s.nz := by
      show (resizeList s.resV (s.nz + a.nrows) 0).take s.nz = _
      exact resizeList_take s.resV (s.nz + a.nrows) s.nz 0 (by omega)
        (by rw [← i5]; exact i6)
    refine ⟨hts3len, by rw [c2, hws2, i2], ?_, ?_, ?_, ?_, ?_, ?_, ?_, ?_⟩
    · intro r hr
      have := c7 r (by rw [hts2, i1]; exact hr)
      rw [hts2] at this
      rw [this]
      by_cases hmem : r ∈ (mulFlat a b k).map Prod.fst ∧ r ∉ ([] : List Nat)
      · rw [if_pos hmem]
      · rw [if_neg hmem]
        exact Nat.le_succ_of_le (i3 r hr)
    · rw [hnz3, mulOffsets_succ]
    · rw [writeSeq_length, hresI3, writeSeq_length, hresI2len, c4, hresV2len]
    · rw [hnz3, hresI3, writeSeq_length, hresI2len, ← i4]
      omega
    · rw [c5]
      show (s.p.set k s.nz).length = b.ncols
      rw [List.length_set, i7]
    · intro j hj
      have hp3 : s3.p = s.p.set k s.nz := c5
      rcases Nat.lt_or_ge j k with hjk | hjk
      · rw [hp3, getD_set_ne (by omega), i8 j hjk]
      · have hje : j = k := by omega
        subst hje
        rw [hp3, getD_set_self (by rw [i7]; exact hklt), i4]
    · rw [hnz3, hresI3]
      rw [writeSeq_take_all news s2.resI (mulOffsets a b k)
        (by rw [hresI2len, ← i4]; omega)]
      rw [← i4, htake2I, i4, ← i4, i9, List.range_succ, List.flatMap_append]
      simp [hnw]
    · rw [hnz3, c4]
      have hlen2 : (news.map fun r => rowSum (mulFlat a b k) r).length =
          news.length := by rw [List.length_map]
      rw [show mulOffsets a b k + news.length =
        mulOffsets a b k + (news.map fun r => rowSum (mulFlat a b k) r).length
        from by rw [hlen2]]
      rw [writeSeq_take_all _ s2.resV (mulOffsets a b k)
        (by rw [hresV2len, hlen2, ← i4]; omega)]
      rw [← i4, htake2V, i4, ← i4, i10, List.range_succ, List.flatMap_append]
      simp [hnw]

/-- The output of `Mul::mul`'s body: shape `(nrows1, ncols2)`, exactly
the per-column first-touch rows with their gathered per-row sums. -/
theorem csMulImpl_spec {N : Type} [CommRing N] (a b : CsMatrix N)
    (ha : a.Inv) (hb : b.Inv) (hcn : a.ncols = b.nrows) :
    (csMulImpl a b).nrows = a.nrows ∧
    (csMulImpl a b).ncols = b.ncols ∧
    (csMulImpl a b).p.length = b.ncols ∧
    (csMulImpl a b).nvalues = mulOffsets a b b.ncols ∧
    (csMulImpl a b).i.length = mulOffsets a b b.ncols ∧
    (∀ j, j < b.ncols →
      (csMulImpl a b).colStart j = mulOffsets a b j ∧
      (csMulImpl a b).colEnd j = mulOffsets a b (j + 1)) ∧
    (∀ j, j < b.ncols → (csMulImpl a b).columnEntries j =
      (mulColNews a b j).map fun r => (r, rowSum (mulFlat a b j) r)) := by
  obtain ⟨i1, i2, i3, i4, i5, i6, i7, i8, i9, i10⟩ :=
    mulLoop_inv a b ha hb hcn b.ncols (Nat.le_refl _)
  set S := mulLoopState a b b.ncols with hS
  have hm : csMulImpl a b =
      ⟨a.nrows, b.ncols, S.p, S.resI.take S.nz, S.resV.take S.nz⟩ := rfl
  have hileq : (S.resI.take S.nz).length = mulOffsets a b b.ncols := by
    rw [List.length_take, ← i4]
    omega
  have hvleq : (S.resV.take S.nz).length = mulOffsets a b b.ncols := by
    rw [List.length_take, ← i4, ← i5]
    omega
  have hnval : (csMulImpl a b).nvalues = mulOffsets a b b.ncols := by
    rw [hm, CsMatrix.nvalues]
    exact hvleq
  have hcolb : ∀ j, j < b.ncols →
      (csMulImpl a b).colStart j = mulOffsets a b j ∧
      (csMulImpl a b).colEnd j = mulOffsets a b (j + 1) := by
    intro j hj
    constructor
    · rw [hm, CsMatrix.colStart]
      exact i8 j hj
    · rw [CsMatrix.colEnd]
      by_cases hje : j + 1 = (csMulImpl a b).p.length
      · rw [if_pos hje, hnval]
        rw [hm] at hje
        have : j + 1 = b.ncols := by rw [hje]; exact i7
        rw [this]
      · rw [if_neg hje, hm]
        have hjlt : j + 1 < b.ncols := by
          rcases Nat.lt_or_ge (j + 1) b.ncols with h | h
          · exact h
          · exfalso
            apply hje
            rw [hm]
            show j + 1 = S.p.length
            rw [i7]
            omega
        exact i8 (j + 1) hjlt
  refine ⟨rfl, rfl, by rw [hm]; exact i7, hnval, by rw [hm]; exact hileq,
    hcolb, ?_⟩
  intro j hj
  obtain ⟨hstart, hend⟩ := hcolb j hj
  have hlen : (mulOffsets a b (j + 1)) - mulOffsets a b j =
      (mulColNews a b j).length := by
    rw [mulOffsets_succ]
    omega
  have higet : ∀ t, t < (mulColNews a b j).length →
      (csMulImpl a b).rowIndex (mulOffsets a b j + t) =
        (mulColNews a b j).getD t 0 := by
    intro t ht
    rw [hm, CsMatrix.rowIndex]
    show (S.resI.take S.nz).getD (mulOffsets a b j + t) 0 = _
    rw [i9]
    exact flatMap_range_getD (mulColNews a b) 0 b.ncols j t hj ht
  have hvget : ∀ t, t < (mulColNews a b j).length →
      (csMulImpl a b).getValue (mulOffsets a b j + t) =
        rowSum (mulFlat a b j) ((mulColNews a b j).getD t 0) := by
    intro t ht
    rw [hm, CsMatrix.getValue]
    show (S.resV.take S.nz).getD (mulOffsets a b j + t) 0 = _
    rw [i10]
    have hoff : ((List.range j).map fun x =>
        ((mulColNews a b x).map fun r => rowSum (mulFlat a b x) r).length).sum =
        mulOffsets a b j := by
      rw [mulOffsets]
      congr 1
      apply List.map_congr_left
      intro x _
      rw [List.length_map]
    have h6 := flatMap_range_getD
      (fun x => (mulColNews a b x).map fun r => rowSum (mulFlat a b x) r) 0
      b.ncols j t hj (by rw [List.length_map]; exact ht)
    rw [hoff] at h6
    rw [h6]
    have key : ((mulColNews a b j).map fun r =>
        rowSum (mulFlat a b j) r).getD t 0 =
        rowSum (mulFlat a b j) ((mulColNews a b j)[t]) := by
      rw [List.getD_eq_getElem?_getD,
        List.getElem?_eq_getElem (by rw [List.length_map]; exact ht)]
      simp
    rw [key]
    congr 1
    rw [List.getD_eq_getElem?_getD, List.getElem?_eq_getElem ht]
    rfl
  apply List.ext_getElem
  · rw [List.length_map, length_columnEntries, hstart, hend, hlen]
  · intro t h1 h2
    have ht : t < (mulColNews a b j).length := by simpa using h2
    have hidx : (csMulImpl a b).colIdx j =
        List.range' (mulOffsets a b j)
          ((mulColNews a b j).length) := by
      rw [CsMatrix.colIdx, hstart, hend, hlen]
    have h1' : t < ((csMulImpl a b).colIdx j).length := by
      have := h1
      rw [CsMatrix.columnEntries, List.length_map] at this
      exact this
    have hkt : ((csMulImpl a b).colIdx j)[t] = mulOffsets a b j + t := by
      rw [List.getElem_of_eq hidx h1', List.getElem_range']
      omega
    have hrt : (mulColNews a b j)[t] = (mulColNews a b j).getD t 0 := by
      rw [List.getD_eq_getElem?_getD, List.getElem?_eq_getElem ht]
      rfl
    have higet2 : (csMulImpl a b).rowIndex (mulOffsets a b j + t) =
        (mulColNews a b j)[t] := by
      rw [higet t ht, ← hrt]
    have hvget2 : (csMulImpl a b).getValue (mulOffsets a b j + t) =
        rowSum (mulFlat a b j) ((mulColNews a b j)[t]) := by
      rw [hvget t ht, ← hrt]
    have hce : (csMulImpl a b).columnEntries j =
        ((csMulImpl a b).colIdx j).map
          (fun k => ((csMulImpl a b).rowIndex k, (csMulImpl a b).getValue k)) :=
      rfl
    have hlhs : (((csMulImpl a b)).columnEntries j)[t] =
        ((csMulImpl a b).rowIndex (mulOffsets a b j + t),
         (csMulImpl a b).getValue (mulOffsets a b j + t)) := by
      rw [List.getElem_of_eq hce h1, List.getElem_map, hkt]
    rw [hlhs, List.getElem_map, higet2, hvget2]

theorem mulOffsets_zero {N : Type} [Zero N] [Mul N] (a b : CsMatrix N) :
    mulOffsets a b 0 = 0 := rfl

theorem csMulImpl_colRows {N : Type} [CommRing N] (a b : CsMatrix N)
    (ha : a.Inv) (hb : b.Inv) (hcn : a.ncols = b.nrows) (j : Nat)
    (hj : j < b.ncols) :
    (csMulImpl a b).colRows j = mulColNews a b j := by
  rw [CsMatrix.colRows,
    (csMulImpl_spec a b ha hb hcn).2.2.2.2.2.2 j hj, List.map_map]
  have h : (Prod.fst ∘ fun r => (r, rowSum (mulFlat a b j) r)) =
      fun r : Nat => r := funext fun r => rfl
  rw [h]
  simp

/-- The output of `Mul::mul` satisfies the CSC structural invariants,
with duplicate-free (first-touch) columns. -/
theorem csMulImpl_WF {N : Type} [CommRing N] (a b : CsMatrix N)
    (ha : a.Inv) (hb : b.Inv) (hcn : a.ncols = b.nrows) :
    (csMulImpl a b).Inv ∧ (csMulImpl a b).ColsNodup := by
  obtain ⟨s1, s2, s3, s4, s5, s6, s7⟩ := csMulImpl_spec a b ha hb hcn
  constructor
  · refine ⟨by rw [s3, s2], by rw [s5]; exact s4.symm, ?_, ?_, ?_, ?_⟩
    · intro h0
      rw [s2] at h0
      rw [(s6 0 h0).1, mulOffsets_zero]
    · intro h0
      rw [s2] at h0
      rw [s4, h0, mulOffsets_zero]
    · intro j hj
      rw [s2] at hj
      obtain ⟨hst, hen⟩ := s6 j hj
      rw [hst, hen, s4]
      constructor
      · rw [mulOffsets_succ]
        omega
      · rw [mulOffsets, mulOffsets]
        exact sum_range_map_le _ (j + 1) b.ncols hj
    · intro j hj r hr
      rw [s2] at hj
      rw [csMulImpl_colRows a b ha hb hcn j hj] at hr
      obtain ⟨hmem, -⟩ := (mem_newRows _ _ r).mp hr
      have := mulFlat_rows_lt a b ha hb hcn j hj r hmem
      rw [s1]
      exact this
  · intro j hj
    rw [s2] at hj
    rw [csMulImpl_colRows a b ha hb hcn j hj]
    exact newRows_nodup _ _

theorem sum_range_eq_sum_list {N : Type} [AddCommMonoid N] (g : Nat → N) :
    ∀ (n : Nat) (L : List Nat), L.Nodup → (∀ x ∈ L, x < n) →
      (∀ x, x < n → x ∉ L → g x = 0) →
      ((List.range n).map g).sum = (L.map g).sum := by
  intro n
  induction n with
  | zero =>
    intro L hnd hsub hz
    have hL : L = [] := by
      cases L with
      | nil => rfl
      | cons x xs =>
        exact absurd (hsub x (List.mem_cons_self _ _)) (Nat.not_lt_zero x)
    subst hL
    rfl
  | succ n ih =>
    intro L hnd hsub hz
    rw [List.range_succ, List.map_append, List.sum_append]
    by_cases hn : n ∈ L
    · have hperm : L.Perm (n :: L.erase n) := List.perm_cons_erase hn
      have hsum : (L.map g).sum = g n + ((L.erase n).map g).sum := by
        have := (hperm.map g).sum_eq
        rw [this, List.map_cons, List.sum_cons]
      have hihe := ih (L.erase n) (hnd.erase n) ?_ ?_
      · rw [hihe, hsum]
        simp [add_comm]
      · intro x hx
        obtain ⟨hxn, hxL⟩ := (List.Nodup.mem_erase_iff hnd).mp hx
        have := hsub x hxL
        omega
      · intro x hxlt hxe
        apply hz x (by omega)
        intro hxL
        exact hxe ((List.Nodup.mem_erase_iff hnd).mpr ⟨by omega, hxL⟩)
    · have hgn : g n = 0 := hz n (Nat.lt_succ_self n) hn
      have hihe := ih L hnd ?_ ?_
      · rw [hihe]
        simp [hgn]
      · intro x hx
        have h1 := hsub x hx
        have h2 : x ≠ n := fun hc => hn (hc ▸ hx)
        omega
      · intro x hxlt hxL
        exact hz x (by omega) hxL

theorem rowSum_flatMap {N : Type} [AddCommMonoid N] {β : Type} (L : List β)
    (g : β → List (Nat × N)) (i : Nat) :
    rowSum (L.flatMap g) i = (L.map fun e => rowSum (g e) i).sum := by
  induction L with
  | nil => simp [rowSum]
  | cons e rest ih =>
    rw [List.flatMap_cons, rowSum_append, List.map_cons, List.sum_cons, ih]

theorem rowSum_self_of_mem {N : Type} [AddCommMonoid N] (es : List (Nat × N))
    (e : Nat × N) (hnd : (es.map Prod.fst).Nodup) (he : e ∈ es) :
    rowSum es e.1 = e.2 := by
  induction es with
  | nil => cases he
  | cons e0 rest ih =>
    obtain ⟨r0, v0⟩ := e0
    have hmc : ((r0, v0) :: rest).map Prod.fst = r0 :: rest.map Prod.fst := rfl
    rw [hmc] at hnd
    have hnd' := List.nodup_cons.mp hnd
    rcases List.mem_cons.mp he with he0 | hemem
    · subst he0
      rw [rowSum_cons_self, rowSum_of_not_mem _ _ hnd'.1, add_zero]
    · have hne : r0 ≠ e.1 := by
        intro hc
        exact hnd'.1 (hc ▸ List.mem_map_of_mem Prod.fst hemem)
      rw [rowSum_cons_ne _ _ _ _ hne]
      exact ih hnd'.2 hemem

/-- C1 (amended): for well-formed compatible operands whose columns
carry no duplicate row index, converting the sparse product to dense
agrees with the dense matrix product of the dense conversions; each
output column `j` is the weighted sum of `lhs` columns selected and
scaled by the entries of `rhs`'s column `j`. -/
theorem claim_C1_mul_dense {N : Type} [CommRing N] (a b : CsMatrix N)
    (ha : a.WF) (hb : b.WF) (hcn : a.ncols = b.nrows) :
    CsMatrix.mul a b = some (csMulImpl a b) ∧
    (toDense (csMulImpl a b)).nrows = (denseMul (toDense a) (toDense b)).nrows ∧
    (toDense (csMulImpl a b)).ncols = (denseMul (toDense a) (toDense b)).ncols ∧
    ∀ i j, (toDense (csMulImpl a b)).entry i j =
      (denseMul (toDense a) (toDense b)).entry i j := by
  obtain ⟨hai, hand⟩ := ha
  obtain ⟨hbi, hbnd⟩ := hb
  obtain ⟨hmInv, hmnd⟩ := csMulImpl_WF a b hai hbi hcn
  have hmul : CsMatrix.mul a b = some (csMulImpl a b) := by
    rw [show CsMatrix.mul a b = if a.ncols = b.nrows
      then some (csMulImpl a b) else none from rfl, if_pos hcn]
  refine ⟨hmul, rfl, rfl, ?_⟩
  intro i j
  have hdm : (denseMul (toDense a) (toDense b)).entry i j =
      ((List.range a.ncols).map fun k =>
        (toDense a).entry i k * (toDense b).entry k j).sum := rfl
  rcases Nat.lt_or_ge j b.ncols with hj | hj
  · -- inside the column range
    have hrhs : (denseMul (toDense a) (toDense b)).entry i j =
        ((b.columnEntries j).map fun e => a.colSum e.1 i * e.2).sum := by
      rw [hdm]
      have hstep1 : ((List.range a.ncols).map fun k =>
          (toDense a).entry i k * (toDense b).entry k j).sum =
          ((List.range a.ncols).map fun k =>
            a.colSum k i * b.colSum j k).sum := by
        congr 1
        apply List.map_congr_left
        intro k hk
        have hklt := List.mem_range.mp hk
        rw [toDense_entry a hand i k hklt, toDense_entry b hbnd k j hj]
      rw [hstep1]
      have hstep2 := sum_range_eq_sum_list
        (fun k => a.colSum k i * b.colSum j k) a.ncols (b.colRows j)
        (hbnd j hj) ?_ ?_
      · rw [hstep2, CsMatrix.colRows, List.map_map]
        congr 1
        apply List.map_congr_left
        intro e he
        show a.colSum e.1 i * b.colSum j e.1 = a.colSum e.1 i * e.2
        rw [colSum_eq_rowSum b, rowSum_self_of_mem _ e (hbnd j hj) he]
      · intro x hx
        have h7 := hbi.2.2.2.2.2 j hj x hx
        omega
      · intro x hxlt hxmem
        show a.colSum x i * b.colSum j x = 0
        rw [colSum_eq_rowSum b, rowSum_of_not_mem _ _ hxmem, mul_zero]
    rw [hrhs, toDense_entry _ hmnd i j (show j < (csMulImpl a b).ncols from hj),
      colSum_eq_rowSum, (csMulImpl_spec a b hai hbi hcn).2.2.2.2.2.2 j hj,
      rowSum_map_pair _ _ _
        (show (mulColNews a b j).Nodup from newRows_nodup _ _)]
    by_cases hmem : i ∈ mulColNews a b j
    · rw [if_pos hmem]
      rw [show rowSum (mulFlat a b j) i =
        ((b.columnEntries j).map fun e =>
          rowSum ((a.columnEntries e.1).map fun e2 => (e2.1, e.2 * e2.2)) i).sum
        from rowSum_flatMap _ _ _]
      congr 1
      apply List.map_congr_left
      intro e _
      rw [rowSum_map_scale, colSum_eq_rowSum a, mul_comm]
    · rw [if_neg hmem]
      symm
      apply List.sum_eq_zero
      intro x hx
      obtain ⟨e, he, hex⟩ := List.mem_map.mp hx
      have hcs : a.colSum e.1 i = 0 := by
        rw [colSum_eq_rowSum a]
        apply rowSum_of_not_mem
        intro hc
        apply hmem
        apply (mem_newRows _ _ i).mpr
        refine ⟨?_, List.not_mem_nil i⟩
        obtain ⟨e2, he2, he2i⟩ := List.mem_map.mp hc
        apply List.mem_map.mpr
        refine ⟨(e2.1, e.2 * e2.2), ?_, he2i⟩
        rw [mulFlat]
        exact List.mem_flatMap.mpr ⟨e, he,
          List.mem_map.mpr ⟨e2, he2, rfl⟩⟩
      rw [← hex, hcs, zero_mul]
  · -- outside the column range both sides vanish
    rw [toDense_entry_ge (csMulImpl a b) i j hj, hdm]
    symm
    apply List.sum_eq_zero
    intro x hx
    obtain ⟨k, hk, hkx⟩ := List.mem_map.mp hx
    rw [← hkx, toDense_entry_ge b k j hj, mul_zero]

/-- C1 witness: the spec §8 scenario over `ℤ`,
`dense(A * B) = [[0, 3], [8, 0]]`. -/
theorem claim_C1_mul_dense_witness :
    CsMatrix.mul (⟨2, 2, [0, 1], [0, 1], [(1 : ℤ), 2]⟩ : CsMatrix ℤ)
        ⟨2, 2, [0, 1], [1, 0], [4, 3]⟩ =
      some (csMulImpl ⟨2, 2, [0, 1], [0, 1], [(1 : ℤ), 2]⟩
        ⟨2, 2, [0, 1], [1, 0], [4, 3]⟩) ∧
    (toDense (csMulImpl (⟨2, 2, [0, 1], [0, 1], [(1 : ℤ), 2]⟩ : CsMatrix ℤ)
        ⟨2, 2, [0, 1], [1, 0], [4, 3]⟩)).nrows =
      (denseMul (toDense (⟨2, 2, [0, 1], [0, 1], [(1 : ℤ), 2]⟩ : CsMatrix ℤ))
        (toDense (⟨2, 2, [0, 1], [1, 0], [4, 3]⟩ : CsMatrix ℤ))).nrows ∧
    (toDense (csMulImpl (⟨2, 2, [0, 1], [0, 1], [(1 : ℤ), 2]⟩ : CsMatrix ℤ)
        ⟨2, 2, [0, 1], [1, 0], [4, 3]⟩)).ncols =
      (denseMul (toDense (⟨2, 2, [0, 1], [0, 1], [(1 : ℤ), 2]⟩ : CsMatrix ℤ))
        (toDense (⟨2, 2, [0, 1], [1, 0], [4, 3]⟩ : CsMatrix ℤ))).ncols ∧
    ∀ i j, (toDense (csMulImpl (⟨2, 2, [0, 1], [0, 1], [(1 : ℤ), 2]⟩ :
        CsMatrix ℤ) ⟨2, 2, [0, 1], [1, 0], [4, 3]⟩)).entry i j =
      (denseMul (toDense (⟨2, 2, [0, 1], [0, 1], [(1 : ℤ), 2]⟩ : CsMatrix ℤ))
        (toDense (⟨2, 2, [0, 1], [1, 0], [4, 3]⟩ : CsMatrix ℤ))).entry i j :=
  claim_C1_mul_dense _ _ (by decide) (by decide) rfl

/-- C1 counterexample: the claim as stated fails on a structurally
valid left operand whose single column stores row `0` twice — the
sparse kernel accumulates the duplicates (product entry `3`) while the
dense conversion keeps only the last write (product entry `2`). -/
theorem claim_C1_mul_dense_cex :
    (⟨1, 1, [0], [0, 0], [(1 : ℤ), 2]⟩ : CsMatrix ℤ).Inv ∧
    (⟨1, 1, [0], [0], [(1 : ℤ)]⟩ : CsMatrix ℤ).Inv ∧
    CsMatrix.mul (⟨1, 1, [0], [0, 0], [(1 : ℤ), 2]⟩ : CsMatrix ℤ)
        ⟨1, 1, [0], [0], [(1 : ℤ)]⟩ =
      some (csMulImpl (⟨1, 1, [0], [0, 0], [(1 : ℤ), 2]⟩ : CsMatrix ℤ)
        ⟨1, 1, [0], [0], [(1 : ℤ)]⟩) ∧
    (toDense (csMulImpl (⟨1, 1, [0], [0, 0], [(1 : ℤ), 2]⟩ : CsMatrix ℤ)
        ⟨1, 1, [0], [0], [(1 : ℤ)]⟩)).entry 0 0 = 3 ∧
    (denseMul (toDense (⟨1, 1, [0], [0, 0], [(1 : ℤ), 2]⟩ : CsMatrix ℤ))
        (toDense (⟨1, 1, [0], [0], [(1 : ℤ)]⟩ : CsMatrix ℤ))).entry 0 0 = 2 := by
  refine ⟨by decide, by decide, rfl, by decide, by decide⟩

/-! ## Nonzero-count characterization (C5) and scatter bounds (C10) -/

theorem newRows_length_eq_card (rs : List Nat) :
    (newRows [] rs).length = rs.toFinset.card := by
  rw [← List.toFinset_card_of_nodup (newRows_nodup rs [])]
  congr 1
  apply Finset.ext
  intro x
  rw [List.mem_toFinset, List.mem_toFinset, mem_newRows]
  constructor
  · exact fun h => h.1
  · exact fun h => ⟨h, List.not_mem_nil x⟩

theorem mulFlat_rows_eq {N : Type} [Zero N] [Mul N] (a b : CsMatrix N)
    (j : Nat) :
    (mulFlat a b j).map Prod.fst =
      (b.columnEntries j).flatMap fun e => a.colRows e.1 := by
  rw [mulFlat, List.map_flatMap]
  apply List.flatMap_congr
  intro e _
  rw [List.map_map]
  rfl

/-- C5 (amended): the nonzero count of an addition or multiplication
output is the number of structurally touched positions — per column,
the cardinality of the union of the operands' row patterns (addition)
or of the `lhs` row patterns selected by `rhs`'s column
(multiplication).  This can fall below the loose allocation bound
`nnz(A) + nnz(B)`, but it counts stored entries whose accumulated value
may be zero, so it does not in general equal the number of nonzero
entries of the dense ground-truth result. -/
theorem claim_C5_nvalues {N : Type} [CommRing N] (a b : CsMatrix N) :
    (a.Inv → b.Inv → a.nrows = b.nrows → a.ncols = b.ncols →
      (csAddImpl a b).nvalues =
        ((List.range b.ncols).map fun j =>
          ((a.colRows j).toFinset ∪ (b.colRows j).toFinset).card).sum) ∧
    (a.Inv → b.Inv → a.ncols = b.nrows →
      (csMulImpl a b).nvalues =
        ((List.range b.ncols).map fun j =>
          ((b.columnEntries j).flatMap fun e =>
            a.colRows e.1).toFinset.card).sum) := by
  constructor
  · intro ha hb hrr hcc
    rw [(csAddImpl_spec a b ha hb hrr hcc).2.2.2.1, addOffsets]
    congr 1
    apply List.map_congr_left
    intro j _
    show (addColNews a b j).length = _
    rw [addColNews, newRows_length_eq_card, addFlat_rows,
      List.toFinset_append]
  · intro ha hb hcn
    rw [(csMulImpl_spec a b ha hb hcn).2.2.2.1, mulOffsets]
    congr 1
    apply List.map_congr_left
    intro j _
    show (mulColNews a b j).length = _
    rw [mulColNews, newRows_length_eq_card, mulFlat_rows_eq]

/-- C5 witness: the theorem instantiated at the spec §8 matrices
(addition: disjoint per-column patterns give count 4; multiplication:
count 2). -/
theorem claim_C5_nvalues_witness :
    (csAddImpl (⟨2, 2, [0, 1], [0, 1], [(1 : ℤ), 2]⟩ : CsMatrix ℤ)
        ⟨2, 2, [0, 1], [1, 0], [4, 3]⟩).nvalues =
      ((List.range 2).map fun j =>
        (((⟨2, 2, [0, 1], [0, 1], [(1 : ℤ), 2]⟩ : CsMatrix ℤ).colRows
            j).toFinset ∪
          ((⟨2, 2, [0, 1], [1, 0], [4, 3]⟩ : CsMatrix ℤ).colRows
            j).toFinset).card).sum ∧
    (csMulImpl (⟨2, 2, [0, 1], [0, 1], [(1 : ℤ), 2]⟩ : CsMatrix ℤ)
        ⟨2, 2, [0, 1], [1, 0], [4, 3]⟩).nvalues =
      ((List.range 2).map fun j =>
        (((⟨2, 2, [0, 1], [1, 0], [4, 3]⟩ : CsMatrix ℤ).columnEntries
            j).flatMap fun e =>
          (⟨2, 2, [0, 1], [0, 1], [(1 : ℤ), 2]⟩ : CsMatrix ℤ).colRows
            e.1).toFinset.card).sum :=
  ⟨(claim_C5_nvalues _ _).1 (by decide) (by decide) rfl rfl,
   (claim_C5_nvalues _ _).2 (by decide) (by decide) rfl⟩

/-- C5 counterexample: with `A = [[1]]` and `B = [[-1]]` stored
sparsely, the sum cancels — the returned matrix stores one (zero)
entry, while the dense ground-truth result has no nonzero entry, so
the output's nonzero count is not the dense nonzero count. -/
theorem claim_C5_nvalues_cex :
    (⟨1, 1, [0], [0], [(1 : ℤ)]⟩ : CsMatrix ℤ).WF ∧
    (⟨1, 1, [0], [0], [(-1 : ℤ)]⟩ : CsMatrix ℤ).WF ∧
    CsMatrix.add (⟨1, 1, [0], [0], [(1 : ℤ)]⟩ : CsMatrix ℤ)
        ⟨1, 1, [0], [0], [(-1 : ℤ)]⟩ =
      some (csAddImpl (⟨1, 1, [0], [0], [(1 : ℤ)]⟩ : CsMatrix ℤ)
        ⟨1, 1, [0], [0], [(-1 : ℤ)]⟩) ∧
    (csAddImpl (⟨1, 1, [0], [0], [(1 : ℤ)]⟩ : CsMatrix ℤ)
        ⟨1, 1, [0], [0], [(-1 : ℤ)]⟩).nvalues = 1 ∧
    denseNnz (denseAdd (toDense (⟨1, 1, [0], [0], [(1 : ℤ)]⟩ : CsMatrix ℤ))
      (toDense (⟨1, 1, [0], [0], [(-1 : ℤ)]⟩ : CsMatrix ℤ))) = 0 := by
  refine ⟨by decide, by decide, rfl, by decide, by decide⟩

theorem scatter_rows_eq {N : Type} [Zero N] [Add N] [Mul N] (m : CsMatrix N)
    (j : Nat) (beta : N) :
    ((m.columnEntries j).map fun e => (e.1, beta * e.2)).map Prod.fst =
      m.colRows j := by
  rw [List.map_map]
  rfl

/-- C10: within one epoch `scatter` appends any given row at most once
(the appended segment is exactly the duplicate-free list of first-touch
rows), so a column contributes at most `ts.length` (the workspace row
count) new entries; consequently in `Mul::mul` the per-column resize of
the output buffers to `nz + nrows` keeps the cursor within the buffer
lengths after every column. -/
theorem claim_C10_scatter_bounds {N : Type} [CommRing N] :
    (∀ (m : CsMatrix N) (j : Nat) (beta : N) (stamp : Nat) (s : KState N),
      s.ws.length = s.ts.length →
      (∀ r ∈ m.colRows j, r < s.ts.length) →
      (∀ r, r < s.ts.length → s.ts.getD r 0 < stamp) →
      (m.scatter j beta stamp s).resI =
        writeSeq s.resI s.nz (newRows [] (m.colRows j)) ∧
      (newRows [] (m.colRows j)).Nodup ∧
      (m.scatter j beta stamp s).nz =
        s.nz + (newRows [] (m.colRows j)).length ∧
      (newRows [] (m.colRows j)).length ≤ s.ts.length) ∧
    (∀ (a b : CsMatrix N), a.Inv → b.Inv → a.ncols = b.nrows →
      (∀ j, j < b.ncols → (mulColNews a b j).length ≤ a.nrows) ∧
      ∀ k, k ≤ b.ncols →
        (mulLoopState a b k).nz ≤ (mulLoopState a b k).resI.length ∧
        (mulLoopState a b k).resI.length =
          (mulLoopState a b k).resV.length) := by
  constructor
  · intro m j beta stamp s hlen hrows hts
    have hrows2 : ∀ e ∈ (m.columnEntries j).map fun e => (e.1, beta * e.2),
        e.1 < s.ts.length := by
      intro e he
      obtain ⟨e2, he2, hee⟩ := List.mem_map.mp he
      have : e.1 = e2.1 := by rw [← hee]
      rw [this]
      exact hrows e2.1 (List.mem_map_of_mem _ he2)
    have hseen : ∀ r, r < s.ts.length →
        ((r ∈ ([] : List Nat)) ↔ ¬ s.ts.getD r 0 < stamp) := by
      intro r hr
      constructor
      · intro h
        exact absurd h (List.not_mem_nil r)
      · intro hneg
        exact absurd (hts r hr) hneg
    obtain ⟨c1, c2, c3, c4, c5, c6, c7, c8⟩ :=
      scatterFlat_spec ((m.columnEntries j).map fun e => (e.1, beta * e.2))
        stamp s [] hlen hrows2 hseen
    rw [scatter_rows_eq] at c3 c6
    refine ⟨c3, newRows_nodup _ _, c6, ?_⟩
    apply nodup_bounded_length_le _ _ (newRows_nodup _ _)
    intro r hr
    obtain ⟨hmem, -⟩ := (mem_newRows _ _ r).mp hr
    exact hrows r hmem
  · intro a b ha hb hcn
    refine ⟨fun j hj => mulColNews_length_le a b ha hb hcn j hj, ?_⟩
    intro k hk
    obtain ⟨-, -, -, -, i5, i6, -, -, -, -⟩ := mulLoop_inv a b ha hb hcn k hk
    exact ⟨i6, i5⟩

/-- C10 witness: the scatter part at a concrete state and the bound
part at the spec §8 multiplication, fully instantiated. -/
theorem claim_C10_scatter_bounds_witness :
    ((⟨2, 2, [0, 1], [0, 1], [(1 : ℤ), 2]⟩ : CsMatrix ℤ).scatter 0 1 1
        ⟨[0, 0], [0, 0], 0, [0, 0, 0, 0], [0, 0, 0, 0], [0, 0]⟩).resI =
      writeSeq [0, 0, 0, 0] 0
        (newRows []
          ((⟨2, 2, [0, 1], [0, 1], [(1 : ℤ), 2]⟩ : CsMatrix ℤ).colRows 0)) ∧
    (newRows []
      ((⟨2, 2, [0, 1], [0, 1], [(1 : ℤ), 2]⟩ : CsMatrix ℤ).colRows 0)).Nodup ∧
    ((⟨2, 2, [0, 1], [0, 1], [(1 : ℤ), 2]⟩ : CsMatrix ℤ).scatter 0 1 1
        ⟨[0, 0], [0, 0], 0, [0, 0, 0, 0], [0, 0, 0, 0], [0, 0]⟩).nz =
      0 + (newRows []
        ((⟨2, 2, [0, 1], [0, 1], [(1 : ℤ), 2]⟩ : CsMatrix ℤ).colRows 0)).length ∧
    (newRows []
      ((⟨2, 2, [0, 1], [0, 1], [(1 : ℤ), 2]⟩ : CsMatrix ℤ).colRows 0)).length ≤
      ([0, 0] : List Nat).length ∧
    ((∀ j, j < 2 →
      (mulColNews (⟨2, 2, [0, 1], [0, 1], [(1 : ℤ), 2]⟩ : CsMatrix ℤ)
        ⟨2, 2, [0, 1], [1, 0], [4, 3]⟩ j).length ≤ 2) ∧
      ∀ k, k ≤ 2 →
        (mulLoopState (⟨2, 2, [0, 1], [0, 1], [(1 : ℤ), 2]⟩ : CsMatrix ℤ)
          ⟨2, 2, [0, 1], [1, 0], [4, 3]⟩ k).nz ≤
          (mulLoopState (⟨2, 2, [0, 1], [0, 1], [(1 : ℤ), 2]⟩ : CsMatrix ℤ)
            ⟨2, 2, [0, 1], [1, 0], [4, 3]⟩ k).resI.length ∧
        (mulLoopState (⟨2, 2, [0, 1], [0, 1], [(1 : ℤ), 2]⟩ : CsMatrix ℤ)
          ⟨2, 2, [0, 1], [1, 0], [4, 3]⟩ k).resI.length =
          (mulLoopState (⟨2, 2, [0, 1], [0, 1], [(1 : ℤ), 2]⟩ : CsMatrix ℤ)
            ⟨2, 2, [0, 1], [1, 0], [4, 3]⟩ k).resV.length) := by
  have h1 := (@claim_C10_scatter_bounds ℤ _).1
    (⟨2, 2, [0, 1], [0, 1], [(1 : ℤ), 2]⟩ : CsMatrix ℤ) 0 1 1
    ⟨[0, 0], [0, 0], 0, [0, 0, 0, 0], [0, 0, 0, 0], [0, 0]⟩
    (by decide) (by decide) (by decide)
  have h2 := (@claim_C10_scatter_bounds ℤ _).2
    (⟨2, 2, [0, 1], [0, 1], [(1 : ℤ), 2]⟩ : CsMatrix ℤ)
    ⟨2, 2, [0, 1], [1, 0], [4, 3]⟩ (by decide) (by decide) rfl
  exact ⟨h1.1, h1.2.1, h1.2.2.1, h1.2.2.2, h2⟩

/-! ## `From<Matrix> for CsMatrix` characterization (C3) -/

theorem denseCount_eq {N : Type} [Zero N] [DecidableEq N] (M : DMatrix N) :
    denseCount M =
      ((List.range M.ncols).map fun j => (colNonzeroRows M j).length).sum := by
  rw [denseCount, List.length_flatMap]
  rfl

theorem dOffsets_succ {N : Type} [Zero N] [DecidableEq N] (M : DMatrix N)
    (k : Nat) :
    dOffsets M (k + 1) = dOffsets M k + (colNonzeroRows M k).length := by
  rw [dOffsets, dOffsets, List.range_succ, List.map_append, List.sum_append]
  simp

theorem dOffsets_le_count {N : Type} [Zero N] [DecidableEq N] (M : DMatrix N)
    (k : Nat) (hk : k ≤ M.ncols) : dOffsets M k ≤ denseCount M := by
  rw [denseCount_eq, dOffsets]
  exact sum_range_map_le _ k M.ncols hk

theorem fromDenseCells_spec {N : Type} [Zero N] [DecidableEq N]
    (M : DMatrix N) (j : Nat) :
    ∀ (is : List Nat) (st : BuildState N),
      (is.foldl (fromDenseCell M j) st).nz =
        st.nz + (is.filter fun i => decide (M.entry i j ≠ 0)).length ∧
      (is.foldl (fromDenseCell M j) st).p = st.p ∧
      (is.foldl (fromDenseCell M j) st).ib =
        writeSeq st.ib st.nz (is.filter fun i => decide (M.entry i j ≠ 0)) ∧
      (is.foldl (fromDenseCell M j) st).vb =
        writeSeq st.vb st.nz
          ((is.filter fun i => decide (M.entry i j ≠ 0)).map
            fun i => M.entry i j) := by
  intro is
  induction is with
  | nil =>
    intro st
    exact ⟨rfl, rfl, rfl, rfl⟩
  | cons i rest ih =>
    intro st
    rw [List.foldl_cons]
    by_cases hz : M.entry i j = 0
    · have hcell : fromDenseCell M j st i = st := by
        rw [fromDenseCell, if_pos hz]
      have hfil : (i :: rest).filter (fun i => decide (M.entry i j ≠ 0)) =
          rest.filter fun i => decide (M.entry i j ≠ 0) := by
        rw [List.filter_cons]
        simp [hz]
      rw [hcell, hfil]
      exact ih st
    · have hcell : fromDenseCell M j st i =
          { st with
            nz := st.nz + 1
            ib := st.ib.set st.nz i
            vb := st.vb.set st.nz (M.entry i j) } := by
        rw [fromDenseCell, if_neg hz]
      have hfil : (i :: rest).filter (fun i => decide (M.entry i j ≠ 0)) =
          i :: rest.filter fun i => decide (M.entry i j ≠ 0) := by
        rw [List.filter_cons]
        simp [hz]
      rw [hcell, hfil]
      obtain ⟨k1, k2, k3, k4⟩ := ih { st with
        nz := st.nz + 1
        ib := st.ib.set st.nz i
        vb := st.vb.set st.nz (M.entry i j) }
      refine ⟨?_, k2, ?_, ?_⟩
      · rw [k1]
        simp
        omega
      · rw [k3, writeSeq]
      · rw [k4, List.map_cons, writeSeq]

theorem fromDenseLoopState_succ {N : Type} [Zero N] [DecidableEq N]
    (M : DMatrix N) (k : Nat) :
    fromDenseLoopState M (k + 1) =
      fromDenseCol M (fromDenseLoopState M k) k := by
  rw [fromDenseLoopState, fromDenseLoopState, List.range_succ,
    List.foldl_append]
  rfl

/-- The invariant of the dense→sparse column loop. -/
theorem fromDenseLoop_inv {N : Type} [Zero N] [DecidableEq N] (M : DMatrix N) :
    ∀ k, k ≤ M.ncols →
      (fromDenseLoopState M k).nz = dOffsets M k ∧
      (fromDenseLoopState M k).p.length = M.ncols ∧
      (∀ j, j < k → (fromDenseLoopState M k).p.getD j 0 = dOffsets M j) ∧
      (fromDenseLoopState M k).ib.length = denseCount M ∧
      (fromDenseLoopState M k).vb.length = denseCount M ∧
      (fromDenseLoopState M k).ib.take (fromDenseLoopState M k).nz =
        (List.range k).flatMap (colNonzeroRows M) ∧
      (fromDenseLoopState M k).vb.take (fromDenseLoopState M k).nz =
        (List.range k).flatMap fun j =>
          (colNonzeroRows M j).map fun i => M.entry i j := by
  intro k
  induction k with
  | zero =>
    intro _
    refine ⟨by simp [fromDenseLoopState, dOffsets],
      by simp [fromDenseLoopState],
      fun j hj => absurd hj (Nat.not_lt_zero j),
      by simp [fromDenseLoopState], by simp [fromDenseLoopState],
      by simp [fromDenseLoopState], by simp [fromDenseLoopState]⟩
  | succ k ih =>
    intro hk
    have hklt : k < M.ncols := hk
    obtain ⟨i1, i2, i3, i4, i5, i6, i7⟩ := ih (Nat.le_of_succ_le hk)
    set st := fromDenseLoopState M k with hst
    set st1 : BuildState N := { st with p := st.p.set k st.nz } with hst1
    have e1 : fromDenseLoopState M (k + 1) =
        (List.range M.nrows).foldl (fromDenseCell M k) st1 := by
      rw [fromDenseLoopState_succ, fromDenseCol]
    obtain ⟨k1, k2, k3, k4⟩ :=
      fromDenseCells_spec M k (List.range M.nrows) st1
    have hcap : dOffsets M k + (colNonzeroRows M k).length ≤ denseCount M := by
      have := dOffsets_le_count M (k + 1) hk
      rw [dOffsets_succ] at this
      exact this
    have hnb1 : st1.nz = dOffsets M k := i1
    have hib1 : st1.ib = st.ib := rfl
    have hvb1 : st1.vb = st.vb := rfl
    rw [e1]
    refine ⟨?_, ?_, ?_, ?_, ?_, ?_, ?_⟩
    · rw [k1, hnb1, dOffsets_succ]
      rfl
    · rw [k2]
      show (st.p.set k st.nz).length = M.ncols
      rw [List.length_set, i2]
    · intro j hj
      rw [k2]
      show (st.p.set k st.nz).getD j 0 = dOffsets M j
      rcases Nat.lt_or_ge j k with hjk | hjk
      · rw [getD_set_ne (by omega), i3 j hjk]
      · have hje : j = k := by omega
        subst hje
        rw [getD_set_self (by rw [i2]; exact hklt), i1]
    · rw [k3, writeSeq_length, hib1, i4]
    · rw [k4, writeSeq_length, hvb1, i5]
    · rw [k3, k1]
      rw [show ((List.range M.nrows).filter fun i =>
        decide (M.entry i k ≠ 0)) = colNonzeroRows M k from rfl]
      rw [hnb1, hib1]
      rw [writeSeq_take_all _ st.ib (dOffsets M k) (by rw [i4]; exact hcap)]
      rw [← i1, i6, List.range_succ, List.flatMap_append]
      simp
    · rw [k4, k1]
      rw [show ((List.range M.nrows).filter fun i =>
        decide (M.entry i k ≠ 0)) = colNonzeroRows M k from rfl]
      rw [hnb1, hvb1]
      have hlen2 : ((colNonzeroRows M k).map fun i => M.entry i k).length =
          (colNonzeroRows M k).length := by rw [List.length_map]
      rw [show dOffsets M k + (colNonzeroRows M k).length =
        dOffsets M k + ((colNonzeroRows M k).map fun i => M.entry i k).length
        from by rw [hlen2]]
      rw [writeSeq_take_all _ st.vb (dOffsets M k)
        (by rw [i5, hlen2]; exact hcap)]
      rw [← i1, i7, List.range_succ, List.flatMap_append]
      simp

theorem dOffsets_ncols {N : Type} [Zero N] [DecidableEq N] (M : DMatrix N) :
    dOffsets M M.ncols = denseCount M := (denseCount_eq M).symm

/-- The output of `From<Matrix> for CsMatrix`: same shape, exactly the
not-exactly-zero entries of each column in ascending row order. -/
theorem fromDense_spec {N : Type} [Zero N] [DecidableEq N] (M : DMatrix N) :
    (fromDense M).nrows = M.nrows ∧
    (fromDense M).ncols = M.ncols ∧
    (fromDense M).nvalues = denseCount M ∧
    (fromDense M).i.length = denseCount M ∧
    (fromDense M).p.length = M.ncols ∧
    (∀ j, j < M.ncols →
      (fromDense M).colStart j = dOffsets M j ∧
      (fromDense M).colEnd j = dOffsets M (j + 1)) ∧
    (∀ j, j < M.ncols → (fromDense M).columnEntries j =
      (colNonzeroRows M j).map fun i => (i, M.entry i j)) := by
  obtain ⟨i1, i2, i3, i4, i5, i6, i7⟩ :=
    fromDenseLoop_inv M M.ncols (Nat.le_refl _)
  set F := fromDenseLoopState M M.ncols with hF
  have hm : fromDense M = ⟨M.nrows, M.ncols, F.p, F.ib, F.vb⟩ := rfl
  have hnzc : F.nz = denseCount M := by rw [i1, dOffsets_ncols]
  have hib : F.ib = (List.range M.ncols).flatMap (colNonzeroRows M) := by
    rw [← i6, hnzc, ← i4, List.take_length]
  have hvb : F.vb = (List.range M.ncols).flatMap fun j =>
      (colNonzeroRows M j).map fun i => M.entry i j := by
    rw [← i7, hnzc, ← i5, List.take_length]
  have hnval : (fromDense M).nvalues = denseCount M := by
    rw [hm, CsMatrix.nvalues]
    exact i5
  have hcolb : ∀ j, j < M.ncols →
      (fromDense M).colStart j = dOffsets M j ∧
      (fromDense M).colEnd j = dOffsets M (j + 1) := by
    intro j hj
    constructor
    · rw [hm, CsMatrix.colStart]
      exact i3 j hj
    · rw [CsMatrix.colEnd]
      by_cases hje : j + 1 = (fromDense M).p.length
      · rw [if_pos hje, hnval]
        rw [hm] at hje
        have hj1 : j + 1 = M.ncols := by rw [hje]; exact i2
        rw [hj1, dOffsets_ncols]
      · rw [if_neg hje, hm]
        have hjlt : j + 1 < M.ncols := by
          rcases Nat.lt_or_ge (j + 1) M.ncols with h | h
          · exact h
          · exfalso
            apply hje
            rw [hm]
            show j + 1 = F.p.length
            rw [i2]
            omega
        exact i3 (j + 1) hjlt
  refine ⟨rfl, rfl, hnval, by rw [hm]; exact i4, by rw [hm]; exact i2,
    hcolb, ?_⟩
  intro j hj
  obtain ⟨hstart, hend⟩ := hcolb j hj
  have hlen : dOffsets M (j + 1) - dOffsets M j =
      (colNonzeroRows M j).length := by
    rw [dOffsets_succ]
    omega
  have higet : ∀ t, t < (colNonzeroRows M j).length →
      (fromDense M).rowIndex (dOffsets M j + t) =
        (colNonzeroRows M j).getD t 0 := by
    intro t ht
    rw [hm, CsMatrix.rowIndex]
    show F.ib.getD (dOffsets M j + t) 0 = _
    rw [hib]
    exact flatMap_range_getD (colNonzeroRows M) 0 M.ncols j t hj ht
  have hvget : ∀ t, t < (colNonzeroRows M j).length →
      (fromDense M).getValue (dOffsets M j + t) =
        M.entry ((colNonzeroRows M j).getD t 0) j := by
    intro t ht
    rw [hm, CsMatrix.getValue]
    show F.vb.getD (dOffsets M j + t) 0 = _
    rw [hvb]
    have hoff : ((List.range j).map fun x =>
        ((colNonzeroRows M x).map fun i => M.entry i x).length).sum =
        dOffsets M j := by
      rw [dOffsets]
      congr 1
      apply List.map_congr_left
      intro x _
      rw [List.length_map]
    have h6 := flatMap_range_getD
      (fun x => (colNonzeroRows M x).map fun i => M.entry i x) 0
      M.ncols j t hj (by rw [List.length_map]; exact ht)
    rw [hoff] at h6
    rw [h6]
    have key : ((colNonzeroRows M j).map fun i => M.entry i j).getD t 0 =
        M.entry ((colNonzeroRows M j)[t]) j := by
      rw [List.getD_eq_getElem?_getD,
        List.getElem?_eq_getElem (by rw [List.length_map]; exact ht)]
      simp
    rw [key]
    congr 1
    rw [List.getD_eq_getElem?_getD, List.getElem?_eq_getElem ht]
    rfl
  apply List.ext_getElem
  · rw [List.length_map, length_columnEntries, hstart, hend, hlen]
  · intro t h1 h2
    have ht : t < (colNonzeroRows M j).length := by simpa using h2
    have hidx : (fromDense M).colIdx j =
        List.range' (dOffsets M j) ((colNonzeroRows M j).length) := by
      rw [CsMatrix.colIdx, hstart, hend, hlen]
    have h1' : t < ((fromDense M).colIdx j).length := by
      have := h1
      rw [CsMatrix.columnEntries, List.length_map] at this
      exact this
    have hkt : ((fromDense M).colIdx j)[t] = dOffsets M j + t := by
      rw [List.getElem_of_eq hidx h1', List.getElem_range']
      omega
    have hrt : (colNonzeroRows M j)[t] = (colNonzeroRows M j).getD t 0 := by
      rw [List.getD_eq_getElem?_getD, List.getElem?_eq_getElem ht]
      rfl
    have higet2 : (fromDense M).rowIndex (dOffsets M j + t) =
        (colNonzeroRows M j)[t] := by
      rw [higet t ht, ← hrt]
    have hvget2 : (fromDense M).getValue (dOffsets M j + t) =
        M.entry ((colNonzeroRows M j)[t]) j := by
      rw [hvget t ht, ← hrt]
    have hce : (fromDense M).columnEntries j =
        ((fromDense M).colIdx j).map
          (fun k => ((fromDense M).rowIndex k, (fromDense M).getValue k)) :=
      rfl
    have hlhs : ((fromDense M).columnEntries j)[t] =
        ((fromDense M).rowIndex (dOffsets M j + t),
         (fromDense M).getValue (dOffsets M j + t)) := by
      rw [List.getElem_of_eq hce h1, List.getElem_map, hkt]
    rw [hlhs, List.getElem_map, higet2, hvget2]

theorem fromDense_colRows {N : Type} [Zero N] [DecidableEq N] (M : DMatrix N)
    (j : Nat) (hj : j < M.ncols) :
    (fromDense M).colRows j = colNonzeroRows M j := by
  rw [CsMatrix.colRows, (fromDense_spec M).2.2.2.2.2.2 j hj, List.map_map]
  have h : (Prod.fst ∘ fun i => (i, M.entry i j)) = fun i : Nat => i :=
    funext fun i => rfl
  rw [h]
  simp

theorem colNonzeroRows_sorted {N : Type} [Zero N] [DecidableEq N]
    (M : DMatrix N) (j : Nat) : (colNonzeroRows M j).Chain' (· < ·) := by
  rw [List.chain'_iff_pairwise]
  exact (List.pairwise_lt_range M.nrows).filter _

/-- The output of dense→sparse conversion satisfies the structural
invariants, with strictly ascending (hence duplicate-free) columns. -/
theorem fromDense_WF {N : Type} [Zero N] [DecidableEq N] (M : DMatrix N) :
    (fromDense M).Inv ∧ (fromDense M).ColsNodup ∧
    (fromDense M).SortedCols := by
  obtain ⟨s1, s2, s3, s4, s5, s6, s7⟩ := fromDense_spec M
  have hsorted : (fromDense M).SortedCols := by
    intro j hj
    rw [s2] at hj
    rw [fromDense_colRows M j hj]
    exact colNonzeroRows_sorted M j
  have hnd : (fromDense M).ColsNodup := by
    intro j hj
    rw [s2] at hj
    rw [fromDense_colRows M j hj]
    have := (List.pairwise_lt_range M.nrows).filter
      (fun i => decide (M.entry i j ≠ 0))
    exact this.nodup
  refine ⟨⟨by rw [s5, s2], by rw [s4]; exact s3.symm, ?_, ?_, ?_, ?_⟩,
    hnd, hsorted⟩
  · intro h0
    rw [s2] at h0
    rw [(s6 0 h0).1]
    rfl
  · intro h0
    rw [s2] at h0
    rw [s3, denseCount_eq, h0]
    rfl
  · intro j hj
    rw [s2] at hj
    obtain ⟨hst, hen⟩ := s6 j hj
    rw [hst, hen, s3, ← dOffsets_ncols]
    constructor
    · rw [dOffsets_succ]
      omega
    · rw [dOffsets, dOffsets]
      exact sum_range_map_le _ (j + 1) M.ncols hj
  · intro j hj r hr
    rw [s2] at hj
    rw [fromDense_colRows M j hj] at hr
    obtain ⟨hmem, -⟩ := List.mem_filter.mp hr
    rw [s1]
    exact List.mem_range.mp hmem

/-- C3: for every dense matrix, converting to sparse and back to dense
is the identity on the shape and on every in-shape entry; the sparse
intermediate stores precisely the entries that are not exactly zero, in
ascending row order per column. -/
theorem claim_C3_roundtrip {N : Type} [AddCommMonoid N] [DecidableEq N]
    (M : DMatrix N) :
    (toDense (fromDense M)).nrows = M.nrows ∧
    (toDense (fromDense M)).ncols = M.ncols ∧
    (∀ j, j < M.ncols → (fromDense M).columnEntries j =
      ((List.range M.nrows).filter fun i => decide (M.entry i j ≠ 0)).map
        fun i => (i, M.entry i j)) ∧
    ∀ i j, i < M.nrows → j < M.ncols →
      (toDense (fromDense M)).entry i j = M.entry i j := by
  obtain ⟨s1, s2, s3, s4, s5, s6, s7⟩ := fromDense_spec M
  obtain ⟨hInv, hnd, hsort⟩ := fromDense_WF M
  refine ⟨s1, s2, fun j hj => s7 j hj, ?_⟩
  intro i j hi hj
  have hjf : j < (fromDense M).ncols := by rw [s2]; exact hj
  rw [toDense_entry (fromDense M) hnd i j hjf, colSum_eq_rowSum,
    s7 j hj, rowSum_map_pair _ _ _ (by
      rw [show colNonzeroRows M j = (fromDense M).colRows j from
        (fromDense_colRows M j hj).symm]
      exact hnd j hjf)]
  by_cases hz : M.entry i j = 0
  · rw [if_neg (by
      intro hc
      obtain ⟨-, hp⟩ := List.mem_filter.mp hc
      simp at hp
      exact hp hz), hz]
  · rw [if_pos (show i ∈ colNonzeroRows M j from
      List.mem_filter.mpr ⟨List.mem_range.mpr hi, by simp [hz]⟩)]

/-- C3 witness: a concrete `2 × 3` dense matrix over `ℤ` with a zero
diagonal. -/
theorem claim_C3_roundtrip_witness :
    (toDense (fromDense ⟨2, 3, fun i j =>
      if i = j then 0 else (i + 2 * j : ℤ)⟩)).nrows = 2 ∧
    (toDense (fromDense (⟨2, 3, fun i j =>
      if i = j then 0 else (i + 2 * j : ℤ)⟩ : DMatrix ℤ))).ncols = 3 ∧
    (∀ j, j < 3 →
      (fromDense (⟨2, 3, fun i j =>
        if i = j then 0 else (i + 2 * j : ℤ)⟩ : DMatrix ℤ)).columnEntries j =
      ((List.range 2).filter fun i =>
        decide ((if i = j then 0 else (i + 2 * j : ℤ)) ≠ 0)).map
        fun i => (i, if i = j then 0 else (i + 2 * j : ℤ))) ∧
    ∀ i j, i < 2 → j < 3 →
      (toDense (fromDense (⟨2, 3, fun i j =>
        if i = j then 0 else (i + 2 * j : ℤ)⟩ : DMatrix ℤ))).entry i j =
      (if i = j then 0 else (i + 2 * j : ℤ)) :=
  claim_C3_roundtrip ⟨2, 3, fun i j => if i = j then 0 else (i + 2 * j : ℤ)⟩

/-! ## `axpy_cs` (C8) -/

theorem foldl_range_getD {α β : Type} (d : α) (g : β → α → β) :
    ∀ (L : List α) (acc : β),
      (List.range L.length).foldl (fun acc k => g acc (L.getD k d)) acc =
        L.foldl g acc := by
  intro L
  induction L with
  | nil => intro acc; rfl
  | cons e rest ih =>
    intro acc
    rw [show (e :: rest).length = rest.length + 1 from rfl,
      List.range_succ_eq_map, List.foldl_cons, List.foldl_map,
      List.foldl_cons]
    have hbody : (fun (acc : β) (k : Nat) =>
        g acc ((e :: rest).getD (k + 1) d)) =
        fun acc k => g acc (rest.getD k d) := by
      funext acc k
      rfl
    rw [hbody, ih]
    rfl

theorem zip_getD_eq {N : Type} [Zero N] (x : CsMatrix N)
    (hlen : x.i.length = x.vals.length) (k : Nat) :
    (x.i.zip x.vals).getD k (0, 0) = (x.rowIndex k, x.getValue k) := by
  rcases Nat.lt_or_ge k x.vals.length with hk | hk
  · have hkz : k < (x.i.zip x.vals).length := by
      rw [List.length_zip]
      omega
    rw [List.getD_eq_getElem?_getD, List.getElem?_eq_getElem hkz]
    have hki : k < x.i.length := by omega
    have hzip : (x.i.zip x.vals)[k] = (x.i[k], x.vals[k]) := List.getElem_zip
    rw [Option.getD_some, hzip]
    have h1 : x.i[k] = x.rowIndex k := by
      rw [CsMatrix.rowIndex, List.getD_eq_getElem?_getD,
        List.getElem?_eq_getElem (by omega)]
      rfl
    have h2 : x.vals[k] = x.getValue k := by
      rw [CsMatrix.getValue, List.getD_eq_getElem?_getD,
        List.getElem?_eq_getElem hk]
      rfl
    rw [h1, h2]
  · have hkz : (x.i.zip x.vals).length ≤ k := by
      rw [List.length_zip]
      omega
    rw [List.getD_eq_getElem?_getD, List.getElem?_eq_none (by omega)]
    have h1 : x.rowIndex k = 0 := by
      rw [CsMatrix.rowIndex, List.getD_eq_getElem?_getD,
        List.getElem?_eq_none (by omega)]
      rfl
    have h2 : x.getValue k = 0 := by
      rw [CsMatrix.getValue, List.getD_eq_getElem?_getD,
        List.getElem?_eq_none (by omega)]
      rfl
    rw [h1, h2]
    rfl

theorem axpy_fold0_spec {N : Type} [CommRing N] (alpha : N) :
    ∀ (pairs : List (Nat × N)) (y : List N), (pairs.map Prod.fst).Nodup →
      (∀ e ∈ pairs, e.1 < y.length) → ∀ r, r < y.length →
      (pairs.foldl (fun y e => y.set e.1 (alpha * e.2)) y).getD r 0 =
        if r ∈ pairs.map Prod.fst then alpha * rowSum pairs r
        else y.getD r 0 := by
  intro pairs
  induction pairs with
  | nil =>
    intro y _ _ r hr
    simp [rowSum]
  | cons e rest ih =>
    obtain ⟨r0, v0⟩ := e
    intro y hnd hbound r hr
    have hmc : ((r0, v0) :: rest).map Prod.fst = r0 :: rest.map Prod.fst := rfl
    rw [hmc] at hnd ⊢
    have hnd' := List.nodup_cons.mp hnd
    rw [List.foldl_cons]
    have hbound' : ∀ e ∈ rest, e.1 < (y.set r0 (alpha * v0)).length := by
      intro e he
      rw [List.length_set]
      exact hbound e (List.mem_cons_of_mem _ he)
    have hr' : r < (y.set r0 (alpha * v0)).length := by
      rw [List.length_set]
      exact hr
    rw [ih (y.set r0 (alpha * v0)) hnd'.2 hbound' r hr']
    by_cases hrr : r = r0
    · subst hrr
      rw [if_neg hnd'.1, if_pos (List.mem_cons_self _ _),
        getD_set_self hr, rowSum_cons_self,
        rowSum_of_not_mem _ _ hnd'.1, add_zero]
    · have hset : (y.set r0 (alpha * v0)).getD r 0 = y.getD r 0 :=
        getD_set_ne (fun hc => hrr hc.symm) _ _
      have hrs : rowSum ((r0, v0) :: rest) r = rowSum rest r :=
        rowSum_cons_ne _ _ _ _ (fun hc => hrr hc.symm)
      by_cases hmem : r ∈ rest.map Prod.fst
      · rw [if_pos hmem, if_pos (List.mem_cons_of_mem _ hmem), hrs]
      · rw [if_neg hmem, if_neg (fun hc => by
          rcases List.mem_cons.mp hc with hc | hc
          exacts [hrr hc, hmem hc]), hset]

theorem axpy_fold1_spec {N : Type} [CommRing N] (alpha : N) :
    ∀ (pairs : List (Nat × N)) (y : List N), (pairs.map Prod.fst).Nodup →
      (∀ e ∈ pairs, e.1 < y.length) → ∀ r, r < y.length →
      (pairs.foldl (fun y e =>
        y.set e.1 (y.getD e.1 0 + alpha * e.2)) y).getD r 0 =
        if r ∈ pairs.map Prod.fst then y.getD r 0 + alpha * rowSum pairs r
        else y.getD r 0 := by
  intro pairs
  induction pairs with
  | nil =>
    intro y _ _ r hr
    simp [rowSum]
  | cons e rest ih =>
    obtain ⟨r0, v0⟩ := e
    intro y hnd hbound r hr
    have hmc : ((r0, v0) :: rest).map Prod.fst = r0 :: rest.map Prod.fst := rfl
    rw [hmc] at hnd ⊢
    have hnd' := List.nodup_cons.mp hnd
    rw [List.foldl_cons]
    set y1 := y.set r0 (y.getD r0 0 + alpha * v0) with hy1
    have hbound' : ∀ e ∈ rest, e.1 < y1.length := by
      intro e he
      rw [hy1, List.length_set]
      exact hbound e (List.mem_cons_of_mem _ he)
    have hr' : r < y1.length := by
      rw [hy1, List.length_set]
      exact hr
    rw [ih y1 hnd'.2 hbound' r hr']
    by_cases hrr : r = r0
    · subst hrr
      rw [if_neg hnd'.1, if_pos (List.mem_cons_self _ _), hy1,
        getD_set_self hr, rowSum_cons_self,
        rowSum_of_not_mem _ _ hnd'.1, add_zero]
    · have hset : y1.getD r 0 = y.getD r 0 := by
        rw [hy1]
        exact getD_set_ne (fun hc => hrr hc.symm) _ _
      have hrs : rowSum ((r0, v0) :: rest) r = rowSum rest r :=
        rowSum_cons_ne _ _ _ _ (fun hc => hrr hc.symm)
      by_cases hmem : r ∈ rest.map Prod.fst
      · rw [if_pos hmem, if_pos (List.mem_cons_of_mem _ hmem), hrs, hset]
      · rw [if_neg hmem, if_neg (fun hc => by
          rcases List.mem_cons.mp hc with hc | hc
          exacts [hrr hc, hmem hc]), hset]

theorem map_mul_getD {N : Type} [CommRing N] (y : List N) (beta : N)
    (r : Nat) (hr : r < y.length) :
    (y.map fun v => v * beta).getD r 0 = y.getD r 0 * beta := by
  rw [List.getD_eq_getElem?_getD,
    List.getElem?_eq_getElem (by rw [List.length_map]; exact hr),
    List.getElem_map, Option.getD_some, List.getD_eq_getElem?_getD,
    List.getElem?_eq_getElem hr]
  rfl

theorem zip_fst_sub {N : Type} (x : CsMatrix N) :
    ∀ r ∈ (x.i.zip x.vals).map Prod.fst, r ∈ x.i := by
  intro r hrm
  obtain ⟨e, he, hee⟩ := List.mem_map.mp hrm
  obtain ⟨a, b⟩ := e
  rw [← hee]
  exact (List.of_mem_zip he).1

/-- C8: the dense-vector accumulate `y = alpha * x + beta * y` with a
sparse `x` (duplicate-free rows within the vector's length): with
`beta == 0` exactly the rows present in `x` are overwritten with
`alpha * x[row]` and all other rows keep their prior value; with
`beta != 0` every row is first scaled by `beta` and then `alpha * x[row]`
is added at each row present in `x`. -/
theorem claim_C8_axpy_cs {N : Type} [CommRing N] [DecidableEq N]
    (y : List N) (alpha beta : N) (x : CsMatrix N)
    (hlen : x.i.length = x.vals.length) (hnd : x.i.Nodup)
    (hbound : ∀ r ∈ x.i, r < y.length) :
    (beta = 0 → ∀ r, r < y.length →
      (axpy_cs y alpha x beta).getD r 0 =
        if r ∈ x.i then alpha * rowSum (x.i.zip x.vals) r
        else y.getD r 0) ∧
    (beta ≠ 0 → ∀ r, r < y.length →
      (axpy_cs y alpha x beta).getD r 0 =
        if r ∈ x.i then y.getD r 0 * beta + alpha * rowSum (x.i.zip x.vals) r
        else y.getD r 0 * beta) := by
  have hzl : (x.i.zip x.vals).length = x.nvalues := by
    rw [List.length_zip, CsMatrix.nvalues, hlen]
    omega
  have hkeys : (x.i.zip x.vals).map Prod.fst = x.i :=
    List.map_fst_zip _ _ (le_of_eq hlen)
  have hndz : ((x.i.zip x.vals).map Prod.fst).Nodup := by
    rw [hkeys]
    exact hnd
  constructor
  · intro hb r hr
    subst hb
    have hfold : axpy_cs y alpha x 0 =
        (x.i.zip x.vals).foldl (fun y e => y.set e.1 (alpha * e.2)) y := by
      rw [show axpy_cs y alpha x 0 = (List.range x.nvalues).foldl
        (fun y k => y.set (x.rowIndex k) (alpha * x.getValue k)) y from by
          rw [axpy_cs, if_pos rfl]]
      rw [← hzl]
      rw [show (fun (y : List N) (k : Nat) =>
        y.set (x.rowIndex k) (alpha * x.getValue k)) =
        fun y k => y.set ((x.i.zip x.vals).getD k (0, 0)).1
          (alpha * ((x.i.zip x.vals).getD k (0, 0)).2) from
        funext fun y => funext fun k => by rw [zip_getD_eq x hlen k]]
      exact foldl_range_getD (0, 0) (fun y e => y.set e.1 (alpha * e.2))
        (x.i.zip x.vals) y
    rw [hfold, axpy_fold0_spec alpha (x.i.zip x.vals) y hndz
      (fun e he => hbound e.1 (by
        rw [← hkeys]
        exact List.mem_map_of_mem _ he)) r hr, hkeys]
  · intro hb r hr
    have hfold : axpy_cs y alpha x beta =
        (x.i.zip x.vals).foldl
          (fun y e => y.set e.1 (y.getD e.1 0 + alpha * e.2))
          (y.map fun v => v * beta) := by
      rw [show axpy_cs y alpha x beta = (List.range x.nvalues).foldl
        (fun y2 k => y2.set (x.rowIndex k)
          (y2.getD (x.rowIndex k) 0 + alpha * x.getValue k))
        (y.map fun v => v * beta) from by
          rw [axpy_cs, if_neg hb]]
      rw [← hzl]
      rw [show (fun (y2 : List N) (k : Nat) =>
        y2.set (x.rowIndex k) (y2.getD (x.rowIndex k) 0 + alpha * x.getValue k)) =
        fun y2 k => y2.set ((x.i.zip x.vals).getD k (0, 0)).1
          (y2.getD ((x.i.zip x.vals).getD k (0, 0)).1 0 +
            alpha * ((x.i.zip x.vals).getD k (0, 0)).2) from
        funext fun y2 => funext fun k => by rw [zip_getD_eq x hlen k]]
      exact foldl_range_getD (0, 0)
        (fun y2 e => y2.set e.1 (y2.getD e.1 0 + alpha * e.2))
        (x.i.zip x.vals) (y.map fun v => v * beta)
    have hrm : r < (y.map fun v => v * beta).length := by
      rw [List.length_map]
      exact hr
    rw [hfold, axpy_fold1_spec alpha (x.i.zip x.vals)
      (y.map fun v => v * beta) hndz
      (fun e he => by
        rw [List.length_map]
        exact hbound e.1 (by
          rw [← hkeys]
          exact List.mem_map_of_mem _ he)) r hrm, hkeys,
      map_mul_getD y beta r hr]

/-- C8 witness: `y = [1, 2, 3, 4]`, `x` the sparse vector with rows
`1, 3` and values `10, 20`, `alpha = 2`, for both `beta = 0` and
`beta = 3`, over `ℤ`. -/
theorem claim_C8_axpy_cs_witness :
    ((0 : ℤ) = 0 → ∀ r, r < ([1, 2, 3, 4] : List ℤ).length →
      (axpy_cs [1, 2, 3, 4] 2 ⟨4, 1, [0], [1, 3], [10, 20]⟩ 0).getD r 0 =
        if r ∈ [1, 3] then
          2 * rowSum (([1, 3] : List Nat).zip [(10 : ℤ), 20]) r
        else ([1, 2, 3, 4] : List ℤ).getD r 0) ∧
    ((3 : ℤ) ≠ 0 → ∀ r, r < ([1, 2, 3, 4] : List ℤ).length →
      (axpy_cs [1, 2, 3, 4] 2 ⟨4, 1, [0], [1, 3], [10, 20]⟩ 3).getD r 0 =
        if r ∈ [1, 3] then
          ([1, 2, 3, 4] : List ℤ).getD r 0 * 3 +
            2 * rowSum (([1, 3] : List Nat).zip [(10 : ℤ), 20]) r
        else ([1, 2, 3, 4] : List ℤ).getD r 0 * 3) :=
  ⟨(claim_C8_axpy_cs [1, 2, 3, 4] 2 0 ⟨4, 1, [0], [1, 3], [10, 20]⟩
      (by decide) (by decide) (by decide)).1,
   (claim_C8_axpy_cs [1, 2, 3, 4] 2 3 ⟨4, 1, [0], [1, 3], [10, 20]⟩
      (by decide) (by decide) (by decide)).2⟩

/-! ## `transpose` characterization (C4, C6) -/

theorem count_map_eq_length_filter {α : Type} (l : List α) (f : α → Nat)
    (r : Nat) :
    (l.map f).count r = (l.filter fun t => decide (f t = r)).length := by
  induction l with
  | nil => rfl
  | cons x xs ih =>
    rw [List.map_cons, List.count_cons, List.filter_cons, ih]
    by_cases hx : f x = r
    · simp [hx]
    · simp [hx]

/-- Under the structural invariants, the column index ranges tile
`0 .. nvalues` exactly. -/
theorem colIdx_flatMap {N : Type} [Zero N] (m : CsMatrix N) (hm : m.Inv) :
    (List.range m.ncols).flatMap m.colIdx = List.range m.nvalues := by
  obtain ⟨hp, -, h0, hz, hord, -⟩ := hm
  have hstep : ∀ k, k ≤ m.ncols →
      (List.range k).flatMap m.colIdx =
        List.range (if k < m.ncols then m.colStart k else m.nvalues) := by
    intro k
    induction k with
    | zero =>
      intro _
      rcases Nat.lt_or_ge 0 m.ncols with hc | hc
      · rw [if_pos hc, h0 hc]
        rfl
      · rw [if_neg (by omega), hz (by omega)]
        rfl
    | succ k ih =>
      intro hk
      have hklt : k < m.ncols := hk
      have hprev := ih (Nat.le_of_succ_le hk)
      rw [if_pos hklt] at hprev
      rw [List.range_succ, List.flatMap_append, hprev]
      have hone : ([k] : List Nat).flatMap m.colIdx = m.colIdx k := by
        simp
      rw [hone, CsMatrix.colIdx]
      have hle := (hord k hklt).1
      rw [List.range_eq_range', List.range_eq_range']
      have := List.range'_append 0 (m.colStart k)
        (m.colEnd k - m.colStart k) 1
      rw [show 0 + 1 * m.colStart k = m.colStart k by omega] at this
      rw [this]
      have harith : m.colEnd k - m.colStart k + m.colStart k = m.colEnd k := by
        omega
      rw [harith]
      congr 1
      rcases Nat.lt_or_ge (k + 1) m.ncols with hc | hc
      · rw [if_pos hc, ← colEnd_eq_colStart_succ m hp k hc]
      · have hke : k + 1 = m.ncols := by omega
        rw [if_neg (by omega), ← colEnd_last m hp k hke]
  have := hstep m.ncols (Nat.le_refl _)
  rwa [if_neg (by omega)] at this

/-- The column-major row stream of the triples is the buffer-order row
stream. -/
theorem triples_rows_eq {N : Type} [Zero N] (m : CsMatrix N) (hm : m.Inv) :
    m.triples.map (fun t => t.1) =
      (List.range m.nvalues).map m.rowIndex := by
  rw [CsMatrix.triples, List.map_flatMap, ← colIdx_flatMap m hm,
    List.map_flatMap]
  apply List.flatMap_congr
  intro j _
  rw [CsMatrix.columnEntries, List.map_map, List.map_map]
  rfl

theorem triples_length {N : Type} [Zero N] (m : CsMatrix N) (hm : m.Inv) :
    m.triples.length = m.nvalues := by
  have h := congrArg List.length (triples_rows_eq m hm)
  rw [List.length_map, List.length_map, List.length_range] at h
  exact h

theorem triple_row_lt {N : Type} [Zero N] (m : CsMatrix N) (hm : m.Inv) :
    ∀ t ∈ m.triples, t.1 < m.nrows := by
  intro t ht
  rw [CsMatrix.triples] at ht
  obtain ⟨j, hj, hmem⟩ := List.mem_flatMap.mp ht
  obtain ⟨e, he, hee⟩ := List.mem_map.mp hmem
  have hj2 := List.mem_range.mp hj
  have := hm.2.2.2.2.2 j hj2 e.1 (List.mem_map_of_mem _ he)
  rw [← hee]
  exact this

theorem triple_col_lt {N : Type} [Zero N] (m : CsMatrix N) :
    ∀ t ∈ m.triples, t.2.1 < m.ncols := by
  intro t ht
  rw [CsMatrix.triples] at ht
  obtain ⟨j, hj, hmem⟩ := List.mem_flatMap.mp ht
  obtain ⟨e, he, hee⟩ := List.mem_map.mp hmem
  have hj2 := List.mem_range.mp hj
  rw [← hee]
  exact hj2

/-- Sum of the per-row entry counts: every stored entry lands in one
bucket, so the buckets sum to the entry count. -/
theorem sum_rowCount {N : Type} [Zero N] (m : CsMatrix N) (hm : m.Inv) :
    ((List.range m.nrows).map (rowCount m)).sum = m.nvalues := by
  rw [← triples_length m hm]
  have hlt := triple_row_lt m hm
  have hgen : ∀ (l : List (Nat × Nat × N)) (n : Nat),
      (∀ t ∈ l, t.1 < n) →
      ((List.range n).map fun r => (l.map fun t => t.1).count r).sum =
        l.length := by
    intro l
    induction l with
    | nil =>
      intro n _
      simp
    | cons t0 rest ih =>
      intro n hlt2
      have h0 : t0.1 < n := hlt2 t0 (List.mem_cons_self _ _)
      have hrec := ih n (fun t ht => hlt2 t (List.mem_cons_of_mem _ ht))
      have hsplit : ∀ r, ((t0 :: rest).map fun t => t.1).count r =
          ((rest.map fun t => t.1).count r) + (if t0.1 = r then 1 else 0) := by
        intro r
        rw [List.map_cons, List.count_cons]
        by_cases h : t0.1 = r
        · simp [h]
        · simp [h]
      have hmap : ((List.range n).map fun r =>
          ((t0 :: rest).map fun t => t.1).count r) =
          (List.range n).map fun r =>
            ((rest.map fun t => t.1).count r) + (if t0.1 = r then 1 else 0) := by
        apply List.map_congr_left
        intro r _
        exact hsplit r
      rw [hmap]
      have hsum2 : ∀ l : List Nat,
          (l.map fun r => ((rest.map fun t => t.1).count r) +
            (if t0.1 = r then 1 else 0)).sum =
          (l.map fun r => (rest.map fun t => t.1).count r).sum +
          (l.map fun r => if t0.1 = r then 1 else 0).sum := by
        intro l
        induction l with
        | nil => rfl
        | cons x xs ih2 =>
          simp only [List.map_cons, List.sum_cons, ih2]
          omega
      rw [hsum2 (List.range n), hrec]
      have hind : ((List.range n).map fun r =>
          if t0.1 = r then 1 else 0).sum = 1 := by
        have hgen2 : ∀ (x nn : Nat), x < nn →
            ((List.range nn).map fun r => if x = r then 1 else 0).sum = 1 := by
          intro x nn
          induction nn with
          | zero => intro h; omega
          | succ n2 ih2 =>
            intro hx
            rw [List.range_succ]
            simp only [List.map_append, List.sum_append, List.map_cons,
              List.map_nil, List.sum_cons, List.sum_nil]
            rcases Nat.lt_or_ge x n2 with h2 | h2
            · rw [ih2 h2, if_neg (by omega)]
              simp
            · have hxe : x = n2 := by omega
              subst hxe
              rw [if_pos rfl]
              have hzero : ((List.range x).map fun r =>
                  if x = r then 1 else 0).sum = 0 := by
                apply List.sum_eq_zero
                intro v hv
                obtain ⟨r, hr, hrv⟩ := List.mem_map.mp hv
                have := List.mem_range.mp hr
                rw [← hrv, if_neg (by omega)]
              rw [hzero]
              simp
        exact hgen2 t0.1 n h0
      rw [hind]
      simp
  exact hgen m.triples m.nrows hlt

theorem tOffsets_mono {N : Type} [Zero N] (m : CsMatrix N) (r1 r2 : Nat)
    (h : r1 ≤ r2) : tOffsets m r1 ≤ tOffsets m r2 := by
  rw [tOffsets, tOffsets]
  exact sum_range_map_le _ r1 r2 h

theorem tOffsets_succ {N : Type} [Zero N] (m : CsMatrix N) (r : Nat) :
    tOffsets m (r + 1) = tOffsets m r + rowCount m r := by
  rw [tOffsets, tOffsets, List.range_succ, List.map_append, List.sum_append]
  simp

theorem tOffsets_total {N : Type} [Zero N] (m : CsMatrix N) (hm : m.Inv) :
    tOffsets m m.nrows = m.nvalues := by
  rw [tOffsets]
  exact sum_rowCount m hm

theorem getD_replicate_self {α : Type} (d : α) :
    ∀ (n r : Nat), (List.replicate n d).getD r d = d := by
  intro n
  induction n with
  | zero => intro r; cases r <;> rfl
  | succ n ih =>
    intro r
    cases r with
    | zero => rfl
    | succ r2 => exact ih r2

theorem getD_append_length {α : Type} (l : List α) (x d : α) :
    (l ++ [x]).getD l.length d = x := by
  rw [List.getD_eq_getElem?_getD, List.getElem?_append_right (Nat.le_refl _)]
  simp

/-- Under the structural invariants every value slot belongs to some
column, so its row index is a stored row index and lies below `nrows`. -/
theorem rowIndex_lt {N : Type} [Zero N] (m : CsMatrix N) (hm : m.Inv)
    (k : Nat) (hk : k < m.nvalues) : m.rowIndex k < m.nrows := by
  have hcov := colIdx_flatMap m hm
  have hkmem : k ∈ (List.range m.ncols).flatMap m.colIdx := by
    rw [hcov]; exact List.mem_range.mpr hk
  obtain ⟨j, hj, hkj⟩ := List.mem_flatMap.mp hkmem
  have hj2 := List.mem_range.mp hj
  apply hm.2.2.2.2.2 j hj2
  rw [CsMatrix.colRows, CsMatrix.columnEntries, List.map_map]
  exact List.mem_map_of_mem _ hkj

/-- The count pass over any index list buckets by row index. -/
theorem countFold_spec {N : Type} [Zero N] (m : CsMatrix N) :
    ∀ (ks : List Nat) (w : List Nat),
      (∀ k ∈ ks, m.rowIndex k < w.length) →
      ((ks.foldl (transposeCountStep m) w).length = w.length ∧
       ∀ r, (ks.foldl (transposeCountStep m) w).getD r 0 =
         w.getD r 0 + (ks.map m.rowIndex).count r) := by
  intro ks
  induction ks with
  | nil =>
    intro w _
    exact ⟨rfl, fun r => by simp⟩
  | cons k rest ih =>
    intro w hb
    have hk : m.rowIndex k < w.length := hb k (List.mem_cons_self _ _)
    have hwl : (transposeCountStep m w k).length = w.length := by
      rw [transposeCountStep, List.length_set]
    have hrec := ih (transposeCountStep m w k)
      (fun k2 hk2 => by rw [hwl]; exact hb k2 (List.mem_cons_of_mem _ hk2))
    refine ⟨by rw [List.foldl_cons, hrec.1, hwl], ?_⟩
    intro r
    rw [List.foldl_cons, hrec.2 r]
    have hcnt : ((k :: rest).map m.rowIndex).count r =
        (rest.map m.rowIndex).count r + (if m.rowIndex k = r then 1 else 0) := by
      rw [List.map_cons, List.count_cons]
      by_cases h : m.rowIndex k = r
      · simp [h]
      · simp [h]
    rw [hcnt]
    by_cases h : m.rowIndex k = r
    · rw [transposeCountStep, h, getD_set_self (h ▸ hk), if_pos rfl]
      omega
    · rw [transposeCountStep, getD_set_ne h, if_neg h]
      omega

theorem tCounts_length {N : Type} [Zero N] (m : CsMatrix N) (hm : m.Inv) :
    (tCounts m).length = m.nrows := by
  rw [tCounts,
    (countFold_spec m (List.range m.nvalues) (List.replicate m.nrows 0)
      (fun k hk => by
        rw [List.length_replicate]
        exact rowIndex_lt m hm k (List.mem_range.mp hk))).1,
    List.length_replicate]

theorem tCounts_getD {N : Type} [Zero N] (m : CsMatrix N) (hm : m.Inv)
    (r : Nat) : (tCounts m).getD r 0 = rowCount m r := by
  rw [tCounts,
    (countFold_spec m (List.range m.nvalues) (List.replicate m.nrows 0)
      (fun k hk => by
        rw [List.length_replicate]
        exact rowIndex_lt m hm k (List.mem_range.mp hk))).2 r,
    getD_replicate_self, rowCount, triples_rows_eq m hm]
  simp

/-- Prefix sums of a row-count buffer are the transpose offsets. -/
theorem take_sum_tOffsets {N : Type} [Zero N] (m : CsMatrix N)
    (w : List Nat) (hw : ∀ r2, w.getD r2 0 = rowCount m r2) :
    ∀ r, r ≤ w.length → (w.take r).sum = tOffsets m r := by
  intro r
  induction r with
  | zero =>
    intro _
    simp [tOffsets]
  | succ r ih =>
    intro hr
    have hg : w[r]? = some (w.getD r 0) := by
      rw [List.getElem?_eq_getElem (show r < w.length by omega),
        List.getD_eq_getElem?_getD,
        List.getElem?_eq_getElem (show r < w.length by omega)]
      rfl
    rw [List.take_succ, hg]
    show (w.take r ++ [w.getD r 0]).sum = tOffsets m (r + 1)
    rw [List.sum_append, ih (by omega), tOffsets_succ, hw r]
    simp

theorem tCs_p_length {N : Type} [Zero N] (m : CsMatrix N) (hm : m.Inv) :
    (tCs m).2.1.length = m.nrows := by
  have hlen : (tCounts m).length = (List.replicate m.nrows 0).length := by
    rw [tCounts_length m hm, List.length_replicate]
  rw [tCs, cumsumLoop_eq_part _ _,
    (cumsumPart_spec (tCounts m) (List.replicate m.nrows 0) hlen
      (tCounts m).length (Nat.le_refl _)).2.1, List.length_replicate]

theorem tCs_cursor_length {N : Type} [Zero N] (m : CsMatrix N) (hm : m.Inv) :
    (tCs m).1.length = m.nrows := by
  have hlen : (tCounts m).length = (List.replicate m.nrows 0).length := by
    rw [tCounts_length m hm, List.length_replicate]
  rw [tCs, cumsumLoop_eq_part _ _,
    (cumsumPart_spec (tCounts m) (List.replicate m.nrows 0) hlen
      (tCounts m).length (Nat.le_refl _)).1, tCounts_length m hm]

theorem tCs_p_getD {N : Type} [Zero N] (m : CsMatrix N) (hm : m.Inv)
    (r : Nat) (hr : r < m.nrows) : (tCs m).2.1.getD r 0 = tOffsets m r := by
  have hlen : (tCounts m).length = (List.replicate m.nrows 0).length := by
    rw [tCounts_length m hm, List.length_replicate]
  rw [tCs, cumsumLoop_eq_part _ _,
    ((cumsumPart_spec (tCounts m) (List.replicate m.nrows 0) hlen
      (tCounts m).length (Nat.le_refl _)).2.2.2.1 r).1
      (by rw [tCounts_length m hm]; exact hr),
    take_sum_tOffsets m (tCounts m) (tCounts_getD m hm) r
      (by rw [tCounts_length m hm]; omega)]

theorem tCs_cursor_getD {N : Type} [Zero N] (m : CsMatrix N) (hm : m.Inv)
    (r : Nat) (hr : r < m.nrows) : (tCs m).1.getD r 0 = tOffsets m r := by
  have hlen : (tCounts m).length = (List.replicate m.nrows 0).length := by
    rw [tCounts_length m hm, List.length_replicate]
  rw [tCs, cumsumLoop_eq_part _ _,
    ((cumsumPart_spec (tCounts m) (List.replicate m.nrows 0) hlen
      (tCounts m).length (Nat.le_refl _)).2.2.2.2 r).1
      (by rw [tCounts_length m hm]; exact hr),
    take_sum_tOffsets m (tCounts m) (tCounts_getD m hm) r
      (by rw [tCounts_length m hm]; omega)]

theorem foldl_flatMap {α β γ : Type} (f : α → List β) (g : γ → β → γ) :
    ∀ (l : List α) (init : γ),
      (l.flatMap f).foldl g init =
        l.foldl (fun acc j => (f j).foldl g acc) init := by
  intro l
  induction l with
  | nil => intro init; rfl
  | cons x xs ih =>
    intro init
    rw [List.flatMap_cons, List.foldl_append, List.foldl_cons, ih]

/-- The nested fill loop of `transpose` is the fold of `tStep` over the
column-major triples. -/
theorem fillFold_eq_triples {N : Type} [Zero N] (m : CsMatrix N)
    (st : TState N) :
    (List.range m.ncols).foldl (transposeFillCol m) st =
      m.triples.foldl tStep st := by
  rw [CsMatrix.triples, foldl_flatMap]
  have hfun : (fun (acc : TState N) j =>
      ((m.columnEntries j).map fun e => (e.1, j, e.2)).foldl tStep acc) =
      transposeFillCol m := by
    funext acc j
    rw [List.foldl_map]
    rfl
  rw [hfun]

/-- The fill pass, characterized: after consuming the whole triple
stream, output slot `tOffsets r + t` holds the `t`-th column index /
value among the entries of row `r`, in column-major order. -/
theorem tStep_fold_spec {N : Type} [Zero N] (m : CsMatrix N) (hm : m.Inv) :
    ∀ (S P : List (Nat × Nat × N)) (st : TState N),
      m.triples = P ++ S →
      st.cursor.length = m.nrows →
      st.ib.length = m.nvalues →
      st.vb.length = m.nvalues →
      (∀ r, r < m.nrows →
        st.cursor.getD r 0 = tOffsets m r + ((P.map fun t => t.1).count r)) →
      (∀ r, r < m.nrows →
        ∀ t, t < (P.filter fun x => decide (x.1 = r)).length →
        st.ib.getD (tOffsets m r + t) 0 =
          (((P.filter fun x => decide (x.1 = r)).map fun x => x.2.1).getD t 0) ∧
        st.vb.getD (tOffsets m r + t) 0 =
          (((P.filter fun x => decide (x.1 = r)).map fun x => x.2.2).getD t 0)) →
      ((S.foldl tStep st).ib.length = m.nvalues ∧
       (S.foldl tStep st).vb.length = m.nvalues ∧
       ∀ r, r < m.nrows →
        ∀ t, t < (m.triples.filter fun x => decide (x.1 = r)).length →
        (S.foldl tStep st).ib.getD (tOffsets m r + t) 0 =
          (((m.triples.filter fun x => decide (x.1 = r)).map
            fun x => x.2.1).getD t 0) ∧
        (S.foldl tStep st).vb.getD (tOffsets m r + t) 0 =
          (((m.triples.filter fun x => decide (x.1 = r)).map
            fun x => x.2.2).getD t 0)) := by
  intro S
  induction S with
  | nil =>
    intro P st hPS hcl hil hvl hcur hpos
    rw [List.append_nil] at hPS
    subst hPS
    exact ⟨hil, hvl, hpos⟩
  | cons t0 S' ih =>
    intro P st hPS hcl hil hvl hcur hpos
    rw [List.foldl_cons]
    have hr0 : t0.1 < m.nrows := by
      apply triple_row_lt m hm t0
      rw [hPS]
      exact List.mem_append_right _ (List.mem_cons_self _ _)
    have hcnt_lt : (P.map fun t => t.1).count t0.1 < rowCount m t0.1 := by
      rw [rowCount, hPS, List.map_append, List.count_append, List.map_cons,
        List.count_cons]
      simp
    have hshift : st.cursor.getD t0.1 0 =
        tOffsets m t0.1 + (P.map fun t => t.1).count t0.1 := hcur t0.1 hr0
    have hshift_lt : st.cursor.getD t0.1 0 < m.nvalues := by
      rw [hshift]
      have h1 : tOffsets m t0.1 + (P.map fun t => t.1).count t0.1 <
          tOffsets m (t0.1 + 1) := by
        rw [tOffsets_succ]
        omega
      have h2 : tOffsets m (t0.1 + 1) ≤ tOffsets m m.nrows :=
        tOffsets_mono m _ _ hr0
      rw [tOffsets_total m hm] at h2
      omega
    have hPlen : ∀ r, (P.filter fun x => decide (x.1 = r)).length =
        (P.map fun t => t.1).count r := by
      intro r
      rw [count_map_eq_length_filter]
    have hfl_le : ∀ r, ((P ++ [t0]).filter fun x => decide (x.1 = r)).length ≤
        rowCount m r := by
      intro r
      rw [rowCount, count_map_eq_length_filter]
      apply List.Sublist.length_le
      apply List.Sublist.filter
      rw [hPS]
      have h1 : [t0].Sublist (t0 :: S') := by
        cases S' with
        | nil => exact List.Sublist.refl _
        | cons y ys => exact (List.nil_sublist _).cons₂ t0
      exact h1.append_left P
    apply ih (P ++ [t0])
    · rw [hPS, List.append_assoc]
      rfl
    · rw [tStep, List.length_set]
      exact hcl
    · rw [tStep, List.length_set]
      exact hil
    · rw [tStep, List.length_set]
      exact hvl
    · intro r hr
      by_cases h : t0.1 = r
      · subst h
        rw [tStep]
        show (st.cursor.set t0.1 (st.cursor.getD t0.1 0 + 1)).getD t0.1 0 = _
        rw [getD_set_self (by rw [hcl]; exact hr0), hshift, List.map_append,
          List.count_append, List.map_cons, List.count_cons]
        simp only [List.count_nil, List.map_nil, beq_self_eq_true, if_pos]
        omega
      · rw [tStep]
        show (st.cursor.set t0.1 (st.cursor.getD t0.1 0 + 1)).getD r 0 = _
        rw [getD_set_ne h, hcur r hr, List.map_append, List.count_append,
          List.map_cons, List.count_cons, if_neg (by simpa using h)]
        simp
    · intro r hr t ht
      rw [List.filter_append] at ht ⊢
      by_cases h : t0.1 = r
      · subst h
        rw [show [t0].filter (fun x => decide (x.1 = t0.1)) = [t0] by simp]
          at ht ⊢
        rw [List.length_append] at ht
        simp only [List.length_cons, List.length_nil] at ht
        rw [hPlen t0.1] at ht
        rcases Nat.lt_or_ge t ((P.map fun t => t.1).count t0.1) with htl | htl
        · have hne : st.cursor.getD t0.1 0 ≠ tOffsets m t0.1 + t := by
            rw [hshift]
            omega
          rw [tStep]
          constructor
          · show (st.ib.set (st.cursor.getD t0.1 0) t0.2.1).getD
              (tOffsets m t0.1 + t) 0 = _
            rw [getD_set_ne hne, List.map_append,
              List.getD_append _ _ _ _ (by rw [List.length_map, hPlen]; exact htl)]
            exact (hpos t0.1 hr t (by rw [hPlen]; exact htl)).1
          · show (st.vb.set (st.cursor.getD t0.1 0) t0.2.2).getD
              (tOffsets m t0.1 + t) 0 = _
            rw [getD_set_ne hne, List.map_append,
              List.getD_append _ _ _ _ (by rw [List.length_map, hPlen]; exact htl)]
            exact (hpos t0.1 hr t (by rw [hPlen]; exact htl)).2
        · have hte : t = (P.map fun t => t.1).count t0.1 := by omega
          have hpose : tOffsets m t0.1 + t = st.cursor.getD t0.1 0 := by
            rw [hshift, hte]
          rw [tStep]
          constructor
          · show (st.ib.set (st.cursor.getD t0.1 0) t0.2.1).getD
              (tOffsets m t0.1 + t) 0 = _
            rw [hpose, getD_set_self (by rw [hil]; exact hshift_lt),
              List.map_append]
            have hlenF : ((P.filter fun x => decide (x.1 = t0.1)).map
                fun x => x.2.1).length = t := by
              rw [List.length_map, hPlen]; omega
            rw [show (List.map (fun (x : Nat × Nat × N) => x.2.1) [t0]) =
              [t0.2.1] from rfl, ← hlenF, getD_append_length]
          · show (st.vb.set (st.cursor.getD t0.1 0) t0.2.2).getD
              (tOffsets m t0.1 + t) 0 = _
            rw [hpose, getD_set_self (by rw [hvl]; exact hshift_lt),
              List.map_append]
            have hlenF : ((P.filter fun x => decide (x.1 = t0.1)).map
                fun x => x.2.2).length = t := by
              rw [List.length_map, hPlen]; omega
            rw [show (List.map (fun (x : Nat × Nat × N) => x.2.2) [t0]) =
              [t0.2.2] from rfl, ← hlenF, getD_append_length]
      · rw [show [t0].filter (fun x => decide (x.1 = r)) = [] by simp [h]]
          at ht ⊢
        rw [List.append_nil] at ht ⊢
        have htr : t < rowCount m r := by
          have := hfl_le r
          rw [List.filter_append,
            show [t0].filter (fun x => decide (x.1 = r)) = [] by simp [h],
            List.append_nil] at this
          omega
        have hne : st.cursor.getD t0.1 0 ≠ tOffsets m r + t := by
          rw [hshift]
          rcases Nat.lt_or_ge r t0.1 with hlt | hge
          · have h1 : tOffsets m r + t < tOffsets m (r + 1) := by
              rw [tOffsets_succ]
              omega
            have h2 : tOffsets m (r + 1) ≤ tOffsets m t0.1 :=
              tOffsets_mono m _ _ hlt
            omega
          · have hlt2 : t0.1 < r := by
              rcases Nat.lt_or_ge t0.1 r with h1 | h1
              · exact h1
              · exact absurd (by omega : t0.1 = r) h
            have h1 : tOffsets m t0.1 + (P.map fun t => t.1).count t0.1 <
                tOffsets m (t0.1 + 1) := by
              rw [tOffsets_succ]
              omega
            have h2 : tOffsets m (t0.1 + 1) ≤ tOffsets m r :=
              tOffsets_mono m _ _ hlt2
            omega
        rw [tStep]
        constructor
        · show (st.ib.set (st.cursor.getD t0.1 0) t0.2.1).getD
            (tOffsets m r + t) 0 = _
          rw [getD_set_ne hne]
          exact (hpos r hr t ht).1
        · show (st.vb.set (st.cursor.getD t0.1 0) t0.2.2).getD
            (tOffsets m r + t) 0 = _
          rw [getD_set_ne hne]
          exact (hpos r hr t ht).2

theorem list_ext_getD {α : Type} (d : α) :
    ∀ (l1 l2 : List α), l1.length = l2.length →
      (∀ t, t < l1.length → l1.getD t d = l2.getD t d) → l1 = l2 := by
  intro l1
  induction l1 with
  | nil =>
    intro l2 h _
    cases l2 with
    | nil => rfl
    | cons y ys => simp at h
  | cons x xs ih =>
    intro l2 h hp
    cases l2 with
    | nil => simp at h
    | cons y ys =>
      have h0 : x = y := hp 0 (by simp)
      have hrest : xs = ys := by
        apply ih ys (by simpa using h)
        intro t ht
        exact hp (t + 1) (by simpa using ht)
      rw [h0, hrest]

/-- The final fill state of `transpose`, characterized. -/
theorem tFin_spec {N : Type} [Zero N] (m : CsMatrix N) (hm : m.Inv) :
    (tFin m).ib.length = m.nvalues ∧ (tFin m).vb.length = m.nvalues ∧
    ∀ r, r < m.nrows →
      ∀ t, t < (m.triples.filter fun x => decide (x.1 = r)).length →
      (tFin m).ib.getD (tOffsets m r + t) 0 =
        (((m.triples.filter fun x => decide (x.1 = r)).map
          fun x => x.2.1).getD t 0) ∧
      (tFin m).vb.getD (tOffsets m r + t) 0 =
        (((m.triples.filter fun x => decide (x.1 = r)).map
          fun x => x.2.2).getD t 0) := by
  have heq : tFin m = m.triples.foldl tStep
      ⟨(tCs m).1, List.replicate m.nvalues 0,
        List.replicate m.nvalues (0 : N)⟩ := by
    rw [tFin, fillFold_eq_triples]
  rw [heq]
  apply tStep_fold_spec m hm m.triples []
  · rfl
  · exact tCs_cursor_length m hm
  · simp
  · simp
  · intro r hr
    show (tCs m).1.getD r 0 = tOffsets m r + (([] : List Nat).count r)
    rw [tCs_cursor_getD m hm r hr, List.count_nil]
    omega
  · intro r hr t ht
    simp at ht

theorem transpose_p_eq {N : Type} [Zero N] (m : CsMatrix N) :
    (m.transpose).p = (tCs m).2.1 := rfl

theorem transpose_i_eq {N : Type} [Zero N] (m : CsMatrix N) :
    (m.transpose).i = (tFin m).ib := rfl

theorem transpose_vals_eq {N : Type} [Zero N] (m : CsMatrix N) :
    (m.transpose).vals = (tFin m).vb := rfl

theorem transpose_nvalues {N : Type} [Zero N] (m : CsMatrix N) (hm : m.Inv) :
    (m.transpose).nvalues = m.nvalues := by
  rw [CsMatrix.nvalues, transpose_vals_eq]
  exact (tFin_spec m hm).2.1

theorem transpose_colStart {N : Type} [Zero N] (m : CsMatrix N) (hm : m.Inv)
    (r : Nat) (hr : r < m.nrows) : (m.transpose).colStart r = tOffsets m r := by
  rw [CsMatrix.colStart, transpose_p_eq]
  exact tCs_p_getD m hm r hr

theorem transpose_colEnd {N : Type} [Zero N] (m : CsMatrix N) (hm : m.Inv)
    (r : Nat) (hr : r < m.nrows) :
    (m.transpose).colEnd r = tOffsets m (r + 1) := by
  rw [CsMatrix.colEnd, transpose_p_eq]
  rcases Nat.lt_or_ge (r + 1) m.nrows with hlt | hge
  · rw [if_neg (by rw [tCs_p_length m hm]; omega)]
    exact tCs_p_getD m hm (r + 1) hlt
  · have hre : r + 1 = m.nrows := by omega
    rw [if_pos (by rw [tCs_p_length m hm]; omega), transpose_nvalues m hm,
      hre, tOffsets_total m hm]

theorem filter_length_eq_rowCount {N : Type} [Zero N] (m : CsMatrix N)
    (r : Nat) :
    (m.triples.filter fun x => decide (x.1 = r)).length = rowCount m r := by
  rw [rowCount, count_map_eq_length_filter]

/-- Output column `r` of `transpose` holds exactly the `(column, value)`
occurrences of input row `r`, in column-major order. -/
theorem transpose_columnEntries {N : Type} [Zero N] (m : CsMatrix N)
    (hm : m.Inv) (r : Nat) (hr : r < m.nrows) :
    (m.transpose).columnEntries r = occs m r := by
  have hstart := transpose_colStart m hm r hr
  have hend := transpose_colEnd m hm r hr
  rw [CsMatrix.columnEntries, CsMatrix.colIdx, hstart, hend, tOffsets_succ,
    show tOffsets m r + rowCount m r - tOffsets m r = rowCount m r by omega]
  apply list_ext_getD ((0 : Nat), (0 : N))
  · rw [List.length_map, List.length_range', occs, List.length_map,
      filter_length_eq_rowCount]
  · intro t ht
    rw [List.length_map, List.length_range'] at ht
    have htf : t < (m.triples.filter fun x => decide (x.1 = r)).length := by
      rw [filter_length_eq_rowCount]
      exact ht
    have hrl : t < (List.range' (tOffsets m r) (rowCount m r)).length := by
      rw [List.length_range']
      exact ht
    have hgl : ((List.range' (tOffsets m r) (rowCount m r)).map
        fun k => ((m.transpose).rowIndex k, (m.transpose).getValue k)).getD
        t ((0 : Nat), (0 : N)) =
        ((m.transpose).rowIndex (tOffsets m r + t),
         (m.transpose).getValue (tOffsets m r + t)) := by
      rw [List.getD_eq_getElem?_getD,
        List.getElem?_eq_getElem (by rw [List.length_map]; exact hrl)]
      rw [List.getElem_map, List.getElem_range', Nat.one_mul]
      rfl
    have hgr : (occs m r).getD t ((0 : Nat), (0 : N)) =
        (((m.triples.filter fun x => decide (x.1 = r))[t]).2.1,
         ((m.triples.filter fun x => decide (x.1 = r))[t]).2.2) := by
      rw [occs, List.getD_eq_getElem?_getD,
        List.getElem?_eq_getElem (by rw [List.length_map]; exact htf)]
      rw [List.getElem_map]
      rfl
    rw [hgl, hgr]
    have hspec := (tFin_spec m hm).2.2 r hr t htf
    have hcomp1 : (((m.triples.filter fun x => decide (x.1 = r)).map
        fun x => x.2.1).getD t 0) =
        ((m.triples.filter fun x => decide (x.1 = r))[t]).2.1 := by
      rw [List.getD_eq_getElem?_getD,
        List.getElem?_eq_getElem (by rw [List.length_map]; exact htf)]
      rw [List.getElem_map]
      rfl
    have hcomp2 : (((m.triples.filter fun x => decide (x.1 = r)).map
        fun x => x.2.2).getD t 0) =
        ((m.triples.filter fun x => decide (x.1 = r))[t]).2.2 := by
      rw [List.getD_eq_getElem?_getD,
        List.getElem?_eq_getElem (by rw [List.length_map]; exact htf)]
      rw [List.getElem_map]
      rfl
    have h1 : (m.transpose).rowIndex (tOffsets m r + t) =
        ((m.triples.filter fun x => decide (x.1 = r))[t]).2.1 := by
      rw [CsMatrix.rowIndex, transpose_i_eq, ← hcomp1]
      exact hspec.1
    have h2 : (m.transpose).getValue (tOffsets m r + t) =
        ((m.triples.filter fun x => decide (x.1 = r))[t]).2.2 := by
      rw [CsMatrix.getValue, transpose_vals_eq, ← hcomp2]
      exact hspec.2
    rw [h1, h2]

/-- `transpose` preserves the structural invariants. -/
theorem transpose_Inv {N : Type} [Zero N] (m : CsMatrix N) (hm : m.Inv) :
    (m.transpose).Inv := by
  refine ⟨?_, ?_, ?_, ?_, ?_, ?_⟩
  · rw [transpose_p_eq, tCs_p_length m hm]
    rfl
  · rw [transpose_i_eq, transpose_vals_eq, (tFin_spec m hm).1,
      (tFin_spec m hm).2.1]
  · intro h0
    have h0' : 0 < m.nrows := h0
    rw [transpose_colStart m hm 0 h0']
    rfl
  · intro h0
    have h0' : m.nrows = 0 := h0
    rw [transpose_nvalues m hm, ← tOffsets_total m hm, h0']
    rfl
  · intro j hj
    have hj' : j < m.nrows := hj
    constructor
    · rw [transpose_colStart m hm j hj', transpose_colEnd m hm j hj']
      exact tOffsets_mono m j (j + 1) (by omega)
    · rw [transpose_colEnd m hm j hj', transpose_nvalues m hm,
        ← tOffsets_total m hm]
      exact tOffsets_mono m (j + 1) m.nrows hj'
  · intro j hj r hrmem
    have hj' : j < m.nrows := hj
    rw [CsMatrix.colRows, transpose_columnEntries m hm j hj'] at hrmem
    rw [occs, List.map_map] at hrmem
    obtain ⟨t, htmem, hteq⟩ := List.mem_map.mp hrmem
    have htm : t ∈ m.triples := List.mem_of_mem_filter htmem
    have hlt := triple_col_lt m t htm
    have h2 : t.2.1 = r := hteq
    show r < m.ncols
    exact h2 ▸ hlt

/-- Bucketing a list by a bounded key and concatenating the buckets is
a permutation of the list. -/
theorem flatMap_filter_key_perm {α : Type} (key : α → Nat) :
    ∀ (n : Nat) (l : List α), (∀ x ∈ l, key x < n) →
      ((List.range n).flatMap fun r =>
        l.filter fun x => decide (key x = r)).Perm l := by
  intro n
  induction n with
  | zero =>
    intro l hl
    cases l with
    | nil => simp
    | cons a as => exact absurd (hl a (List.mem_cons_self _ _)) (by omega)
  | succ n ih =>
    intro l hl
    rw [List.range_succ, List.flatMap_append,
      show ([n] : List Nat).flatMap
          (fun r => l.filter fun x => decide (key x = r)) =
        l.filter (fun x => decide (key x = n)) by simp]
    have hB : ∀ r, r < n →
        (l.filter fun x => decide (key x = r)) =
        ((l.filter fun x => !decide (key x = n)).filter
          fun x => decide (key x = r)) := by
      intro r hrn
      rw [List.filter_filter]
      apply List.filter_congr
      intro a _
      by_cases h : key a = r
      · have hn : ¬ r = n := by omega
        simp [h, hn]
      · simp [h]
    have hcong : ((List.range n).flatMap
        fun r => l.filter fun x => decide (key x = r)) =
        (List.range n).flatMap fun r =>
          (l.filter fun x => !decide (key x = n)).filter
            fun x => decide (key x = r) := by
      apply List.flatMap_congr
      intro r hrmem
      exact hB r (List.mem_range.mp hrmem)
    rw [hcong]
    have hBperm := ih (l.filter fun x => !decide (key x = n)) (by
      intro x hx
      have hx2 := List.mem_filter.mp hx
      have hxl := hl x hx2.1
      have hxn : key x ≠ n := by
        intro hc
        rw [hc] at hx2
        simp at hx2
      omega)
    exact (hBperm.append_right _).trans
      (List.perm_append_comm.trans (List.filter_append_perm _ l))

/-- `transpose` maps each stored `(i, j, v)` to `(j, i, v)`, up to
reordering. -/
theorem transpose_triples_perm {N : Type} [Zero N] (m : CsMatrix N)
    (hm : m.Inv) :
    ((m.transpose).triples).Perm (m.triples.map tSwap) := by
  have hcol : ∀ r, r < m.nrows →
      ((occs m r).map fun e => (e.1, r, e.2)) =
      (m.triples.filter fun x => decide (x.1 = r)).map tSwap := by
    intro r hr
    rw [occs, List.map_map]
    apply List.map_congr_left
    intro t htmem
    have ht1 : t.1 = r := of_decide_eq_true (List.mem_filter.mp htmem).2
    show (t.2.1, r, t.2.2) = tSwap t
    show (t.2.1, r, t.2.2) = (t.2.1, t.1, t.2.2)
    rw [ht1]
  have hfl : (m.transpose).triples =
      (List.range m.nrows).flatMap fun r =>
        (m.triples.filter fun x => decide (x.1 = r)).map tSwap := by
    rw [show (m.transpose).triples =
        (List.range m.nrows).flatMap
          (fun r => ((m.transpose).columnEntries r).map fun e => (e.1, r, e.2))
        from rfl]
    apply List.flatMap_congr
    intro r hrmem
    rw [transpose_columnEntries m hm r (List.mem_range.mp hrmem),
      hcol r (List.mem_range.mp hrmem)]
  rw [hfl, ← List.map_flatMap]
  exact (flatMap_filter_key_perm (fun t => t.1) m.nrows m.triples
    (triple_row_lt m hm)).map tSwap

/-- C4: `transpose` swaps the shape and maps each stored entry
`(i, j, v)` to `(j, i, v)`; transposing twice restores the shape and the
multiset of `(row, column, value)` triples. -/
theorem claim_C4_transpose_involution {N : Type} [Zero N] (m : CsMatrix N)
    (hm : m.Inv) :
    (m.transpose).nrows = m.ncols ∧ (m.transpose).ncols = m.nrows ∧
    ((m.transpose).triples).Perm (m.triples.map tSwap) ∧
    ((m.transpose).transpose).nrows = m.nrows ∧
    ((m.transpose).transpose).ncols = m.ncols ∧
    (((m.transpose).transpose).triples).Perm m.triples := by
  refine ⟨rfl, rfl, transpose_triples_perm m hm, rfl, rfl, ?_⟩
  have h1 := transpose_triples_perm (m.transpose) (transpose_Inv m hm)
  have h2 := (transpose_triples_perm m hm).map tSwap
  have h3 : (m.triples.map tSwap).map tSwap = m.triples := by
    rw [List.map_map]
    have hid : (tSwap ∘ tSwap : Nat × Nat × N → Nat × Nat × N) = id := by
      funext t
      rfl
    rw [hid, List.map_id]
  exact h1.trans (h3 ▸ h2)

theorem claim_C4_transpose_involution_witness :
    (⟨2, 2, [0, 1], [1], [(4 : ℤ)]⟩ : CsMatrix ℤ).Inv ∧
    ((⟨2, 2, [0, 1], [1], [(4 : ℤ)]⟩ : CsMatrix ℤ).transpose.nrows = 2 ∧
     (⟨2, 2, [0, 1], [1], [(4 : ℤ)]⟩ : CsMatrix ℤ).transpose.ncols = 2 ∧
     ((⟨2, 2, [0, 1], [1], [(4 : ℤ)]⟩ : CsMatrix ℤ).transpose.triples).Perm
       ((⟨2, 2, [0, 1], [1], [(4 : ℤ)]⟩ : CsMatrix ℤ).triples.map tSwap) ∧
     ((⟨2, 2, [0, 1], [1], [(4 : ℤ)]⟩ : CsMatrix ℤ).transpose.transpose).nrows
       = 2 ∧
     ((⟨2, 2, [0, 1], [1], [(4 : ℤ)]⟩ : CsMatrix ℤ).transpose.transpose).ncols
       = 2 ∧
     (((⟨2, 2, [0, 1], [1], [(4 : ℤ)]⟩ :
         CsMatrix ℤ).transpose.transpose).triples).Perm
       (⟨2, 2, [0, 1], [1], [(4 : ℤ)]⟩ : CsMatrix ℤ).triples) :=
  ⟨by decide, claim_C4_transpose_involution
    (⟨2, 2, [0, 1], [1], [(4 : ℤ)]⟩ : CsMatrix ℤ) (by decide)⟩

theorem sublist_singleton_of {α : Type} (j : α) :
    ∀ (l : List α), (∀ x ∈ l, x = j) → l.length ≤ 1 → l.Sublist [j] := by
  intro l
  cases l with
  | nil =>
    intro _ _
    exact List.nil_sublist _
  | cons x xs =>
    intro hall hlen
    cases xs with
    | nil =>
      rw [hall x (List.mem_cons_self _ _)]
    | cons y ys =>
      exfalso
      simp only [List.length_cons] at hlen
      omega

theorem flatMap_sublist {α β : Type} (f g : α → List β) :
    ∀ (l : List α), (∀ x ∈ l, (f x).Sublist (g x)) →
      (l.flatMap f).Sublist (l.flatMap g) := by
  intro l
  induction l with
  | nil =>
    intro _
    exact List.Sublist.refl _
  | cons x xs ih =>
    intro h
    rw [List.flatMap_cons, List.flatMap_cons]
    exact (h x (List.mem_cons_self _ _)).append
      (ih fun y hy => h y (List.mem_cons_of_mem _ hy))

/-- In a duplicate-free matrix each input column contributes at most one
entry to any output column of `transpose`, in input-column order, so the
output row indices form a sublist of `0, 1, …, ncols - 1`. -/
theorem transpose_colRows_sublist {N : Type} [Zero N] (m : CsMatrix N)
    (hm : m.Inv) (hnd : m.ColsNodup) (r : Nat) (hr : r < m.nrows) :
    ((m.transpose).colRows r).Sublist (List.range m.ncols) := by
  rw [CsMatrix.colRows, transpose_columnEntries m hm r hr, occs,
    CsMatrix.triples, List.filter_flatMap, List.map_flatMap, List.map_flatMap]
  have hself : (List.range m.ncols).flatMap (fun j => [j]) =
      List.range m.ncols := by
    simp
  nth_rewrite 2 [← hself]
  apply flatMap_sublist
  intro j hjmem
  have hj : j < m.ncols := List.mem_range.mp hjmem
  apply sublist_singleton_of
  · intro x hx
    obtain ⟨y, hy, hyx⟩ := List.mem_map.mp hx
    obtain ⟨z, hz, hzy⟩ := List.mem_map.mp hy
    have hzmem : z ∈ (m.columnEntries j).map fun e => (e.1, j, e.2) :=
      List.mem_of_mem_filter hz
    obtain ⟨e, he, hez⟩ := List.mem_map.mp hzmem
    rw [← hyx, ← hzy, ← hez]
  · rw [List.length_map, List.length_map, ← count_map_eq_length_filter]
    rw [List.map_map]
    show (m.colRows j).count r ≤ 1
    exact List.nodup_iff_count_le_one.mp (hnd j hj) r

/-- Under well-formed input, `transpose` emits strictly ascending row
indices within every output column. -/
theorem transpose_SortedCols {N : Type} [Zero N] (m : CsMatrix N)
    (hwf : m.WF) : (m.transpose).SortedCols := by
  intro r hr
  have hr' : r < m.nrows := hr
  rw [List.chain'_iff_pairwise]
  exact List.Pairwise.sublist
    (transpose_colRows_sublist m hwf.1 hwf.2 r hr')
    (List.pairwise_lt_range m.ncols)

/-- C6, corrected: `transpose` (on a well-formed input) and
dense-to-sparse conversion emit strictly ascending row indices within
every column; addition and multiplication do not (they emit first-touch
order — see the counterexample). -/
theorem claim_C6_sorted_columns {N : Type} [Zero N] [DecidableEq N]
    (m : CsMatrix N) (M : DMatrix N) (hm : m.WF) :
    (m.transpose).SortedCols ∧ (fromDense M).SortedCols :=
  ⟨transpose_SortedCols m hm, (fromDense_WF M).2.2⟩

theorem claim_C6_sorted_columns_witness :
    (⟨2, 2, [0, 1], [1], [(4 : ℤ)]⟩ : CsMatrix ℤ).WF ∧
    ((⟨2, 2, [0, 1], [1], [(4 : ℤ)]⟩ : CsMatrix ℤ).transpose.SortedCols ∧
     (fromDense (⟨1, 1, fun _ _ => (0 : ℤ)⟩ : DMatrix ℤ)).SortedCols) :=
  ⟨by decide, claim_C6_sorted_columns
    (⟨2, 2, [0, 1], [1], [(4 : ℤ)]⟩ : CsMatrix ℤ)
    (⟨1, 1, fun _ _ => (0 : ℤ)⟩ : DMatrix ℤ) (by decide)⟩

theorem claim_C6_sorted_columns_cex :
    (⟨3, 1, [0], [2], [(1 : ℤ)]⟩ : CsMatrix ℤ).WF ∧
    (⟨3, 1, [0], [0], [(1 : ℤ)]⟩ : CsMatrix ℤ).WF ∧
    CsMatrix.add (⟨3, 1, [0], [2], [(1 : ℤ)]⟩ : CsMatrix ℤ)
        ⟨3, 1, [0], [0], [(1 : ℤ)]⟩ =
      some (csAddImpl (⟨3, 1, [0], [2], [(1 : ℤ)]⟩ : CsMatrix ℤ)
        ⟨3, 1, [0], [0], [(1 : ℤ)]⟩) ∧
    (csAddImpl (⟨3, 1, [0], [2], [(1 : ℤ)]⟩ : CsMatrix ℤ)
        ⟨3, 1, [0], [0], [(1 : ℤ)]⟩).i = [2, 0] ∧
    ¬ (csAddImpl (⟨3, 1, [0], [2], [(1 : ℤ)]⟩ : CsMatrix ℤ)
        ⟨3, 1, [0], [0], [(1 : ℤ)]⟩).SortedCols := by
  refine ⟨by decide, by decide, rfl, by decide, ?_⟩
  intro h
  have h2 := h 0 (by decide)
  have he : (csAddImpl (⟨3, 1, [0], [2], [(1 : ℤ)]⟩ : CsMatrix ℤ)
      ⟨3, 1, [0], [0], [(1 : ℤ)]⟩).colRows 0 = [2, 0] := by decide
  rw [he] at h2
  have hlt := (List.chain'_cons.mp h2).1
  omega

end CsCheck
